import Mathlib

/-!
Verification of the Cyberbrain backward slicer (`cyberbrain/flow.py`,
`cyberbrain/backtrace.py`, `cyberbrain/utils.py`, `cyberbrain/data.py`)
against its natural-language specification.

The Python source is shallowly embedded: each Python method becomes a Lean
function on explicit state; in-place mutation becomes functional update of a
node array; Python exceptions (KeyError on dict subscription, TypeError on
subscripting `None`, AssertionError) become `Except Unit`.  Python `set`s are
represented as duplicate-free lists (insertion keeps first occurrence, as only
membership matters); Python `dict`s as association lists with first-match
lookup.
-/

namespace Cyberbrain

/-- Decidable equality of `Except` results, for evaluating concrete runs. -/
instance {e a : Type} [DecidableEq e] [DecidableEq a] :
    DecidableEq (Except e a) := fun x y =>
  match x, y with
  | Except.error e1, Except.error e2 =>
    if h : e1 = e2 then Decidable.isTrue (by rw [h])
    else Decidable.isFalse (fun hc => h (Except.error.inj hc))
  | Except.error _, Except.ok _ =>
      Decidable.isFalse (fun hc => Except.noConfusion hc)
  | Except.ok _, Except.error _ =>
      Decidable.isFalse (fun hc => Except.noConfusion hc)
  | Except.ok a1, Except.ok a2 =>
    if h : a1 = a2 then Decidable.isTrue (by rw [h])
    else Decidable.isFalse (fun hc => h (Except.ok.inj hc))

/-- Python identifiers (`basis.ID`, a `str` subclass). -/
abbrev ID := String

/-- Runtime values as captured in `vars` snapshots.  The slicer compares values
only with `utils.has_diff`, which implements deep structural (not identity)
equality; a list of naturals carries enough deep structure to model that. -/
abbrev Value := List Nat

/-- `utils.has_diff(new_value, old_value)`.  Modelled from the spec: the
function itself is absent from the `utils.py` iteration in the corpus; the spec
defines it as deep structural inequality ("identifier comparison is by deep
value equality, not identity"). -/
def has_diff (new_value old_value : Value) : Bool := new_value ≠ old_value

/-- A `vars` snapshot: Python dict from identifier to captured value. -/
abbrev Vars := List (ID × Value)

/-- Python `d.get(k, default=None)`-style lookup on an association list. -/
def Vars.get? (vs : Vars) (id : ID) : Option Value :=
  (vs.find? (fun p => p.1 = id)).map Prod.snd

/-- Python `k in d`. -/
def Vars.hasKey (vs : Vars) (id : ID) : Bool := (Vars.get? vs id).isSome

/-- `flow.VarAppearance`: variable appears in current frame. -/
structure VarAppearance where
  id : ID
  value : Value
deriving Repr, DecidableEq

/-- `flow.VarModification`: variable value modified in current frame. -/
structure VarModification where
  id : ID
  old_value : Value
  new_value : Value
deriving Repr, DecidableEq

/-- `flow.VarSwitch`: variable switches at callsite. -/
structure VarSwitch where
  arg_id : ID
  param_id : ID
  value : Value
deriving Repr, DecidableEq

/-- One yield of the generator `Node.get_and_update_var_changes`
(`Union[VarModification, VarAppearance]`). -/
inductive VarChange where
  | appearance (a : VarAppearance)
  | modification (m : VarModification)
deriving Repr, DecidableEq

/-- The identifier a yielded change is about (`var_change.id`). -/
def VarChange.id : VarChange → ID
  | .appearance a => a.id
  | .modification m => m.id

/-- `basis.NodeType`. -/
inductive NodeType where
  | line
  | call
deriving Repr, DecidableEq

/-- A Python node reference: `None`, the `Flow.ROOT` sentinel object, or an
actual `Node` (nodes are identified by their index in the flow's node array;
Python `is` on nodes becomes index equality). -/
inductive Ref where
  | null
  | root
  | node (i : Nat)
deriving Repr, DecidableEq

/-- One `flow.Node` together with its embedded `TrackingMetadata`
(`Node.__getattr__`/`__setattr__` delegate metadata attributes, so the two
Python objects behave as one record).

`names` holds `utils.find_names(self.code_ast)`, precomputed: `find_names` is
absent from the `utils.py` iteration in the corpus and is modelled from the
spec as "the set of identifiers syntactically referenced in the statement".
`frame_is_init` holds `self.frame_id.frame_belonging_type ==
FrameBelongingType.INIT_METHOD` (`FrameBelongingType` is likewise absent from
`basis.py`). -/
structure NodeData where
  type : NodeType
  frame_id : List Nat
  frame_is_init : Bool
  vars : Vars
  vars_before_return : Option Vars
  names : List ID
  param_to_arg : List (ID × List ID)
  prev : Ref
  next : Ref
  step_into : Ref
  returned_from : Ref
  tracking : List ID
  var_appearances : List VarAppearance
  var_modifications : List VarModification
  var_switches : List VarSwitch
  is_relevant_return : Bool
  is_target : Bool
deriving Repr, DecidableEq

/-- `Node.is_callsite`: `self.step_into is not None`. -/
def NodeData.is_callsite (n : NodeData) : Bool :=
  n.step_into ≠ Ref.null

/-- `TrackingMetadata.get_args`:
`set(itertools.chain.from_iterable(self.param_to_arg.values()))`. -/
def NodeData.get_args (n : NodeData) : List ID :=
  (n.param_to_arg.map Prod.snd).flatten

/-- `TrackingMetadata.set_param_arg_mapping` derives `arg_to_param` by
inverting `param_to_arg` (`self.arg_to_param[arg] = param` in iteration order,
later params overwriting earlier ones for a duplicated arg). -/
def NodeData.arg_to_param (n : NodeData) (arg : ID) : Option ID :=
  n.param_to_arg.foldl
    (fun acc pa => if arg ∈ pa.2 then some pa.1 else acc) none

/-- Python `set.add` on a duplicate-free list. -/
def insertId (t : List ID) (i : ID) : List ID :=
  if i ∈ t then t else t ++ [i]

/-- `TrackingMetadata.add_tracking`: each new id is added to `tracking` only
if it is a key of `self.vars` ("Identifiers being tracked must exist in data
because we can't track something that don't exist in previous nodes"). -/
def NodeData.add_tracking (n : NodeData) (new_ids : List ID) : NodeData :=
  let t' := new_ids.foldl
    (fun t i => if Vars.hasKey n.vars i then insertId t i else t) n.tracking
  { n with tracking := t' }

/-- `TrackingMetadata.sync_tracking_with`: `self.add_tracking(*other.tracking)`. -/
def NodeData.sync_tracking_with (n other : NodeData) : NodeData :=
  n.add_tracking other.tracking

/-- `add_var_appearances` / `add_var_modifications` for one yielded change:
the generator appends each change to the matching list as it is consumed. -/
def NodeData.recordChange (n : NodeData) : VarChange → NodeData
  | .appearance a => { n with var_appearances := n.var_appearances ++ [a] }
  | .modification m =>
      { n with var_modifications := n.var_modifications ++ [m] }

/-- `TrackingMetadata.add_var_switches` for one switch. -/
def NodeData.add_var_switch (n : NodeData) (s : VarSwitch) : NodeData :=
  { n with var_switches := n.var_switches ++ [s] }

/-- One iteration of the loop inside the generator
`Node.get_and_update_var_changes(self, other)`: for `var_id`, compare
`self.vars.get(var_id, _dummy)` with `other.vars[var_id]` — absent from
`self.vars` yields a `VarAppearance`, present with `utils.has_diff` yields a
`VarModification`; `other.vars[var_id]` raises `KeyError` when absent. -/
def changeStep (self other : NodeData) (acc : List VarChange)
    (var_id : ID) : Except Unit (List VarChange) :=
  let old_value := Vars.get? self.vars var_id
  match Vars.get? other.vars var_id with
  | none => throw ()
  | some new_value =>
    match old_value with
    | none =>
        pure (acc ++ [VarChange.appearance ⟨var_id, new_value⟩])
    | some old_v =>
        if has_diff new_value old_v then
          pure (acc ++
            [VarChange.modification ⟨var_id, old_v, new_value⟩])
        else pure acc

/-- The list of changes yielded by `Node.get_and_update_var_changes` when
driven to exhaustion: one `changeStep` per `var_id in other.tracking`.  The
method asserts `self.frame_id == other.frame_id` (`AssertionError` becomes
`Except.error`). -/
def getVarChanges (self other : NodeData) :
    Except Unit (List VarChange) :=
  if self.frame_id ≠ other.frame_id then throw ()
  else other.tracking.foldlM (changeStep self other) []

/-- One iteration of the loop in `Node.update_var_changes_before_return`:
`old_value = self.vars.get(var_id, _dummy)`, then
`new_value = self.vars_before_return[var_id]` — which is a `TypeError` when
`vars_before_return` is `None` and a `KeyError` when the key is absent — then
record an appearance or (under `utils.has_diff`) a modification. -/
def vbrStep (m : NodeData) (var_id : ID) : Except Unit NodeData :=
  let old_value := Vars.get? m.vars var_id
  match m.vars_before_return with
  | none => throw ()
  | some vbr =>
    match Vars.get? vbr var_id with
    | none => throw ()
    | some new_value =>
      match old_value with
      | none =>
          pure (m.recordChange (.appearance ⟨var_id, new_value⟩))
      | some old_v =>
        if has_diff new_value old_v then
          pure (m.recordChange
            (.modification ⟨var_id, old_v, new_value⟩))
        else pure m

/-- `Node.update_var_changes_before_return`: compares `self.vars` with
`self.vars_before_return` for every tracked id, recording changes on `self`.
The source's `if self.vars_before_return is None: pass` is a no-op (it does
not return early), so the loop body runs regardless and subscripts `None` as
soon as `tracking` is non-empty. -/
def updateVarChangesBeforeReturn (n : NodeData) :
    Except Unit NodeData :=
  n.tracking.foldlM vbrStep n

/-- The pure update that case 1 applies to the (already synced) `current`
once `any(...)` has consumed the generator: the prefix of yields consumed by
`any` is exactly the first change (every yielded dataclass is truthy), each
consumed yield having been recorded by the generator's own side effect; if a
change was seen, all names referenced in the statement are added to tracking. -/
def case1Apply (synced : NodeData) (changes : List VarChange) : NodeData :=
  if (changes.take 1).isEmpty then
    (changes.take 1).foldl NodeData.recordChange synced
  else
    ((changes.take 1).foldl NodeData.recordChange synced).add_tracking
      ((changes.take 1).foldl NodeData.recordChange synced).names

/-- Case 1 of `trace_flow` ("non-callsite"), acting on the pair
`(current, next)` and returning the updated `current`:

    current.sync_tracking_with(next)
    if any(current.get_and_update_var_changes(next)):
        current.add_tracking(*utils.find_names(current.code_ast))

`any` consumes the generator only up to its first (truthy) yield, so exactly
the first change — if one exists — is recorded on `current`; the remaining
identifiers in `next.tracking` are never compared. -/
def case1Body (current next : NodeData) : Except Unit NodeData :=
  match getVarChanges (current.sync_tracking_with next) next with
  | Except.error e => Except.error e
  | Except.ok changes =>
      Except.ok (case1Apply (current.sync_tracking_with next) changes)

/-- Inner loop body of case 2, for one caller-side `arg_id` bound to the
tracked parameter `identifier`: `current.add_tracking(arg_id)`, then a
`VarSwitch` with value `current.vars[arg_id]` (`KeyError` when absent). -/
def case2ArgStep (identifier : ID) (c : NodeData) (arg_id : ID) :
    Except Unit NodeData :=
  match Vars.get? (c.add_tracking [arg_id]).vars arg_id with
  | none => Except.error ()
  | some v =>
      Except.ok ((c.add_tracking [arg_id]).add_var_switch
        ⟨arg_id, identifier, v⟩)

/-- Outer loop body of case 2, for one identifier in `next.tracking`: skip
the `self` parameter of an `__init__` frame, otherwise look up
`current.param_to_arg[identifier]` (`KeyError` when absent) and run the inner
loop over the bound caller-side identifiers. -/
def case2IdStep (next_is_init : Bool) (cur : NodeData) (identifier : ID) :
    Except Unit NodeData :=
  if next_is_init ∧ identifier = "self" then Except.ok cur
  else
    match (cur.param_to_arg.find? (fun p => p.1 = identifier)).map
        Prod.snd with
    | none => Except.error ()
    | some arg_ids => arg_ids.foldlM (case2ArgStep identifier) cur

/-- Case 2 of `trace_flow` (`current.step_into is next`): the loop over
`next.tracking`. -/
def case2Body (current next : NodeData) : Except Unit NodeData :=
  next.tracking.foldlM (case2IdStep next.frame_is_init) current

/-- The tail of case 3's per-change loop body, acting on `returned_from`
(after the possible argument-alias tracking):

    if returned_from is an __init__ frame: continue
    if var_change.id in ids_assigned_to:
        returned_from.is_relevant_return = True
        returned_from.add_tracking(*utils.find_names(returned_from.code_ast))
-/
def case3ReturnTrack (ids_assigned_to : List ID) (rf : NodeData)
    (vc : VarChange) : NodeData :=
  if rf.frame_is_init then rf
  else if vc.id ∈ ids_assigned_to then
    ({ rf with is_relevant_return := true }).add_tracking rf.names
  else rf

/-- The per-change body of case 3's loop
`for var_change in current.get_and_update_var_changes(next)`:

    if var_change.id in args:
        returned_from.add_tracking(current.arg_to_param[var_change.id])
    ... then `case3ReturnTrack` ...
-/
def case3ChangeStep (args ids_assigned_to : List ID) (current : NodeData)
    (rf : NodeData) (vc : VarChange) : Except Unit NodeData :=
  if vc.id ∈ args then
    match current.arg_to_param vc.id with
    | none => Except.error ()
    | some param =>
        Except.ok (case3ReturnTrack ids_assigned_to
          (rf.add_tracking [param]) vc)
  else Except.ok (case3ReturnTrack ids_assigned_to rf vc)

/-- `ids_assigned_to = utils.find_names(current.code_ast) - args`: the ids on
the left of the call statement. -/
def assignedIds (c : NodeData) : List ID :=
  c.names.filter (fun i => i ∉ c.get_args)

/-- "If this is calling `__init__`, tracks `self`":
`returned_from.add_tracking(ID("self"))`. -/
def seedSelf (rf : NodeData) : NodeData :=
  if rf.frame_is_init then rf.add_tracking ["self"] else rf

/-- Case 3 of `trace_flow` (returning from a call), acting on the triple
`(current, next, returned_from)` and returning the updated
`(current, returned_from)`.  In source order: `current.sync_tracking_with
(next)`; `args = current.get_args()`; `ids_assigned_to` as above; the
`__init__` self-seeding; the loop over the fully driven change generator
(whose consumption records every change on `current`); finally
`returned_from.update_var_changes_before_return()`. -/
def case3Body (current next rf : NodeData) :
    Except Unit (NodeData × NodeData) :=
  match getVarChanges (current.sync_tracking_with next) next with
  | Except.error e => Except.error e
  | Except.ok changes =>
    match changes.foldlM
        (case3ChangeStep (current.sync_tracking_with next).get_args
          (assignedIds (current.sync_tracking_with next))
          (changes.foldl NodeData.recordChange
            (current.sync_tracking_with next)))
        (seedSelf rf) with
    | Except.error e => Except.error e
    | Except.ok rf1 =>
      match updateVarChangesBeforeReturn rf1 with
      | Except.error e => Except.error e
      | Except.ok rf2 =>
          Except.ok (changes.foldl NodeData.recordChange
            (current.sync_tracking_with next), rf2)

/-- State of the `trace_flow` loop: the node array plus the two cursors.
`current` may be `None`, `Flow.ROOT`, or a node; `next` is always a node
(its index). -/
structure FlowState where
  nodes : List NodeData
  current : Ref
  nextIdx : Nat
deriving Repr, DecidableEq

/-- One iteration of the `trace_flow` while-loop.  Returns `none` when
`current is flow.ROOT` (loop exit); attribute access on a `None` current
raises, and a dangling node index is an internal inconsistency
(`Except.error`).  Advancement follows the source: cases 1 and 2 do
`next, current = current, current.prev`; case 3 does
`next, current = returned_from, returned_from.prev`. -/
def traceStep (s : FlowState) : Except Unit (Option FlowState) :=
  match s.current with
  | Ref.root => Except.ok none
  | Ref.null => Except.error ()
  | Ref.node ci =>
    match s.nodes[ci]?, s.nodes[s.nextIdx]? with
    | some current, some next =>
      if ¬ current.is_callsite then
        match case1Body current next with
        | Except.error e => Except.error e
        | Except.ok current' =>
            Except.ok (some ⟨s.nodes.set ci current', current'.prev, ci⟩)
      else if current.step_into = Ref.node s.nextIdx then
        match case2Body current next with
        | Except.error e => Except.error e
        | Except.ok current' =>
            Except.ok (some ⟨s.nodes.set ci current', current'.prev, ci⟩)
      else
        match current.returned_from with
        | Ref.node ri =>
          match s.nodes[ri]? with
          | some rf =>
            match case3Body current next rf with
            | Except.error e => Except.error e
            | Except.ok (current', rf') =>
                Except.ok (some ⟨(s.nodes.set ci current').set ri rf',
                  rf'.prev, ri⟩)
          | none => Except.error ()
        | _ => Except.error ()
    | _, _ => Except.error ()

/-- The `trace_flow` while-loop, fuel-indexed: runs at most `fuel` iterations
and returns the state at loop exit (or the state reached when fuel runs out,
which never happens for well-formed flows by the termination theorem). -/
def traceLoop : Nat → FlowState → Except Unit FlowState
  | 0, s => Except.ok s
  | fuel + 1, s =>
    match traceStep s with
    | Except.error e => Except.error e
    | Except.ok none => Except.ok s
    | Except.ok (some s') => traceLoop fuel s'

/-- `flow.Flow`: the whole graph with its `start` and `target` nodes (by
index into the node array). -/
structure Flow where
  nodes : List NodeData
  start : Nat
  target : Nat
deriving Repr, DecidableEq

/-- Updates the node at index `i` with `f` (no-op when out of range, matching
that Python attribute assignment always has a live object here). -/
def Flow.modifyNode (f : Flow) (i : Nat) (g : NodeData → NodeData) : Flow :=
  { f with nodes :=
      match f.nodes[i]? with
      | none => f.nodes
      | some n => f.nodes.set i (g n) }

/-- `Flow._update_target_id`: extracts the single identifier argument of the
sentinel `cyberbrain.register(x)` call parsed from `target.code_str` and seeds
it with `self.target.add_tracking(ID(...))`.  The ast extraction is performed
by the Python `ast` library; here the extracted identifier `x` is passed in
directly, for a target statement that is a register call with a single
identifier argument `x`. -/
def Flow.update_target_id (f : Flow) (x : ID) : Flow :=
  f.modifyNode f.target (fun n => n.add_tracking [x])

/-- `Flow.__init__`: sets `start.prev = ROOT`, `target.is_target = True`, and
calls `_update_target_id` (with `x` the identifier extracted from the register
call, as above). -/
def Flow.init (nodes : List NodeData) (start target : Nat) (x : ID) : Flow :=
  Flow.update_target_id
    (((Flow.mk nodes start target).modifyNode start
        (fun n => { n with prev := Ref.root })).modifyNode target
      (fun n => { n with is_target := true })) x

/-- `trace_flow(flow)`: `current, next = flow.target.prev, flow.target`, then
the while-loop; the annotated flow is the node array at loop exit. -/
def trace_flow (fuel : Nat) (f : Flow) : Except Unit Flow :=
  match f.nodes[f.target]? with
  | none => Except.error ()
  | some target =>
    match traceLoop fuel ⟨f.nodes, target.prev, f.target⟩ with
    | Except.error e => Except.error e
    | Except.ok final => Except.ok { f with nodes := final.nodes }

/-! ### Generic helper lemmas -/

/-- Success of a monadic fold that preserves a predicate step-wise. -/
theorem foldlM_ok_of_all {α β : Type} (P : β → Prop)
    (f : β → α → Except Unit β) (l : List α)
    (h : ∀ b a, a ∈ l → P b → ∃ b', f b a = Except.ok b' ∧ P b') :
    ∀ b, P b → ∃ b', l.foldlM f b = Except.ok b' ∧ P b' := by
  induction l with
  | nil => intro b hb; exact ⟨b, rfl, hb⟩
  | cons a l ih =>
    intro b hb
    obtain ⟨b1, hb1, hPb1⟩ := h b a (List.mem_cons_self a l) hb
    obtain ⟨b2, hb2, hPb2⟩ :=
      ih (fun b a ha hb => h b a (List.mem_cons_of_mem _ ha) hb) b1 hPb1
    exact ⟨b2, by rw [List.foldlM_cons, hb1]; exact hb2, hPb2⟩

/-- A predicate preserved by each successful step of a monadic fold is
preserved by the whole fold. -/
theorem foldlM_preserve {α β : Type} (P : β → Prop)
    (f : β → α → Except Unit β) (l : List α)
    (h : ∀ b a b', a ∈ l → f b a = Except.ok b' → P b → P b') :
    ∀ b b', l.foldlM f b = Except.ok b' → P b → P b' := by
  induction l with
  | nil =>
    intro b b' hfold hb
    simp only [List.foldlM_nil] at hfold
    cases hfold; exact hb
  | cons a l ih =>
    intro b b' hfold hb
    rw [List.foldlM_cons] at hfold
    cases hfa : f b a with
    | error e => rw [hfa] at hfold; cases hfold
    | ok b1 =>
      rw [hfa] at hfold
      exact ih (fun b a b' ha => h b a b' (List.mem_cons_of_mem _ ha)) b1 b'
        hfold (h b a b1 (List.mem_cons_self a l) hfa hb)

/-! ### Elementary facts about the metadata operations -/

theorem mem_insertId_self (t : List ID) (i : ID) : i ∈ insertId t i := by
  unfold insertId
  by_cases h : i ∈ t <;> simp [h]

theorem mem_insertId_of_mem {t : List ID} {j : ID} (i : ID) (h : j ∈ t) :
    j ∈ insertId t i := by
  unfold insertId
  by_cases h' : i ∈ t <;> simp [h', h]

/-- `add_tracking` touches only `tracking`. -/
theorem add_tracking_fields (n : NodeData) (ids : List ID) :
    (n.add_tracking ids).vars = n.vars ∧
    (n.add_tracking ids).var_appearances = n.var_appearances ∧
    (n.add_tracking ids).var_modifications = n.var_modifications ∧
    (n.add_tracking ids).var_switches = n.var_switches ∧
    (n.add_tracking ids).prev = n.prev ∧
    (n.add_tracking ids).step_into = n.step_into ∧
    (n.add_tracking ids).returned_from = n.returned_from := by
  unfold NodeData.add_tracking; exact ⟨rfl, rfl, rfl, rfl, rfl, rfl, rfl⟩

/-- Membership in the tracking list after `add_tracking`: an identifier is
there iff it was already tracked or is a newly added id that is a key of the
node's `vars`. -/
theorem mem_insertId_iff {t : List ID} {i j : ID} :
    j ∈ insertId t i ↔ j ∈ t ∨ j = i := by
  unfold insertId
  by_cases h : i ∈ t <;> simp [h]
  exact fun hj => hj ▸ h

/-- Membership after the `add_tracking` fold, stated on raw lists. -/
theorem mem_add_tracking_fold (vs : Vars) (ids : List ID) :
    ∀ (t : List ID) (j : ID),
      j ∈ ids.foldl
          (fun t i => if Vars.hasKey vs i then insertId t i else t) t ↔
        j ∈ t ∨ (j ∈ ids ∧ Vars.hasKey vs j) := by
  induction ids with
  | nil => simp
  | cons a l ih =>
    intro t j
    rw [List.foldl_cons]
    by_cases hk : Vars.hasKey vs a
    · simp only [hk, if_pos]
      rw [ih (insertId t a) j, mem_insertId_iff]
      constructor
      · rintro ((hj | rfl) | ⟨hl, hkj⟩)
        · exact Or.inl hj
        · exact Or.inr ⟨List.mem_cons_self _ _, hk⟩
        · exact Or.inr ⟨List.mem_cons_of_mem _ hl, hkj⟩
      · rintro (hj | ⟨hm, hkj⟩)
        · exact Or.inl (Or.inl hj)
        · rcases List.mem_cons.mp hm with rfl | hl
          · exact Or.inl (Or.inr rfl)
          · exact Or.inr ⟨hl, hkj⟩
    · simp only [hk, if_neg, Bool.false_eq_true, not_false_iff]
      rw [ih t j]
      constructor
      · rintro (hj | ⟨hl, hkj⟩)
        · exact Or.inl hj
        · exact Or.inr ⟨List.mem_cons_of_mem _ hl, hkj⟩
      · rintro (hj | ⟨hm, hkj⟩)
        · exact Or.inl hj
        · rcases List.mem_cons.mp hm with rfl | hl
          · exact absurd hkj hk
          · exact Or.inr ⟨hl, hkj⟩

/-- Membership in the tracking list after `add_tracking`: an identifier is
there iff it was already tracked or is a newly added id that is a key of the
node's `vars`. -/
theorem mem_add_tracking {n : NodeData} {ids : List ID} {j : ID} :
    j ∈ (n.add_tracking ids).tracking ↔
      j ∈ n.tracking ∨ (j ∈ ids ∧ Vars.hasKey n.vars j) := by
  unfold NodeData.add_tracking
  exact mem_add_tracking_fold n.vars ids n.tracking j

/-! ### Characterization of the change generator -/

/-- The change (if any) a diff of two snapshots yields for one identifier:
compares `selfVars.get(var_id, _dummy)` against `otherVars[var_id]` (`none`
also when the right-hand lookup would raise `KeyError`). -/
def changeAtV (selfVars otherVars : Vars) (var_id : ID) : Option VarChange :=
  match Vars.get? otherVars var_id with
  | none => none
  | some new_value =>
    match Vars.get? selfVars var_id with
    | none => some (VarChange.appearance ⟨var_id, new_value⟩)
    | some old_v =>
      if has_diff new_value old_v then
        some (VarChange.modification ⟨var_id, old_v, new_value⟩)
      else none

/-- The change (if any) that the generator yields for one identifier. -/
def changeAt (self other : NodeData) (var_id : ID) : Option VarChange :=
  changeAtV self.vars other.vars var_id

/-- All changes the generator yields, in `other.tracking` order. -/
def changesOf (self other : NodeData) : List VarChange :=
  other.tracking.filterMap (changeAt self other)

theorem getVarChanges_fold_iff (self other : NodeData) (l : List ID)
    (acc : List VarChange) (cs : List VarChange) :
    (l.foldlM (changeStep self other) acc = Except.ok cs) ↔
    (∀ id ∈ l, Vars.hasKey other.vars id) ∧
      cs = acc ++ l.filterMap (changeAt self other) := by
  induction l generalizing acc with
  | nil =>
    simp only [List.foldlM_nil, List.filterMap_nil, List.append_nil,
      List.not_mem_nil, false_implies, implies_true, true_and]
    constructor
    · intro h; cases h; rfl
    · intro h; rw [h]; rfl
  | cons a l ih =>
    rw [List.foldlM_cons]
    cases ho : Vars.get? other.vars a with
    | none =>
      rw [show changeStep self other acc a = Except.error () by
        unfold changeStep; rw [ho]; rfl]
      constructor
      · intro h; cases h
      · rintro ⟨hall, -⟩
        have := hall a (List.mem_cons_self _ _)
        rw [Vars.hasKey, ho] at this; cases this
    | some nv =>
      have hkey : Vars.hasKey other.vars a := by rw [Vars.hasKey, ho]; rfl
      cases hs : Vars.get? self.vars a with
      | none =>
        have hca : changeAt self other a =
            some (VarChange.appearance ⟨a, nv⟩) := by
          unfold changeAt changeAtV; rw [ho, hs]
        rw [show changeStep self other acc a =
            Except.ok (acc ++ [VarChange.appearance ⟨a, nv⟩]) by
          unfold changeStep; rw [ho, hs]; rfl]
        rw [show ((Except.ok (acc ++ [VarChange.appearance ⟨a, nv⟩]) >>=
            fun b => l.foldlM (changeStep self other) b :
            Except Unit (List VarChange))) = l.foldlM (changeStep self other)
            (acc ++ [VarChange.appearance ⟨a, nv⟩]) from rfl]
        rw [ih]
        simp only [List.filterMap_cons, hca, List.mem_cons,
          List.append_assoc, List.singleton_append]
        constructor
        · rintro ⟨hall, rfl⟩
          exact ⟨fun id hid => hid.elim (fun h => h ▸ hkey) (hall id), rfl⟩
        · rintro ⟨hall, rfl⟩
          exact ⟨fun id hid => hall id (Or.inr hid), rfl⟩
      | some ov =>
        by_cases hd : has_diff nv ov
        · have hca : changeAt self other a =
              some (VarChange.modification ⟨a, ov, nv⟩) := by
            unfold changeAt changeAtV; rw [ho, hs]; simp [hd]
          rw [show changeStep self other acc a =
              Except.ok (acc ++ [VarChange.modification ⟨a, ov, nv⟩]) by
            unfold changeStep; rw [ho, hs]; simp [hd]; rfl]
          rw [show ((Except.ok (acc ++
              [VarChange.modification ⟨a, ov, nv⟩]) >>=
              fun b => l.foldlM (changeStep self other) b :
              Except Unit (List VarChange))) =
              l.foldlM (changeStep self other)
              (acc ++ [VarChange.modification ⟨a, ov, nv⟩]) from rfl]
          rw [ih]
          simp only [List.filterMap_cons, hca, List.mem_cons,
            List.append_assoc, List.singleton_append]
          constructor
          · rintro ⟨hall, rfl⟩
            exact ⟨fun id hid => hid.elim (fun h => h ▸ hkey) (hall id),
              rfl⟩
          · rintro ⟨hall, rfl⟩
            exact ⟨fun id hid => hall id (Or.inr hid), rfl⟩
        · have hca : changeAt self other a = none := by
            unfold changeAt changeAtV; rw [ho, hs]; simp [hd]
          rw [show changeStep self other acc a = Except.ok acc by
            unfold changeStep; rw [ho, hs]; simp [hd]; rfl]
          rw [show ((Except.ok acc >>=
              fun b => l.foldlM (changeStep self other) b :
              Except Unit (List VarChange))) =
              l.foldlM (changeStep self other) acc from rfl]
          rw [ih]
          simp only [List.filterMap_cons, hca, List.mem_cons]
          constructor
          · rintro ⟨hall, rfl⟩
            exact ⟨fun id hid => hid.elim (fun h => h ▸ hkey) (hall id),
              rfl⟩
          · rintro ⟨hall, rfl⟩
            exact ⟨fun id hid => hall id (Or.inr hid), rfl⟩

/-- The generator, driven to exhaustion, succeeds exactly when the frames
match and every tracked id of `other` is a key of `other.vars`; the yields are
`changesOf self other`. -/
theorem getVarChanges_ok_iff {self other : NodeData}
    {cs : List VarChange} :
    getVarChanges self other = Except.ok cs ↔
      self.frame_id = other.frame_id ∧
      (∀ id ∈ other.tracking, Vars.hasKey other.vars id) ∧
      cs = changesOf self other := by
  unfold getVarChanges
  by_cases hf : self.frame_id = other.frame_id
  · rw [if_neg (by simp [hf])]
    rw [getVarChanges_fold_iff self other other.tracking [] cs]
    unfold changesOf
    simp [hf]
  · rw [if_pos (by simp [hf])]
    simp only [hf, false_and, iff_false]
    intro h; cases h

/-! ### Concrete nodes used by witnesses and counterexamples -/

/-- A plain LINE node with everything empty, the base for concrete tests. -/
def nodeBase : NodeData where
  type := NodeType.line
  frame_id := [0]
  frame_is_init := false
  vars := []
  vars_before_return := none
  names := []
  param_to_arg := []
  prev := Ref.null
  next := Ref.null
  step_into := Ref.null
  returned_from := Ref.null
  tracking := []
  var_appearances := []
  var_modifications := []
  var_switches := []
  is_relevant_return := false
  is_target := false

/-! ### Claim C10 -/

/-- **C10**: for every node whose `vars_before_return` is `None` and whose
tracking set is non-empty, `update_var_changes_before_return` fails by
subscripting `None`: the method's `if self.vars_before_return is None: pass`
check does not return early, so the error branch is reached under that
precondition. -/
theorem C10_update_var_changes_before_return_none_fails
    (n : NodeData) (h1 : n.vars_before_return = none)
    (h2 : n.tracking ≠ []) :
    updateVarChangesBeforeReturn n = Except.error () := by
  unfold updateVarChangesBeforeReturn
  cases htr : n.tracking with
  | nil => exact absurd htr h2
  | cons a l =>
    rw [List.foldlM_cons]
    rw [show vbrStep n a = Except.error () by unfold vbrStep; rw [h1]; rfl]
    rfl

/-- Witness for C10 at a concrete node. -/
theorem C10_witness :
    ({ nodeBase with tracking := ["x"] } : NodeData).vars_before_return
        = none ∧
    ({ nodeBase with tracking := ["x"] } : NodeData).tracking ≠ [] ∧
    updateVarChangesBeforeReturn { nodeBase with tracking := ["x"] }
        = Except.error () :=
  ⟨rfl, by decide,
    C10_update_var_changes_before_return_none_fails _ rfl (by decide)⟩

/-! ### Evolution: how the slicer may change a node

Every mutation the backward pass performs on a node leaves all structural
fields intact, only appends to `tracking` and the three record lists, and
only ever sets `is_relevant_return` to `True`. -/

/-- `b` is `a` after zero or more slicer mutations. -/
structure Evolves (a b : NodeData) : Prop where
  type_eq : b.type = a.type
  frame_id_eq : b.frame_id = a.frame_id
  frame_is_init_eq : b.frame_is_init = a.frame_is_init
  vars_eq : b.vars = a.vars
  vbr_eq : b.vars_before_return = a.vars_before_return
  names_eq : b.names = a.names
  pta_eq : b.param_to_arg = a.param_to_arg
  prev_eq : b.prev = a.prev
  next_eq : b.next = a.next
  step_into_eq : b.step_into = a.step_into
  returned_from_eq : b.returned_from = a.returned_from
  tracking_app : ∃ δ, b.tracking = a.tracking ++ δ
  appearances_app : ∃ δ, b.var_appearances = a.var_appearances ++ δ
  modifications_app : ∃ δ, b.var_modifications = a.var_modifications ++ δ
  switches_app : ∃ δ, b.var_switches = a.var_switches ++ δ
  irr_mono : a.is_relevant_return = true → b.is_relevant_return = true
  is_target_eq : b.is_target = a.is_target

theorem Evolves.refl (a : NodeData) : Evolves a a :=
  ⟨rfl, rfl, rfl, rfl, rfl, rfl, rfl, rfl, rfl, rfl, rfl,
    ⟨[], (List.append_nil _).symm⟩, ⟨[], (List.append_nil _).symm⟩,
    ⟨[], (List.append_nil _).symm⟩, ⟨[], (List.append_nil _).symm⟩,
    id, rfl⟩

theorem Evolves.trans {a b c : NodeData} (h1 : Evolves a b)
    (h2 : Evolves b c) : Evolves a c := by
  obtain ⟨t1, f1, i1, v1, r1, n1, p1, pr1, nx1, s1, rf1, ⟨d1, hd1⟩,
    ⟨e1, he1⟩, ⟨m1, hm1⟩, ⟨w1, hw1⟩, ir1, tg1⟩ := h1
  obtain ⟨t2, f2, i2, v2, r2, n2, p2, pr2, nx2, s2, rf2, ⟨d2, hd2⟩,
    ⟨e2, he2⟩, ⟨m2, hm2⟩, ⟨w2, hw2⟩, ir2, tg2⟩ := h2
  refine ⟨t2.trans t1, f2.trans f1, i2.trans i1, v2.trans v1, r2.trans r1,
    n2.trans n1, p2.trans p1, pr2.trans pr1, nx2.trans nx1, s2.trans s1,
    rf2.trans rf1, ⟨d1 ++ d2, ?_⟩, ⟨e1 ++ e2, ?_⟩, ⟨m1 ++ m2, ?_⟩,
    ⟨w1 ++ w2, ?_⟩, fun h => ir2 (ir1 h), tg2.trans tg1⟩
  · rw [hd2, hd1, List.append_assoc]
  · rw [he2, he1, List.append_assoc]
  · rw [hm2, hm1, List.append_assoc]
  · rw [hw2, hw1, List.append_assoc]

theorem insertId_app (t : List ID) (i : ID) :
    ∃ δ, insertId t i = t ++ δ := by
  unfold insertId
  by_cases h : i ∈ t
  · exact ⟨[], by simp [h]⟩
  · exact ⟨[i], by simp [h]⟩

theorem add_tracking_evolves (n : NodeData) (ids : List ID) :
    Evolves n (n.add_tracking ids) := by
  unfold NodeData.add_tracking
  refine ⟨rfl, rfl, rfl, rfl, rfl, rfl, rfl, rfl, rfl, rfl, rfl, ?_,
    ⟨[], (List.append_nil _).symm⟩, ⟨[], (List.append_nil _).symm⟩,
    ⟨[], (List.append_nil _).symm⟩, id, rfl⟩
  simp only
  induction ids generalizing n with
  | nil => exact ⟨[], (List.append_nil _).symm⟩
  | cons a l ih =>
    rw [List.foldl_cons]
    by_cases hk : Vars.hasKey n.vars a
    · rw [if_pos hk]
      obtain ⟨δ1, hδ1⟩ := insertId_app n.tracking a
      obtain ⟨δ2, hδ2⟩ :=
        ih { n with tracking := insertId n.tracking a }
      refine ⟨δ1 ++ δ2, ?_⟩
      simp only at hδ2
      rw [hδ2, hδ1, List.append_assoc]
    · rw [if_neg hk]
      exact ih n

theorem sync_tracking_with_evolves (n other : NodeData) :
    Evolves n (n.sync_tracking_with other) :=
  add_tracking_evolves n other.tracking

theorem recordChange_evolves (n : NodeData) (c : VarChange) :
    Evolves n (n.recordChange c) := by
  cases c with
  | appearance a =>
    exact ⟨rfl, rfl, rfl, rfl, rfl, rfl, rfl, rfl, rfl, rfl, rfl,
      ⟨[], (List.append_nil _).symm⟩, ⟨[a], rfl⟩,
      ⟨[], (List.append_nil _).symm⟩, ⟨[], (List.append_nil _).symm⟩,
      id, rfl⟩
  | modification m =>
    exact ⟨rfl, rfl, rfl, rfl, rfl, rfl, rfl, rfl, rfl, rfl, rfl,
      ⟨[], (List.append_nil _).symm⟩, ⟨[], (List.append_nil _).symm⟩,
      ⟨[m], rfl⟩, ⟨[], (List.append_nil _).symm⟩, id, rfl⟩

theorem foldl_recordChange_evolves (l : List VarChange) :
    ∀ n : NodeData, Evolves n (l.foldl NodeData.recordChange n) := by
  induction l with
  | nil => exact fun n => Evolves.refl n
  | cons c l ih =>
    intro n
    rw [List.foldl_cons]
    exact (recordChange_evolves n c).trans (ih _)

theorem add_var_switch_evolves (n : NodeData) (s : VarSwitch) :
    Evolves n (n.add_var_switch s) :=
  ⟨rfl, rfl, rfl, rfl, rfl, rfl, rfl, rfl, rfl, rfl, rfl,
    ⟨[], (List.append_nil _).symm⟩, ⟨[], (List.append_nil _).symm⟩,
    ⟨[], (List.append_nil _).symm⟩, ⟨[s], rfl⟩, id, rfl⟩

theorem set_irr_evolves (n : NodeData) :
    Evolves n { n with is_relevant_return := true } :=
  ⟨rfl, rfl, rfl, rfl, rfl, rfl, rfl, rfl, rfl, rfl, rfl,
    ⟨[], (List.append_nil _).symm⟩, ⟨[], (List.append_nil _).symm⟩,
    ⟨[], (List.append_nil _).symm⟩, ⟨[], (List.append_nil _).symm⟩,
    fun _ => rfl, rfl⟩

theorem vbrStep_evolves {m m' : NodeData} {var_id : ID}
    (h : vbrStep m var_id = Except.ok m') : Evolves m m' := by
  unfold vbrStep at h
  cases hv : m.vars_before_return with
  | none => simp only [hv] at h; exact Except.noConfusion h
  | some vbr =>
    simp only [hv] at h
    cases hg : Vars.get? vbr var_id with
    | none => simp only [hg] at h; exact Except.noConfusion h
    | some nv =>
      simp only [hg] at h
      cases ho : Vars.get? m.vars var_id with
      | none =>
        simp only [ho] at h
        cases h
        exact recordChange_evolves _ _
      | some ov =>
        simp only [ho] at h
        by_cases hd : has_diff nv ov
        · rw [if_pos hd] at h
          cases h
          exact recordChange_evolves _ _
        · rw [if_neg hd] at h
          cases h
          exact Evolves.refl _

theorem updateVarChangesBeforeReturn_evolves {n n' : NodeData}
    (h : updateVarChangesBeforeReturn n = Except.ok n') : Evolves n n' := by
  unfold updateVarChangesBeforeReturn at h
  exact foldlM_preserve (Evolves n) vbrStep n.tracking
    (fun b a b' _ hstep hb => hb.trans (vbrStep_evolves hstep)) n n' h
    (Evolves.refl n)

/-! ### The tracking invariant (claim C9) -/

/-- The invariant of `add_tracking`: every tracked identifier is a key of the
node's own `vars` snapshot. -/
def trackingInv (n : NodeData) : Prop :=
  ∀ id ∈ n.tracking, Vars.hasKey n.vars id

theorem trackingInv_add_tracking {n : NodeData} (ids : List ID)
    (h : trackingInv n) : trackingInv (n.add_tracking ids) := by
  intro id hid
  rcases mem_add_tracking.mp hid with h1 | ⟨-, h2⟩
  · exact h id h1
  · exact h2

theorem recordChange_tracking (n : NodeData) (c : VarChange) :
    (n.recordChange c).tracking = n.tracking := by
  cases c <;> rfl

theorem recordChange_vars (n : NodeData) (c : VarChange) :
    (n.recordChange c).vars = n.vars := by
  cases c <;> rfl

theorem recordChange_vbr (n : NodeData) (c : VarChange) :
    (n.recordChange c).vars_before_return = n.vars_before_return := by
  cases c <;> rfl

theorem foldl_recordChange_tracking (l : List VarChange) (n : NodeData) :
    (l.foldl NodeData.recordChange n).tracking = n.tracking := by
  induction l generalizing n with
  | nil => rfl
  | cons c l ih =>
    rw [List.foldl_cons]
    exact (ih _).trans (recordChange_tracking n c)

theorem foldl_recordChange_vars (l : List VarChange) (n : NodeData) :
    (l.foldl NodeData.recordChange n).vars = n.vars := by
  induction l generalizing n with
  | nil => rfl
  | cons c l ih =>
    rw [List.foldl_cons]
    exact (ih _).trans (recordChange_vars n c)

theorem trackingInv_recordChange {n : NodeData} (c : VarChange)
    (h : trackingInv n) : trackingInv (n.recordChange c) := by
  intro id hid
  rw [recordChange_tracking] at hid
  rw [recordChange_vars]
  exact h id hid

theorem trackingInv_of_evolves_eq {a b : NodeData}
    (hv : b.vars = a.vars) (ht : b.tracking = a.tracking)
    (h : trackingInv a) : trackingInv b := by
  intro id hid
  rw [ht] at hid; rw [hv]; exact h id hid

theorem trackingInv_add_var_switch {n : NodeData} (s : VarSwitch)
    (h : trackingInv n) : trackingInv (n.add_var_switch s) := h

theorem trackingInv_vbrStep {m m' : NodeData} {var_id : ID}
    (hstep : vbrStep m var_id = Except.ok m') (h : trackingInv m) :
    trackingInv m' := by
  unfold vbrStep at hstep
  cases hv : m.vars_before_return with
  | none => simp only [hv] at hstep; exact Except.noConfusion hstep
  | some vbr =>
    simp only [hv] at hstep
    cases hg : Vars.get? vbr var_id with
    | none => simp only [hg] at hstep; exact Except.noConfusion hstep
    | some nv =>
      simp only [hg] at hstep
      cases ho : Vars.get? m.vars var_id with
      | none =>
        simp only [ho] at hstep
        cases hstep
        exact trackingInv_recordChange _ h
      | some ov =>
        simp only [ho] at hstep
        by_cases hd : has_diff nv ov
        · rw [if_pos hd] at hstep
          cases hstep
          exact trackingInv_recordChange _ h
        · rw [if_neg hd] at hstep
          cases hstep
          exact h

theorem trackingInv_updateVBR {n n' : NodeData}
    (h : updateVarChangesBeforeReturn n = Except.ok n')
    (hn : trackingInv n) : trackingInv n' :=
  foldlM_preserve trackingInv vbrStep n.tracking
    (fun _ _ _ _ hstep hb => trackingInv_vbrStep hstep hb) n n' h hn

theorem trackingInv_case1Apply {synced : NodeData} (changes : List VarChange)
    (h : trackingInv synced) : trackingInv (case1Apply synced changes) := by
  unfold case1Apply
  have hfold : trackingInv
      ((changes.take 1).foldl NodeData.recordChange synced) :=
    trackingInv_of_evolves_eq (foldl_recordChange_vars _ _)
      (foldl_recordChange_tracking _ _) h
  by_cases he : ((changes.take 1)).isEmpty
  · rw [if_pos he]; exact hfold
  · rw [if_neg he]; exact trackingInv_add_tracking _ hfold

theorem trackingInv_case1Body {c n c' : NodeData}
    (h : case1Body c n = Except.ok c') (hc : trackingInv c) :
    trackingInv c' := by
  unfold case1Body at h
  cases hg : getVarChanges (c.sync_tracking_with n) n with
  | error e => rw [hg] at h; exact Except.noConfusion h
  | ok cs =>
    rw [hg] at h
    cases h
    exact trackingInv_case1Apply _ (trackingInv_add_tracking _ hc)

theorem trackingInv_case2ArgStep {pid : ID} {c c' : NodeData} {aid : ID}
    (h : case2ArgStep pid c aid = Except.ok c') (hc : trackingInv c) :
    trackingInv c' := by
  unfold case2ArgStep at h
  cases hv : Vars.get? (c.add_tracking [aid]).vars aid with
  | none => rw [hv] at h; exact Except.noConfusion h
  | some v =>
    rw [hv] at h
    cases h
    exact trackingInv_add_var_switch _ (trackingInv_add_tracking _ hc)

theorem trackingInv_case2IdStep {b : Bool} {cur cur' : NodeData} {pid : ID}
    (h : case2IdStep b cur pid = Except.ok cur') (hc : trackingInv cur) :
    trackingInv cur' := by
  unfold case2IdStep at h
  by_cases hskip : b = true ∧ pid = "self"
  · rw [if_pos hskip] at h; cases h; exact hc
  · rw [if_neg hskip] at h
    cases hf : (cur.param_to_arg.find? (fun p => p.1 = pid)).map
        Prod.snd with
    | none => rw [hf] at h; exact Except.noConfusion h
    | some arg_ids =>
      rw [hf] at h
      exact foldlM_preserve trackingInv _ arg_ids
        (fun _ _ _ _ hs hb => trackingInv_case2ArgStep hs hb) cur cur' h hc

theorem trackingInv_case2Body {c n c' : NodeData}
    (h : case2Body c n = Except.ok c') (hc : trackingInv c) :
    trackingInv c' :=
  foldlM_preserve trackingInv _ n.tracking
    (fun _ _ _ _ hs hb => trackingInv_case2IdStep hs hb) c c' h hc

theorem trackingInv_set_irr {rf : NodeData} (h : trackingInv rf) :
    trackingInv { rf with is_relevant_return := true } := h

theorem trackingInv_case3ReturnTrack {idsA : List ID} {rf : NodeData}
    (vc : VarChange) (hrf : trackingInv rf) :
    trackingInv (case3ReturnTrack idsA rf vc) := by
  unfold case3ReturnTrack
  by_cases hi : rf.frame_is_init = true
  · rw [if_pos hi]; exact hrf
  · rw [if_neg hi]
    by_cases hm : vc.id ∈ idsA
    · rw [if_pos hm]
      exact trackingInv_add_tracking _ (trackingInv_set_irr hrf)
    · rw [if_neg hm]; exact hrf

theorem trackingInv_case3ChangeStep {args idsA : List ID}
    {cur rf rf' : NodeData} {vc : VarChange}
    (h : case3ChangeStep args idsA cur rf vc = Except.ok rf')
    (hrf : trackingInv rf) : trackingInv rf' := by
  unfold case3ChangeStep at h
  by_cases ha : vc.id ∈ args
  · rw [if_pos ha] at h
    cases hp : cur.arg_to_param vc.id with
    | none => rw [hp] at h; exact Except.noConfusion h
    | some p =>
      rw [hp] at h
      cases h
      exact trackingInv_case3ReturnTrack _ (trackingInv_add_tracking _ hrf)
  · rw [if_neg ha] at h
    cases h
    exact trackingInv_case3ReturnTrack _ hrf

theorem trackingInv_seedSelf {rf : NodeData} (hrf : trackingInv rf) :
    trackingInv (seedSelf rf) := by
  unfold seedSelf
  by_cases hi : rf.frame_is_init = true
  · rw [if_pos hi]; exact trackingInv_add_tracking _ hrf
  · rw [if_neg hi]; exact hrf

theorem trackingInv_case3Body {c n rf c' rf' : NodeData}
    (h : case3Body c n rf = Except.ok (c', rf'))
    (hc : trackingInv c) (hrf : trackingInv rf) :
    trackingInv c' ∧ trackingInv rf' := by
  unfold case3Body at h
  split at h
  · exact Except.noConfusion h
  · rename_i cs hg
    split at h
    · exact Except.noConfusion h
    · rename_i rf1 hr1
      split at h
      · exact Except.noConfusion h
      · rename_i rf2 hr2
        cases h
        have hinv1 : trackingInv rf1 :=
          foldlM_preserve trackingInv _ cs
            (fun _ _ _ _ hs hb => trackingInv_case3ChangeStep hs hb)
            (seedSelf rf) rf1 hr1 (trackingInv_seedSelf hrf)
        exact ⟨trackingInv_of_evolves_eq (foldl_recordChange_vars _ _)
            (foldl_recordChange_tracking _ _)
            (trackingInv_add_tracking _ hc),
          trackingInv_updateVBR hr2 hinv1⟩

/-- The tracking invariant over a whole loop state. -/
def stateInv (s : FlowState) : Prop := ∀ nd ∈ s.nodes, trackingInv nd

/-- The tracking invariant over a whole flow. -/
def flowInv (f : Flow) : Prop := ∀ nd ∈ f.nodes, trackingInv nd

theorem traceStep_inv {s s' : FlowState}
    (h : traceStep s = Except.ok (some s')) (hs : stateInv s) :
    stateInv s' := by
  unfold traceStep at h
  split at h
  · exact Option.noConfusion (Except.ok.inj h)
  · exact Except.noConfusion h
  · rename_i ci
    split at h
    · rename_i current next hcur hnext
      have hcmem : current ∈ s.nodes := List.getElem?_mem hcur
      split at h
      · split at h
        · exact Except.noConfusion h
        · rename_i current' h1
          cases Except.ok.inj h
          intro nd hnd
          rcases List.mem_or_eq_of_mem_set hnd with hm | rfl
          · exact hs nd hm
          · exact trackingInv_case1Body h1 (hs current hcmem)
      · split at h
        · split at h
          · exact Except.noConfusion h
          · rename_i current' h1
            cases Except.ok.inj h
            intro nd hnd
            rcases List.mem_or_eq_of_mem_set hnd with hm | rfl
            · exact hs nd hm
            · exact trackingInv_case2Body h1 (hs current hcmem)
        · split at h
          · rename_i ri
            split at h
            · rename_i rf hrf
              have hrfmem : rf ∈ s.nodes := List.getElem?_mem hrf
              split at h
              · exact Except.noConfusion h
              · rename_i current' rf' h1
                cases Except.ok.inj h
                intro nd hnd
                rcases List.mem_or_eq_of_mem_set hnd with hnd2 | rfl
                · rcases List.mem_or_eq_of_mem_set hnd2 with hm | rfl
                  · exact hs nd hm
                  · exact (trackingInv_case3Body h1 (hs current hcmem)
                      (hs rf hrfmem)).1
                · exact (trackingInv_case3Body h1 (hs current hcmem)
                    (hs rf hrfmem)).2
            · exact Except.noConfusion h
          · exact Except.noConfusion h
    · exact Except.noConfusion h

theorem traceLoop_inv {fuel : Nat} {s s' : FlowState}
    (h : traceLoop fuel s = Except.ok s') (hs : stateInv s) :
    stateInv s' := by
  induction fuel generalizing s with
  | zero => cases h; exact hs
  | succ fuel ih =>
    unfold traceLoop at h
    split at h
    · exact Except.noConfusion h
    · cases h; exact hs
    · rename_i s1 hstep
      exact ih h (traceStep_inv hstep hs)

theorem modifyNode_inv {f : Flow} {i : Nat} {g : NodeData → NodeData}
    (hg : ∀ n, trackingInv n → trackingInv (g n)) (hf : flowInv f) :
    flowInv (f.modifyNode i g) := by
  unfold Flow.modifyNode
  cases hn : f.nodes[i]? with
  | none => exact hf
  | some n =>
    intro nd hnd
    rcases List.mem_or_eq_of_mem_set hnd with hm | rfl
    · exact hf nd hm
    · exact hg n (hf n (List.getElem?_mem hn))

theorem flowInv_init {nodes : List NodeData} {start target : Nat} {x : ID}
    (h : ∀ nd ∈ nodes, trackingInv nd) :
    flowInv (Flow.init nodes start target x) := by
  unfold Flow.init Flow.update_target_id
  refine modifyNode_inv (fun n hn => trackingInv_add_tracking _ hn) ?_
  refine modifyNode_inv (fun n hn => hn) ?_
  exact modifyNode_inv (fun n hn => hn) h

theorem trace_flow_inv {fuel : Nat} {f f' : Flow}
    (h : trace_flow fuel f = Except.ok f') (hf : flowInv f) :
    flowInv f' := by
  unfold trace_flow at h
  split at h
  · exact Except.noConfusion h
  · rename_i target htgt
    split at h
    · exact Except.noConfusion h
    · rename_i final hloop
      cases Except.ok.inj h
      exact traceLoop_inv hloop hf

/-! ### Claim C9 -/

/-- **C9**: the invariant `tracking ⊆ keys(vars)` is kept by every operation
that grows a tracking set — `add_tracking` itself (which silently drops an
identifier absent from the node's `vars` snapshot), `sync_tracking_with`,
the target seeding done at `Flow` construction, all three slicer cases, and
hence the whole backward pass. -/
theorem C9_tracking_subset_of_vars_keys :
    (∀ (n : NodeData) (ids : List ID), trackingInv n →
      trackingInv (n.add_tracking ids)) ∧
    (∀ (n other : NodeData), trackingInv n →
      trackingInv (n.sync_tracking_with other)) ∧
    (∀ (nodes : List NodeData) (start target : Nat) (x : ID),
      (∀ nd ∈ nodes, trackingInv nd) →
      flowInv (Flow.init nodes start target x)) ∧
    (∀ (c n c' : NodeData), case1Body c n = Except.ok c' →
      trackingInv c → trackingInv c') ∧
    (∀ (c n c' : NodeData), case2Body c n = Except.ok c' →
      trackingInv c → trackingInv c') ∧
    (∀ (c n rf c' rf' : NodeData), case3Body c n rf = Except.ok (c', rf') →
      trackingInv c → trackingInv rf → trackingInv c' ∧ trackingInv rf') ∧
    (∀ (fuel : Nat) (f f' : Flow), trace_flow fuel f = Except.ok f' →
      flowInv f → flowInv f') :=
  ⟨fun _ ids h => trackingInv_add_tracking ids h,
    fun _ other h => trackingInv_add_tracking other.tracking h,
    fun _ _ _ _ h => flowInv_init h,
    fun _ _ _ h hc => trackingInv_case1Body h hc,
    fun _ _ _ h hc => trackingInv_case2Body h hc,
    fun _ _ _ _ _ h hc hrf => trackingInv_case3Body h hc hrf,
    fun _ _ _ h hf => trace_flow_inv h hf⟩

/-- A two-node straight-line flow used as a concrete witness: `n0` is the
start line with an empty snapshot; `n1` is the register-call target whose
snapshot binds `a`. -/
def exNode0 : NodeData :=
  { nodeBase with next := Ref.node 1, names := [] }

/-- The target node of the concrete witness flow. -/
def exNode1 : NodeData :=
  { nodeBase with
    vars := [("a", [1])], prev := Ref.node 0, names := ["a"] }

/-- The concrete two-node flow, built by `Flow.init` with target id `a`. -/
def exFlow : Flow := Flow.init [exNode0, exNode1] 0 1 "a"

/-- Witness for C9: the concrete flow satisfies the invariant, and running
the slicer on it (which terminates in 2 iterations) preserves it. -/
theorem C9_witness :
    flowInv exFlow ∧
    ∃ f', trace_flow 2 exFlow = Except.ok f' ∧ flowInv f' := by
  have hinv : flowInv exFlow := by unfold flowInv trackingInv; decide
  refine ⟨hinv, ?_⟩
  cases hrun : trace_flow 2 exFlow with
  | error e => cases e; exact absurd hrun (by decide)
  | ok f' =>
    exact ⟨f', rfl,
      C9_tracking_subset_of_vars_keys.2.2.2.2.2.2 2 exFlow f' hrun hinv⟩

/-! ### What the record lists gain from a run of changes -/

/-- The modification records among a list of yielded changes. -/
def modsOf (l : List VarChange) : List VarModification :=
  l.filterMap (fun c => match c with
    | VarChange.modification m => some m
    | _ => none)

/-- The appearance records among a list of yielded changes. -/
def appsOf (l : List VarChange) : List VarAppearance :=
  l.filterMap (fun c => match c with
    | VarChange.appearance a => some a
    | _ => none)

theorem foldl_recordChange_mods (l : List VarChange) (n : NodeData) :
    (l.foldl NodeData.recordChange n).var_modifications =
      n.var_modifications ++ modsOf l := by
  induction l generalizing n with
  | nil => simp [modsOf]
  | cons c l ih =>
    rw [List.foldl_cons, ih]
    cases c with
    | appearance a => simp [modsOf, NodeData.recordChange]
    | modification m => simp [modsOf, NodeData.recordChange]

theorem foldl_recordChange_apps (l : List VarChange) (n : NodeData) :
    (l.foldl NodeData.recordChange n).var_appearances =
      n.var_appearances ++ appsOf l := by
  induction l generalizing n with
  | nil => simp [appsOf]
  | cons c l ih =>
    rw [List.foldl_cons, ih]
    cases c with
    | appearance a => simp [appsOf, NodeData.recordChange]
    | modification m => simp [appsOf, NodeData.recordChange]

theorem foldl_recordChange_switches (l : List VarChange) (n : NodeData) :
    (l.foldl NodeData.recordChange n).var_switches = n.var_switches := by
  induction l generalizing n with
  | nil => rfl
  | cons c l ih =>
    rw [List.foldl_cons, ih]
    cases c <;> rfl

/-- What a yielded modification means: the id was present in both snapshots
and the values deep-differ. -/
theorem changeAtV_modification_spec {sv ov : Vars} {id : ID}
    {m : VarModification}
    (h : changeAtV sv ov id = some (VarChange.modification m)) :
    m.id = id ∧ Vars.get? sv id = some m.old_value ∧
      Vars.get? ov id = some m.new_value ∧
      has_diff m.new_value m.old_value = true := by
  unfold changeAtV at h
  cases ho : Vars.get? ov id with
  | none => rw [ho] at h; exact Option.noConfusion h
  | some nv =>
    rw [ho] at h
    cases hs : Vars.get? sv id with
    | none =>
      simp only [hs] at h
      exact Option.noConfusion h (fun he => VarChange.noConfusion he)
    | some old_v =>
      simp only [hs] at h
      by_cases hd : has_diff nv old_v
      · rw [if_pos hd] at h
        obtain rfl : m = ⟨id, old_v, nv⟩ :=
          (VarChange.modification.inj (Option.some.inj h)).symm
        exact ⟨rfl, rfl, rfl, hd⟩
      · rw [if_neg hd] at h
        exact Option.noConfusion h

/-- What a yielded appearance means: the id was absent from the older
snapshot and present in the newer one. -/
theorem changeAtV_appearance_spec {sv ov : Vars} {id : ID}
    {a : VarAppearance}
    (h : changeAtV sv ov id = some (VarChange.appearance a)) :
    a.id = id ∧ Vars.get? sv id = none ∧ Vars.get? ov id = some a.value := by
  unfold changeAtV at h
  cases ho : Vars.get? ov id with
  | none => rw [ho] at h; exact Option.noConfusion h
  | some nv =>
    rw [ho] at h
    cases hs : Vars.get? sv id with
    | none =>
      simp only [hs] at h
      obtain rfl : a = ⟨id, nv⟩ :=
        (VarChange.appearance.inj (Option.some.inj h)).symm
      exact ⟨rfl, rfl, rfl⟩
    | some old_v =>
      simp only [hs] at h
      by_cases hd : has_diff nv old_v
      · rw [if_pos hd] at h
        exact Option.noConfusion h (fun he => VarChange.noConfusion he)
      · rw [if_neg hd] at h
        exact Option.noConfusion h

/-- A change in `changesOf self other` comes from some tracked id of
`other`. -/
theorem mem_changesOf {self other : NodeData} {c : VarChange}
    (h : c ∈ changesOf self other) :
    ∃ id ∈ other.tracking, changeAt self other id = some c := by
  unfold changesOf at h
  obtain ⟨id, hid, hc⟩ := List.mem_filterMap.mp h
  exact ⟨id, hid, hc⟩

/-- `sync_tracking_with` leaves `vars` (and every other non-tracking field)
unchanged, so the changes computed after the sync are those of the unsynced
node. -/
theorem changesOf_sync (c n : NodeData) :
    changesOf (c.sync_tracking_with n) n = changesOf c n := rfl

/-- Tracking membership only grows through `case1Apply`. -/
theorem mem_case1Apply_tracking (synced : NodeData)
    (changes : List VarChange) {id : ID} (h : id ∈ synced.tracking) :
    id ∈ (case1Apply synced changes).tracking := by
  unfold case1Apply
  by_cases he : ((changes.take 1)).isEmpty
  · rw [if_pos he, foldl_recordChange_tracking]; exact h
  · rw [if_neg he]
    exact mem_add_tracking.mpr
      (Or.inl (by rw [foldl_recordChange_tracking]; exact h))

/-! ### Claim C1 -/

/-- The current node of the C1 counterexample: empty `vars` snapshot. -/
def c1Cur : NodeData := nodeBase

/-- The next node of the C1 counterexample: tracks `a`, which is absent from
the current node's snapshot. -/
def c1Next : NodeData :=
  { nodeBase with vars := [("a", [1])], tracking := ["a"] }

/-- **C1 counterexample**: in a case-1 step where `next` tracks `a` but `a`
is not a key of `current.vars`, the step succeeds yet `a` is *not* copied
into `current.tracking` (`add_tracking` silently drops it), refuting "after
the step current.tracking contains every identifier in next.tracking,
regardless of whether those identifiers are present as keys of current's
vars snapshot". -/
theorem C1_counterexample :
    "a" ∈ c1Next.tracking ∧
    case1Body c1Cur c1Next =
      Except.ok { nodeBase with var_appearances := [⟨"a", [1]⟩] } ∧
    "a" ∉ ({ nodeBase with
      var_appearances := [⟨"a", [1]⟩] } : NodeData).tracking := by
  refine ⟨by decide, by decide, by decide⟩

/-- **C1 amended**: during a successful case-1 step, `current.tracking`
gains every identifier of `next.tracking` that is present as a key of
`current.vars` (identifiers absent from the snapshot are silently dropped),
loses nothing, and every *new* `VarModification` recorded on `current` is
for an identifier tracked on `current` after the step. -/
theorem C1_amended_case1_tracking (current next current' : NodeData)
    (h : case1Body current next = Except.ok current') :
    (∀ id ∈ next.tracking, Vars.hasKey current.vars id →
      id ∈ current'.tracking) ∧
    (∀ id ∈ current.tracking, id ∈ current'.tracking) ∧
    (∀ m : VarModification, m ∈ current'.var_modifications →
      m ∉ current.var_modifications → m.id ∈ current'.tracking) := by
  unfold case1Body at h
  split at h
  · exact Except.noConfusion h
  · rename_i cs hg
    cases Except.ok.inj h
    obtain ⟨-, -, hcs⟩ := getVarChanges_ok_iff.mp hg
    have hmemsync : ∀ id ∈ next.tracking, Vars.hasKey current.vars id →
        id ∈ (current.sync_tracking_with next).tracking := by
      intro id hid hk
      exact mem_add_tracking.mpr (Or.inr ⟨hid, hk⟩)
    refine ⟨fun id hid hk =>
        mem_case1Apply_tracking _ cs (hmemsync id hid hk),
      fun id hid => mem_case1Apply_tracking _ cs
        (mem_add_tracking.mpr (Or.inl hid)), ?_⟩
    intro m hm hnotold
    have hmods : (case1Apply (current.sync_tracking_with next)
        cs).var_modifications =
        current.var_modifications ++ modsOf (cs.take 1) := by
      unfold case1Apply
      by_cases he : ((cs.take 1)).isEmpty
      · rw [if_pos he, foldl_recordChange_mods]; rfl
      · rw [if_neg he]
        rw [show ∀ nd : NodeData,
            (nd.add_tracking nd.names).var_modifications =
            nd.var_modifications from fun nd => rfl]
        rw [foldl_recordChange_mods]; rfl
    rw [hmods] at hm
    rcases List.mem_append.mp hm with hold | hnew
    · exact absurd hold hnotold
    · obtain ⟨c, hcmem, hcm⟩ := List.mem_filterMap.mp hnew
      match c, hcm with
      | VarChange.modification m', hcm =>
        cases Option.some.inj hcm
        have hcs1 : VarChange.modification m ∈ cs :=
          List.mem_of_mem_take hcmem
        rw [hcs, changesOf_sync] at hcs1
        obtain ⟨id, hidtrack, hca⟩ := mem_changesOf hcs1
        obtain ⟨hid, hold, hnewv, hd⟩ := changeAtV_modification_spec hca
        have hk : Vars.hasKey current.vars id := by
          rw [Vars.hasKey, hold]; rfl
        have hmem := mem_case1Apply_tracking _ cs
          (hmemsync id hidtrack hk)
        rw [← hid] at hmem
        exact hmem

/-- The concrete current node of the C1 witness step. -/
def c1wCur : NodeData := { nodeBase with vars := [("b", [2])] }

/-- The concrete next node of the C1 witness step. -/
def c1wNext : NodeData :=
  { nodeBase with vars := [("b", [3])], tracking := ["b"] }

/-- The node the C1 witness step produces. -/
def c1wOut : NodeData :=
  { nodeBase with
    vars := [("b", [2])], tracking := ["b"],
    var_modifications := [⟨"b", [2], [3]⟩] }

/-- Witness for C1's amended theorem at a concrete step: `b` is tracked on
`next` and present in `current.vars`, so it lands in `current.tracking`. -/
theorem C1_amended_witness :
    case1Body c1wCur c1wNext = Except.ok c1wOut ∧
    "b" ∈ c1wOut.tracking := by
  constructor
  · decide
  · exact (C1_amended_case1_tracking c1wCur c1wNext c1wOut (by decide)).1
      "b" (by decide) (by decide)

/-! ### Claim C5 -/

theorem modifyNode_getElem (f : Flow) (i : Nat) (g : NodeData → NodeData)
    (j : Nat) :
    (f.modifyNode i g).nodes[j]? =
      if i = j then (f.nodes[j]?).map g else f.nodes[j]? := by
  unfold Flow.modifyNode
  cases hn : f.nodes[i]? with
  | none =>
    by_cases hij : i = j
    · subst hij
      rw [if_pos rfl, hn]; rfl
    · rw [if_neg hij]
  | some n =>
    simp only
    rw [List.getElem?_set]
    by_cases hij : i = j
    · subst hij
      rw [if_pos rfl, if_pos rfl, hn,
        if_pos (List.getElem?_eq_some.mp hn).1]
      rfl
    · rw [if_neg hij, if_neg hij]

/-- The counterexample node for C5 after `Flow.init`: the seeding went
through `add_tracking`, which dropped `x` because it is not a key of the
(empty) target snapshot. -/
def c5Result : NodeData :=
  { nodeBase with prev := Ref.root, is_target := true }

/-- **C5 counterexample**: a flow whose target snapshot lacks the register
call's argument `x` ends construction with an *empty* target tracking set —
the seeding is conditional on `x ∈ target.vars`, not unconditional. -/
theorem C5_counterexample :
    (Flow.init [nodeBase] 0 0 "x").nodes[0]? = some c5Result ∧
    "x" ∉ c5Result.tracking := by
  refine ⟨by decide, by decide⟩

/-- **C5 amended**: after `Flow` construction with register argument `x`,
the target node's tracking set contains `x` *provided* `x` is a key of the
target node's `vars` snapshot (the seeding goes through `add_tracking`). -/
theorem C5_amended_target_seeding (nodes : List NodeData)
    (s t : Nat) (x : ID) (n₀ : NodeData)
    (h : nodes[t]? = some n₀) (hx : Vars.hasKey n₀.vars x) :
    ∃ n', (Flow.init nodes s t x).nodes[t]? = some n' ∧
      x ∈ n'.tracking := by
  obtain ⟨n₁, hn₁, hv₁⟩ : ∃ n₁,
      ((Flow.mk nodes s t).modifyNode s
        (fun n => { n with prev := Ref.root })).nodes[t]? = some n₁ ∧
      n₁.vars = n₀.vars := by
    rw [modifyNode_getElem]
    by_cases hst : s = t
    · rw [if_pos hst]
      rw [show (Flow.mk nodes s t).nodes[t]? = some n₀ from h]
      exact ⟨_, rfl, rfl⟩
    · rw [if_neg hst]
      exact ⟨n₀, h, rfl⟩
  obtain ⟨n₂, hn₂, hv₂⟩ : ∃ n₂,
      (((Flow.mk nodes s t).modifyNode s
          (fun n => { n with prev := Ref.root })).modifyNode t
        (fun n => { n with is_target := true })).nodes[t]? = some n₂ ∧
      n₂.vars = n₀.vars := by
    rw [modifyNode_getElem, if_pos rfl, hn₁]
    exact ⟨_, rfl, hv₁⟩
  rw [show Flow.init nodes s t x =
      ((((Flow.mk nodes s t).modifyNode s
          (fun n => { n with prev := Ref.root })).modifyNode t
        (fun n => { n with is_target := true }))).modifyNode t
        (fun n => n.add_tracking [x]) from rfl]
  rw [modifyNode_getElem, if_pos rfl, hn₂]
  refine ⟨n₂.add_tracking [x], rfl, ?_⟩
  refine mem_add_tracking.mpr (Or.inr ⟨List.mem_singleton.mpr rfl, ?_⟩)
  rw [hv₂]
  exact hx

/-- Witness for C5's amended theorem at the concrete flow `exFlow`, whose
target snapshot binds `a`. -/
theorem C5_amended_witness :
    ∃ n', exFlow.nodes[1]? = some n' ∧ "a" ∈ n'.tracking :=
  C5_amended_target_seeding [exNode0, exNode1] 0 1 "a" exNode1
    (by decide) (by decide)

/-! ### Characterization of the before-return diff -/

theorem mem_modsOf {l : List VarChange} {m : VarModification} :
    m ∈ modsOf l ↔ VarChange.modification m ∈ l := by
  unfold modsOf
  rw [List.mem_filterMap]
  constructor
  · rintro ⟨c, hc, hm⟩
    match c, hm with
    | VarChange.modification m', hm =>
      cases Option.some.inj hm
      exact hc
  · intro h
    exact ⟨VarChange.modification m, h, rfl⟩

theorem mem_appsOf {l : List VarChange} {a : VarAppearance} :
    a ∈ appsOf l ↔ VarChange.appearance a ∈ l := by
  unfold appsOf
  rw [List.mem_filterMap]
  constructor
  · rintro ⟨c, hc, ha⟩
    match c, ha with
    | VarChange.appearance a', ha =>
      cases Option.some.inj ha
      exact hc
  · intro h
    exact ⟨VarChange.appearance a, h, rfl⟩

theorem vbr_fold_iff (vbr : Vars) (l : List ID) :
    ∀ (m m' : NodeData), m.vars_before_return = some vbr →
    (l.foldlM vbrStep m = Except.ok m' ↔
      (∀ id ∈ l, Vars.hasKey vbr id) ∧
      m' = (l.filterMap (changeAtV m.vars vbr)).foldl
        NodeData.recordChange m) := by
  induction l with
  | nil =>
    intro m m' hvbr
    simp only [List.foldlM_nil, List.filterMap_nil, List.foldl_nil,
      List.not_mem_nil, false_implies, implies_true, true_and]
    constructor
    · intro h; cases h; rfl
    · intro h; rw [h]; rfl
  | cons a l ih =>
    intro m m' hvbr
    rw [List.foldlM_cons]
    cases hg : Vars.get? vbr a with
    | none =>
      rw [show vbrStep m a = Except.error () by
        unfold vbrStep; simp [hvbr, hg]; rfl]
      constructor
      · intro h; exact Except.noConfusion h
      · rintro ⟨hall, -⟩
        have := hall a (List.mem_cons_self _ _)
        rw [Vars.hasKey, hg] at this; cases this
    | some nv =>
      have hkey : Vars.hasKey vbr a := by rw [Vars.hasKey, hg]; rfl
      have step_eq : vbrStep m a = Except.ok
          (((a :: []).filterMap (changeAtV m.vars vbr)).foldl
            NodeData.recordChange m) := by
        unfold vbrStep changeAtV
        cases hs : Vars.get? m.vars a with
        | none => simp [hs, hvbr, hg]; rfl
        | some ov =>
          by_cases hd : has_diff nv ov
          · simp [hs, hd, hvbr, hg]; rfl
          · simp [hs, hd, hvbr, hg]; rfl
      rw [step_eq]
      set m1 := (((a :: []).filterMap (changeAtV m.vars vbr)).foldl
        NodeData.recordChange m) with hm1
      have hvars1 : m1.vars = m.vars := foldl_recordChange_vars _ _
      have hvbr1 : m1.vars_before_return = some vbr := by
        rw [hm1]
        cases hca : changeAtV m.vars vbr a with
        | none => simpa [hca] using hvbr
        | some c => simp only [List.filterMap_cons, hca,
            List.filterMap_nil, List.foldl_cons, List.foldl_nil,
            recordChange_vbr]; exact hvbr
      rw [show (Except.ok m1 >>= fun b => l.foldlM vbrStep b :
          Except Unit NodeData) = l.foldlM vbrStep m1 from rfl]
      rw [ih m1 m' hvbr1]
      rw [hvars1]
      constructor
      · rintro ⟨hall, rfl⟩
        refine ⟨fun id hid => ?_, ?_⟩
        · rcases List.mem_cons.mp hid with rfl | hid
          · exact hkey
          · exact hall id hid
        · rw [hm1]
          rw [List.filterMap_cons]
          cases hca : changeAtV m.vars vbr a with
          | none =>
            simp only [hca, List.filterMap_cons, List.filterMap_nil,
              List.foldl_nil]
          | some c =>
            simp only [hca, List.filterMap_cons, List.filterMap_nil,
              List.foldl_cons, List.foldl_nil]
      · rintro ⟨hall, rfl⟩
        refine ⟨fun id hid => hall id (List.mem_cons_of_mem _ hid), ?_⟩
        rw [hm1]
        rw [List.filterMap_cons]
        cases hca : changeAtV m.vars vbr a with
        | none =>
          simp only [hca, List.filterMap_cons, List.filterMap_nil,
            List.foldl_nil]
        | some c =>
          simp only [hca, List.filterMap_cons, List.filterMap_nil,
            List.foldl_cons, List.foldl_nil]

/-- Success-characterization of `update_var_changes_before_return`: either
nothing is tracked (and the node is unchanged), or `vars_before_return` is a
snapshot covering all tracked ids and every tracked id is diffed against it,
recording the resulting appearance/modification records. -/
theorem updateVBR_ok_spec {n n' : NodeData}
    (h : updateVarChangesBeforeReturn n = Except.ok n') :
    (n.tracking = [] ∧ n' = n) ∨
    ∃ vbr, n.vars_before_return = some vbr ∧
      (∀ id ∈ n.tracking, Vars.hasKey vbr id) ∧
      n' = (n.tracking.filterMap (changeAtV n.vars vbr)).foldl
        NodeData.recordChange n := by
  unfold updateVarChangesBeforeReturn at h
  cases hvbr : n.vars_before_return with
  | some vbr =>
    exact Or.inr ⟨vbr, rfl, (vbr_fold_iff vbr n.tracking n n' hvbr).mp h⟩
  | none =>
    cases htr : n.tracking with
    | nil =>
      rw [htr] at h
      cases h
      exact Or.inl ⟨rfl, rfl⟩
    | cons a l =>
      rw [htr, List.foldlM_cons] at h
      rw [show vbrStep n a = Except.error () from by
        unfold vbrStep; simp [hvbr]; rfl] at h
      exact Except.noConfusion h

/-! ### Claim C2 -/

/-- The current node of the C2 counterexample. -/
def c2Cur : NodeData :=
  { nodeBase with vars := [("a", [0]), ("b", [0])] }

/-- The next node of the C2 counterexample: both tracked ids changed. -/
def c2Next : NodeData :=
  { nodeBase with
    vars := [("a", [1]), ("b", [1])], tracking := ["a", "b"] }

/-- The node the C2 counterexample's case-1 step actually produces: only the
first change is recorded. -/
def c2Out : NodeData :=
  { nodeBase with
    vars := [("a", [0]), ("b", [0])], tracking := ["a", "b"],
    var_modifications := [⟨"a", [0], [1]⟩] }

/-- **C2 counterexample**: in a case-1 comparison both tracked ids `a` and
`b` deep-differ between the two same-frame snapshots, yet only `a` receives a
`VarModification` — `any()` short-circuits the generator after its first
yield, so the emitted-iff-differs claim fails for `b`. -/
theorem C2_counterexample :
    case1Body c2Cur c2Next = Except.ok c2Out ∧
    "b" ∈ c2Next.tracking ∧
    Vars.get? c2Cur.vars "b" = some [0] ∧
    Vars.get? c2Next.vars "b" = some [1] ∧
    has_diff [1] [0] = true ∧
    c2Out.var_modifications = [⟨"a", [0], [1]⟩] := by
  refine ⟨by decide, by decide, by decide, by decide, by decide, by decide⟩

/-- **C2 amended**: a `VarModification` is only ever recorded for values that
deep-differ (no spurious modification, in case 1, case 3 and the
before-return diff alike); conversely, the case-3 caller-side diff records a
modification for *every* tracked id that deep-differs, while case 1 records
only the changes consumed by `any()` — the prefix of yields up to and
including the first change. -/
theorem C2_modification_iff_deep_diff :
    (∀ current next out : NodeData,
      case1Body current next = Except.ok out →
      ∀ m ∈ out.var_modifications, m ∉ current.var_modifications →
        m.id ∈ next.tracking ∧
        Vars.get? current.vars m.id = some m.old_value ∧
        Vars.get? next.vars m.id = some m.new_value ∧
        has_diff m.new_value m.old_value = true) ∧
    (∀ current next rf c' rf' : NodeData,
      case3Body current next rf = Except.ok (c', rf') →
      (∀ m ∈ c'.var_modifications, m ∉ current.var_modifications →
        m.id ∈ next.tracking ∧
        Vars.get? current.vars m.id = some m.old_value ∧
        Vars.get? next.vars m.id = some m.new_value ∧
        has_diff m.new_value m.old_value = true) ∧
      (∀ id ∈ next.tracking, ∀ ov nv,
        Vars.get? current.vars id = some ov →
        Vars.get? next.vars id = some nv →
        has_diff nv ov = true →
        (⟨id, ov, nv⟩ : VarModification) ∈ c'.var_modifications)) ∧
    (∀ n n' : NodeData, updateVarChangesBeforeReturn n = Except.ok n' →
      ∀ m ∈ n'.var_modifications, m ∉ n.var_modifications →
        ∃ vbr, n.vars_before_return = some vbr ∧
        m.id ∈ n.tracking ∧
        Vars.get? n.vars m.id = some m.old_value ∧
        Vars.get? vbr m.id = some m.new_value ∧
        has_diff m.new_value m.old_value = true) ∧
    (∀ current next out : NodeData,
      case1Body current next = Except.ok out →
      out.var_modifications = current.var_modifications ++
        modsOf ((changesOf current next).take 1)) := by
  refine ⟨?_, ?_, ?_, ?_⟩
  · intro current next out h m hm hnot
    unfold case1Body at h
    split at h
    · exact Except.noConfusion h
    · rename_i cs hg
      cases Except.ok.inj h
      obtain ⟨-, -, hcs⟩ := getVarChanges_ok_iff.mp hg
      have hmods : (case1Apply (current.sync_tracking_with next)
          cs).var_modifications =
          current.var_modifications ++ modsOf (cs.take 1) := by
        unfold case1Apply
        by_cases he : ((cs.take 1)).isEmpty
        · rw [if_pos he, foldl_recordChange_mods]; rfl
        · rw [if_neg he]
          rw [show ∀ nd : NodeData,
              (nd.add_tracking nd.names).var_modifications =
              nd.var_modifications from fun nd => rfl]
          rw [foldl_recordChange_mods]; rfl
      rw [hmods] at hm
      rcases List.mem_append.mp hm with hold | hnew
      · exact absurd hold hnot
      · have hcs1 : VarChange.modification m ∈ cs :=
          List.mem_of_mem_take (mem_modsOf.mp hnew)
        rw [hcs, changesOf_sync] at hcs1
        obtain ⟨id, hidtrack, hca⟩ := mem_changesOf hcs1
        obtain ⟨hid, hold, hnewv, hd⟩ := changeAtV_modification_spec hca
        subst hid
        exact ⟨hidtrack, hold, hnewv, hd⟩
  · intro current next rf c' rf' h
    unfold case3Body at h
    split at h
    · exact Except.noConfusion h
    · rename_i cs hg
      split at h
      · exact Except.noConfusion h
      · rename_i rf1 hr1
        split at h
        · exact Except.noConfusion h
        · rename_i rf2 hr2
          cases Except.ok.inj h
          obtain ⟨-, -, hcs⟩ := getVarChanges_ok_iff.mp hg
          constructor
          · intro m hm hnot
            rw [foldl_recordChange_mods] at hm
            rcases List.mem_append.mp hm with hold | hnew
            · exact absurd hold hnot
            · have hcs1 : VarChange.modification m ∈ cs :=
                mem_modsOf.mp hnew
              rw [hcs, changesOf_sync] at hcs1
              obtain ⟨id, hidtrack, hca⟩ := mem_changesOf hcs1
              obtain ⟨hid, holdv, hnewv, hd⟩ :=
                changeAtV_modification_spec hca
              subst hid
              exact ⟨hidtrack, holdv, hnewv, hd⟩
          · intro id hid ov nv hov hnv hd
            rw [foldl_recordChange_mods]
            refine List.mem_append.mpr (Or.inr (mem_modsOf.mpr ?_))
            rw [hcs, changesOf_sync]
            refine List.mem_filterMap.mpr ⟨id, hid, ?_⟩
            unfold changeAt changeAtV
            simp [hnv, hov, hd]
  · intro n n' h m hm hnot
    rcases updateVBR_ok_spec h with ⟨-, rfl⟩ | ⟨vbr, hvbr, -, rfl⟩
    · exact absurd hm hnot
    · rw [foldl_recordChange_mods] at hm
      rcases List.mem_append.mp hm with hold | hnew
      · exact absurd hold hnot
      · obtain ⟨id, hidtrack, hca⟩ :=
          List.mem_filterMap.mp (mem_modsOf.mp hnew)
        obtain ⟨hid, holdv, hnewv, hd⟩ := changeAtV_modification_spec hca
        subst hid
        exact ⟨vbr, hvbr, hidtrack, holdv, hnewv, hd⟩
  · intro current next out h
    unfold case1Body at h
    split at h
    · exact Except.noConfusion h
    · rename_i cs hg
      cases Except.ok.inj h
      obtain ⟨-, -, hcs⟩ := getVarChanges_ok_iff.mp hg
      unfold case1Apply
      by_cases he : ((cs.take 1)).isEmpty
      · rw [if_pos he, foldl_recordChange_mods, hcs, changesOf_sync]; rfl
      · rw [if_neg he]
        rw [show ∀ nd : NodeData,
            (nd.add_tracking nd.names).var_modifications =
            nd.var_modifications from fun nd => rfl]
        rw [foldl_recordChange_mods, hcs, changesOf_sync]; rfl

/-- Witness for C2's amended theorem: the counterexample step evaluated
through the theorem's case-1 clauses. -/
theorem C2_witness :
    (∀ m ∈ c2Out.var_modifications,
      m ∉ c2Cur.var_modifications →
      m.id ∈ c2Next.tracking ∧
      Vars.get? c2Cur.vars m.id = some m.old_value ∧
      Vars.get? c2Next.vars m.id = some m.new_value ∧
      has_diff m.new_value m.old_value = true) ∧
    c2Out.var_modifications = c2Cur.var_modifications ++
      modsOf ((changesOf c2Cur c2Next).take 1) :=
  ⟨C2_modification_iff_deep_diff.1 c2Cur c2Next c2Out (by decide),
    C2_modification_iff_deep_diff.2.2.2 c2Cur c2Next c2Out (by decide)⟩

/-! ### Claim C3 -/

theorem recordChange_pta (n : NodeData) (c : VarChange) :
    (n.recordChange c).param_to_arg = n.param_to_arg := by
  cases c <;> rfl

theorem foldl_recordChange_pta (l : List VarChange) (n : NodeData) :
    (l.foldl NodeData.recordChange n).param_to_arg = n.param_to_arg := by
  induction l generalizing n with
  | nil => rfl
  | cons c l ih =>
    rw [List.foldl_cons]
    exact (ih _).trans (recordChange_pta n c)

theorem arg_to_param_congr {a b : NodeData}
    (h : a.param_to_arg = b.param_to_arg) (x : ID) :
    a.arg_to_param x = b.arg_to_param x := by
  unfold NodeData.arg_to_param
  rw [h]

/-- Tracking membership through the tail of case 3's per-change body. -/
theorem mem_case3ReturnTrack_tracking (idsA : List ID) (rf : NodeData)
    (vc : VarChange) (p : ID) :
    p ∈ (case3ReturnTrack idsA rf vc).tracking ↔
      p ∈ rf.tracking ∨
      (rf.frame_is_init = false ∧ vc.id ∈ idsA ∧ p ∈ rf.names ∧
        Vars.hasKey rf.vars p) := by
  unfold case3ReturnTrack
  by_cases hi : rf.frame_is_init = true
  · rw [if_pos hi]
    simp [hi]
  · rw [if_neg hi]
    by_cases hm : vc.id ∈ idsA
    · rw [if_pos hm]
      rw [mem_add_tracking]
      simp only [Bool.not_eq_true] at hi
      constructor
      · rintro (hp | ⟨hn, hk⟩)
        · exact Or.inl hp
        · exact Or.inr ⟨hi, hm, hn, hk⟩
      · rintro (hp | ⟨-, -, hn, hk⟩)
        · exact Or.inl hp
        · exact Or.inr ⟨hn, hk⟩
    · rw [if_neg hm]
      simp [hm]

/-- The `is_relevant_return` flag through the tail of case 3's per-change
body. -/
theorem irr_case3ReturnTrack (idsA : List ID) (rf : NodeData)
    (vc : VarChange) :
    (case3ReturnTrack idsA rf vc).is_relevant_return = true ↔
      rf.is_relevant_return = true ∨
      (rf.frame_is_init = false ∧ vc.id ∈ idsA) := by
  unfold case3ReturnTrack
  by_cases hi : rf.frame_is_init = true
  · rw [if_pos hi]
    simp [hi]
  · rw [if_neg hi]
    simp only [Bool.not_eq_true] at hi
    by_cases hm : vc.id ∈ idsA
    · rw [if_pos hm]
      rw [show ∀ nd : NodeData, (nd.add_tracking nd.names).is_relevant_return
          = nd.is_relevant_return from fun nd => rfl]
      simp [hi, hm]
    · rw [if_neg hm]
      simp [hm]

/-- Static fields through the tail of case 3's per-change body. -/
theorem case3ReturnTrack_statics (idsA : List ID) (rf : NodeData)
    (vc : VarChange) :
    (case3ReturnTrack idsA rf vc).vars = rf.vars ∧
    (case3ReturnTrack idsA rf vc).names = rf.names ∧
    (case3ReturnTrack idsA rf vc).frame_is_init = rf.frame_is_init := by
  unfold case3ReturnTrack
  by_cases hi : rf.frame_is_init = true
  · rw [if_pos hi]; exact ⟨rfl, rfl, rfl⟩
  · rw [if_neg hi]
    by_cases hm : vc.id ∈ idsA
    · rw [if_pos hm]; exact ⟨rfl, rfl, rfl⟩
    · rw [if_neg hm]; exact ⟨rfl, rfl, rfl⟩

/-- Tracking membership through one iteration of case 3's per-change loop. -/
theorem mem_case3ChangeStep_tracking {args idsA : List ID}
    {cur rf rf' : NodeData} {vc : VarChange}
    (h : case3ChangeStep args idsA cur rf vc = Except.ok rf') (p : ID) :
    p ∈ rf'.tracking ↔
      p ∈ rf.tracking ∨
      (Vars.hasKey rf.vars p ∧
        ((vc.id ∈ args ∧ cur.arg_to_param vc.id = some p) ∨
         (rf.frame_is_init = false ∧ vc.id ∈ idsA ∧ p ∈ rf.names))) := by
  unfold case3ChangeStep at h
  by_cases ha : vc.id ∈ args
  · rw [if_pos ha] at h
    cases hp : cur.arg_to_param vc.id with
    | none => rw [hp] at h; exact Except.noConfusion h
    | some q =>
      rw [hp] at h
      cases Except.ok.inj h
      rw [mem_case3ReturnTrack_tracking]
      rw [mem_add_tracking]
      constructor
      · rintro ((hrf | ⟨hq, hk⟩) | ⟨hi, hm, hn, hk⟩)
        · exact Or.inl hrf
        · obtain rfl : p = q := List.mem_singleton.mp hq
          exact Or.inr ⟨hk, Or.inl ⟨ha, rfl⟩⟩
        · exact Or.inr ⟨hk, Or.inr ⟨hi, hm, hn⟩⟩
      · rintro (hrf | ⟨hk, ⟨-, hq⟩ | ⟨hi, hm, hn⟩⟩)
        · exact Or.inl (Or.inl hrf)
        · obtain rfl : q = p := Option.some.inj hq
          exact Or.inl (Or.inr ⟨List.mem_singleton.mpr rfl, hk⟩)
        · exact Or.inr ⟨hi, hm, hn, hk⟩
  · rw [if_neg ha] at h
    cases Except.ok.inj h
    rw [mem_case3ReturnTrack_tracking]
    constructor
    · rintro (hrf | ⟨hi, hm, hn, hk⟩)
      · exact Or.inl hrf
      · exact Or.inr ⟨hk, Or.inr ⟨hi, hm, hn⟩⟩
    · rintro (hrf | ⟨hk, ⟨hmem, -⟩ | ⟨hi, hm, hn⟩⟩)
      · exact Or.inl hrf
      · exact absurd hmem ha
      · exact Or.inr ⟨hi, hm, hn, hk⟩

/-- `is_relevant_return` through one iteration of case 3's per-change
loop. -/
theorem irr_case3ChangeStep {args idsA : List ID}
    {cur rf rf' : NodeData} {vc : VarChange}
    (h : case3ChangeStep args idsA cur rf vc = Except.ok rf') :
    rf'.is_relevant_return = true ↔
      rf.is_relevant_return = true ∨
      (rf.frame_is_init = false ∧ vc.id ∈ idsA) := by
  unfold case3ChangeStep at h
  by_cases ha : vc.id ∈ args
  · rw [if_pos ha] at h
    cases hp : cur.arg_to_param vc.id with
    | none => rw [hp] at h; exact Except.noConfusion h
    | some q =>
      rw [hp] at h
      cases Except.ok.inj h
      rw [irr_case3ReturnTrack]
      rfl
  · rw [if_neg ha] at h
    cases Except.ok.inj h
    rw [irr_case3ReturnTrack]

/-- Static fields through one iteration of case 3's per-change loop. -/
theorem case3ChangeStep_statics {args idsA : List ID}
    {cur rf rf' : NodeData} {vc : VarChange}
    (h : case3ChangeStep args idsA cur rf vc = Except.ok rf') :
    rf'.vars = rf.vars ∧ rf'.names = rf.names ∧
    rf'.frame_is_init = rf.frame_is_init := by
  unfold case3ChangeStep at h
  by_cases ha : vc.id ∈ args
  · rw [if_pos ha] at h
    cases hp : cur.arg_to_param vc.id with
    | none => rw [hp] at h; exact Except.noConfusion h
    | some q =>
      rw [hp] at h
      cases Except.ok.inj h
      exact case3ReturnTrack_statics _ _ _
  · rw [if_neg ha] at h
    cases Except.ok.inj h
    exact case3ReturnTrack_statics _ _ _

/-- Tracking membership and the relevant-return flag through the whole
per-change loop of case 3. -/
theorem mem_case3Fold (cur : NodeData) (args idsA : List ID)
    (cs : List VarChange) :
    ∀ (rf rf' : NodeData),
      cs.foldlM (case3ChangeStep args idsA cur) rf = Except.ok rf' →
      (∀ p : ID, p ∈ rf'.tracking ↔
        p ∈ rf.tracking ∨
        (Vars.hasKey rf.vars p ∧ ∃ vc ∈ cs,
          (vc.id ∈ args ∧ cur.arg_to_param vc.id = some p) ∨
          (rf.frame_is_init = false ∧ vc.id ∈ idsA ∧ p ∈ rf.names))) ∧
      (rf'.is_relevant_return = true ↔
        rf.is_relevant_return = true ∨
        (rf.frame_is_init = false ∧ ∃ vc ∈ cs, vc.id ∈ idsA)) := by
  induction cs with
  | nil =>
    intro rf rf' h
    cases h
    constructor
    · intro p; simp
    · simp
  | cons c cs ih =>
    intro rf rf' h
    rw [List.foldlM_cons] at h
    cases hstep : case3ChangeStep args idsA cur rf c with
    | error e => rw [hstep] at h; exact Except.noConfusion h
    | ok rf1 =>
      rw [hstep] at h
      rw [show (Except.ok rf1 >>= fun b =>
          cs.foldlM (case3ChangeStep args idsA cur) b :
          Except Unit NodeData) =
          cs.foldlM (case3ChangeStep args idsA cur) rf1 from rfl] at h
      obtain ⟨hvars1, hnames1, hinit1⟩ := case3ChangeStep_statics hstep
      obtain ⟨ihmem, ihirr⟩ := ih rf1 rf' h
      constructor
      · intro p
        rw [ihmem p, mem_case3ChangeStep_tracking hstep p, hvars1,
          hnames1, hinit1]
        constructor
        · rintro ((hrf | ⟨hk, hd⟩) | ⟨hk, vc, hvc, hd⟩)
          · exact Or.inl hrf
          · exact Or.inr ⟨hk, c, List.mem_cons_self _ _, hd⟩
          · exact Or.inr ⟨hk, vc, List.mem_cons_of_mem _ hvc, hd⟩
        · rintro (hrf | ⟨hk, vc, hvc, hd⟩)
          · exact Or.inl (Or.inl hrf)
          · rcases List.mem_cons.mp hvc with rfl | hvc
            · exact Or.inl (Or.inr ⟨hk, hd⟩)
            · exact Or.inr ⟨hk, vc, hvc, hd⟩
      · rw [ihirr, irr_case3ChangeStep hstep, hinit1]
        constructor
        · rintro ((hrf | ⟨hi, hm⟩) | ⟨hi, vc, hvc, hm⟩)
          · exact Or.inl hrf
          · exact Or.inr ⟨hi, c, List.mem_cons_self _ _, hm⟩
          · exact Or.inr ⟨hi, vc, List.mem_cons_of_mem _ hvc, hm⟩
        · rintro (hrf | ⟨hi, vc, hvc, hm⟩)
          · exact Or.inl (Or.inl hrf)
          · rcases List.mem_cons.mp hvc with rfl | hvc
            · exact Or.inl (Or.inr ⟨hi, hm⟩)
            · exact Or.inr ⟨hi, vc, hvc, hm⟩

theorem updateVBR_tracking_irr {n n' : NodeData}
    (h : updateVarChangesBeforeReturn n = Except.ok n') :
    n'.tracking = n.tracking ∧
    n'.is_relevant_return = n.is_relevant_return := by
  have hirr : ∀ (l : List VarChange) (m : NodeData),
      (l.foldl NodeData.recordChange m).is_relevant_return =
        m.is_relevant_return := by
    intro l
    induction l with
    | nil => intro m; rfl
    | cons c l ih =>
      intro m
      rw [List.foldl_cons]
      refine (ih _).trans ?_
      cases c <;> rfl
  rcases updateVBR_ok_spec h with ⟨-, rfl⟩ | ⟨vbr, -, -, rfl⟩
  · exact ⟨rfl, rfl⟩
  · exact ⟨foldl_recordChange_tracking _ _, hirr _ _⟩

/-- The callsite of the C3 counterexample: calls `f(a)` binding parameter
`p` to argument `a`. -/
def c3Cur : NodeData :=
  { nodeBase with
    type := NodeType.call, vars := [("a", [0])], names := ["a"],
    param_to_arg := [("p", ["a"])], step_into := Ref.node 5,
    returned_from := Ref.node 6 }

/-- The node after the call in the C3 counterexample: tracks `a`, whose
value changed across the call (caller side). -/
def c3Next : NodeData :=
  { nodeBase with vars := [("a", [1])], tracking := ["a"] }

/-- The callee exit node of the C3 counterexample: its `vars` and
`vars_before_return` snapshots are *identical*, so by the claim's rule no
identifier changed inside the callee. -/
def c3Rf : NodeData :=
  { nodeBase with
    vars := [("p", [5])], vars_before_return := some [("p", [5])] }

/-- What case 3 actually produces at the counterexample input. -/
def c3OutCur : NodeData :=
  { c3Cur with
    tracking := ["a"], var_modifications := [⟨"a", [0], [1]⟩] }

/-- The callee exit node after the counterexample step: `p` became tracked
although nothing changed between `callee_exit.vars` and
`callee_exit.vars_before_return`. -/
def c3OutRf : NodeData := { c3Rf with tracking := ["p"] }

/-- **C3 counterexample**: the callee exit node's two snapshots are equal —
by the claim's rule ("identifiers whose value changed between
callee_exit.vars and callee_exit.vars_before_return") no propagation should
happen — yet `p = arg_to_param[a]` *is* added to the callee exit's tracking,
because the code diffs `current.vars` against `next.vars` (the caller-side
snapshots) instead. -/
theorem C3_counterexample :
    case3Body c3Cur c3Next c3Rf = Except.ok (c3OutCur, c3OutRf) ∧
    c3Rf.vars_before_return = some c3Rf.vars ∧
    "p" ∈ c3OutRf.tracking ∧ "p" ∉ c3Rf.tracking := by
  refine ⟨by decide, by decide, by decide, by decide⟩

/-- **C3 amended**: in case 3, the propagation decisions are taken exactly
for the changes yielded by diffing `current.vars` against `next.vars` over
`next.tracking` (the caller-side snapshots around the call) — not for
identifiers diffed between `callee_exit.vars` and
`callee_exit.vars_before_return`.  For each such yielded change `vc`: if
`vc.id` is an argument identifier, `current.arg_to_param[vc.id]` joins the
callee exit's tracking (when it is a key of the exit's snapshot); if the
callee is not a constructor and `vc.id` is an assigned identifier, every
identifier of the callee exit's statement joins its tracking and the exit is
marked a relevant return. -/
theorem C3_amended_case3_propagation (current next rf c' rf' : NodeData)
    (h : case3Body current next rf = Except.ok (c', rf')) :
    (∀ p : ID, p ∈ rf'.tracking ↔
      p ∈ (seedSelf rf).tracking ∨
      (Vars.hasKey rf.vars p ∧ ∃ vc ∈ changesOf current next,
        (vc.id ∈ current.get_args ∧
          current.arg_to_param vc.id = some p) ∨
        (rf.frame_is_init = false ∧ vc.id ∈ assignedIds current ∧
          p ∈ rf.names))) ∧
    (rf'.is_relevant_return = true ↔
      rf.is_relevant_return = true ∨
      (rf.frame_is_init = false ∧
        ∃ vc ∈ changesOf current next, vc.id ∈ assignedIds current)) := by
  unfold case3Body at h
  split at h
  · exact Except.noConfusion h
  · rename_i cs hg
    split at h
    · exact Except.noConfusion h
    · rename_i rf1 hr1
      split at h
      · exact Except.noConfusion h
      · rename_i rf2 hr2
        cases Except.ok.inj h
        obtain ⟨-, -, hcs⟩ := getVarChanges_ok_iff.mp hg
        rw [changesOf_sync] at hcs
        obtain ⟨hmem, hirr⟩ := mem_case3Fold _ _ _ cs (seedSelf rf) rf1 hr1
        obtain ⟨htr2, hirr2⟩ := updateVBR_tracking_irr hr2
        have hseed_vars : (seedSelf rf).vars = rf.vars := by
          unfold seedSelf
          by_cases hi : rf.frame_is_init = true
          · rw [if_pos hi]; rfl
          · rw [if_neg hi]
        have hseed_names : (seedSelf rf).names = rf.names := by
          unfold seedSelf
          by_cases hi : rf.frame_is_init = true
          · rw [if_pos hi]; rfl
          · rw [if_neg hi]
        have hseed_init : (seedSelf rf).frame_is_init = rf.frame_is_init := by
          unfold seedSelf
          by_cases hi : rf.frame_is_init = true
          · rw [if_pos hi]; rfl
          · rw [if_neg hi]
        have hseed_irr : (seedSelf rf).is_relevant_return =
            rf.is_relevant_return := by
          unfold seedSelf
          by_cases hi : rf.frame_is_init = true
          · rw [if_pos hi]; rfl
          · rw [if_neg hi]
        have hpta : ∀ x, (cs.foldl NodeData.recordChange
            (current.sync_tracking_with next)).arg_to_param x =
            current.arg_to_param x := by
          intro x
          exact arg_to_param_congr (foldl_recordChange_pta _ _) x
        have hargs : (current.sync_tracking_with next).get_args =
            current.get_args := rfl
        have hassg : assignedIds (current.sync_tracking_with next) =
            assignedIds current := rfl
        rw [hargs, hassg] at hmem
        rw [hassg] at hirr
        constructor
        · intro p
          rw [htr2, hmem p, hseed_vars, hseed_names, hseed_init, ← hcs]
          constructor
          · rintro (hp | ⟨hk, vc, hvc, hd⟩)
            · exact Or.inl hp
            · refine Or.inr ⟨hk, vc, hvc, ?_⟩
              rcases hd with ⟨hargs, hmap⟩ | hrest
              · rw [hpta vc.id] at hmap
                exact Or.inl ⟨hargs, hmap⟩
              · exact Or.inr hrest
          · rintro (hp | ⟨hk, vc, hvc, hd⟩)
            · exact Or.inl hp
            · refine Or.inr ⟨hk, vc, hvc, ?_⟩
              rcases hd with ⟨hargs, hmap⟩ | hrest
              · rw [← hpta vc.id] at hmap
                exact Or.inl ⟨hargs, hmap⟩
              · exact Or.inr hrest
        · rw [hirr2, hirr, hseed_irr, hseed_init, ← hcs]

/-- Witness for C3's amended theorem, instantiated at the counterexample
step and the propagated parameter `p`. -/
theorem C3_amended_witness :
    "p" ∈ c3OutRf.tracking ↔
      "p" ∈ (seedSelf c3Rf).tracking ∨
      (Vars.hasKey c3Rf.vars "p" ∧ ∃ vc ∈ changesOf c3Cur c3Next,
        (vc.id ∈ c3Cur.get_args ∧
          c3Cur.arg_to_param vc.id = some "p") ∨
        (c3Rf.frame_is_init = false ∧ vc.id ∈ assignedIds c3Cur ∧
          "p" ∈ c3Rf.names)) :=
  (C3_amended_case3_propagation c3Cur c3Next c3Rf c3OutCur c3OutRf
    (by decide)).1 "p"

/-! ### Claim C8: capturing variable snapshots (`utils.traverse_frames`,
`data.DataContainer._traverse_frames`) -/

/-- A live Python value at capture time: `copy.deepcopy` and `copy.copy`
either return a copy or raise `TypeError` for an uncopyable value (modelled
as `none`); `live` is the object itself. -/
structure RawValue where
  deepcopied : Option Value
  shallow_copied : Option Value
  live : Value
deriving Repr, DecidableEq

/-- The nested try/except of the capture loop:

    try: store copy.deepcopy(var_value)
    except TypeError:
        try: store copy.copy(var_value)
        except TypeError: store var_value
-/
def storeValue (rv : RawValue) : Value :=
  match rv.deepcopied with
  | some v => v
  | none =>
    match rv.shallow_copied with
    | some v => v
    | none => rv.live

/-- A chain of frames, bottom to top (`frame`, `frame.f_back`, ...), each
with its `f_locals`. -/
abbrev FrameChain := List (List (ID × RawValue))

/-- `utils.traverse_frames` / `DataContainer._traverse_frames`: walks the
frame chain upward (`frame_level_up` is the list index), storing every local
through the copy fallback.  A total function: the two `except TypeError`
handlers make each store succeed. -/
def traverse_frames : FrameChain → List (List (ID × Value))
  | [] => []
  | fr :: rest =>
      fr.map (fun p => (p.1, storeValue p.2)) :: traverse_frames rest

/-- **C8**: the capture stores, for every frame level and variable, the deep
copy when deep copy succeeds, else the shallow copy when that succeeds, else
the live reference — and the capture itself is a total function of the frame
chain (the nested `except TypeError` handlers leave no uncaught copy
failure), producing one entry per input binding. -/
theorem C8_traverse_frames_copy_fallback (frames : FrameChain)
    (level : Nat) (fr : List (ID × RawValue))
    (h : frames[level]? = some fr) :
    (traverse_frames frames)[level]? =
      some (fr.map (fun p => (p.1, storeValue p.2))) ∧
    (∀ p ∈ fr, ∀ d, p.2.deepcopied = some d →
      (p.1, d) ∈ fr.map (fun q => (q.1, storeValue q.2))) ∧
    (∀ p ∈ fr, ∀ sh, p.2.deepcopied = none → p.2.shallow_copied = some sh →
      (p.1, sh) ∈ fr.map (fun q => (q.1, storeValue q.2))) ∧
    (∀ p ∈ fr, p.2.deepcopied = none → p.2.shallow_copied = none →
      (p.1, p.2.live) ∈ fr.map (fun q => (q.1, storeValue q.2))) := by
  refine ⟨?_, ?_, ?_, ?_⟩
  · induction frames generalizing level with
    | nil => cases h
    | cons fr0 rest ih =>
      rw [show traverse_frames (fr0 :: rest) =
          (fr0.map (fun p => (p.1, storeValue p.2))) ::
            traverse_frames rest from rfl]
      cases level with
      | zero =>
        rw [List.getElem?_cons_zero] at h
        cases Option.some.inj h
        rw [List.getElem?_cons_zero]
      | succ k =>
        rw [List.getElem?_cons_succ] at h
        rw [List.getElem?_cons_succ]
        exact ih k h
  · intro p hp d hd
    refine List.mem_map.mpr ⟨p, hp, ?_⟩
    rw [show storeValue p.2 = d by unfold storeValue; rw [hd]]
  · intro p hp sh hd hsh
    refine List.mem_map.mpr ⟨p, hp, ?_⟩
    rw [show storeValue p.2 = sh by unfold storeValue; rw [hd, hsh]]
  · intro p hp hd hsh
    refine List.mem_map.mpr ⟨p, hp, ?_⟩
    rw [show storeValue p.2 = p.2.live by
      unfold storeValue
      rw [hd, hsh]]

/-- Witness for C8 at a concrete two-frame chain exercising all three
fallbacks: `x` deep-copies, `y` only shallow-copies, `z` is uncopyable. -/
theorem C8_witness :
    (traverse_frames
        [[("x", ⟨some [1], some [2], [3]⟩),
          ("y", ⟨none, some [4], [5]⟩)],
         [("z", ⟨none, none, [6]⟩)]])[0]? =
      some [("x", [1]), ("y", [4])] ∧
    (traverse_frames
        [[("x", ⟨some [1], some [2], [3]⟩),
          ("y", ⟨none, some [4], [5]⟩)],
         [("z", ⟨none, none, [6]⟩)]])[1]? =
      some [("z", [6])] := by
  constructor
  · exact (C8_traverse_frames_copy_fallback
      [[("x", ⟨some [1], some [2], [3]⟩), ("y", ⟨none, some [4], [5]⟩)],
       [("z", ⟨none, none, [6]⟩)]] 0
      [("x", ⟨some [1], some [2], [3]⟩), ("y", ⟨none, some [4], [5]⟩)]
      (by decide)).1
  · exact (C8_traverse_frames_copy_fallback
      [[("x", ⟨some [1], some [2], [3]⟩), ("y", ⟨none, some [4], [5]⟩)],
       [("z", ⟨none, none, [6]⟩)]] 1
      [("z", ⟨none, none, [6]⟩)] (by decide)).1

/-! ### Claim C6: the trailing-`rN_` cleanup in `flow.replace_calls` -/

/-- Statement text, as a list of characters (so that concrete runs reduce in
the kernel). -/
abbrev Code := List Char

/-- First occurrence split: `some (before, after)` when `sep` occurs in `s`
(Python `s.split(sep, 1)` when it finds a separator), else `none`. -/
def breakOn (sep : Code) : Code → Option (Code × Code)
  | [] => if sep.isPrefixOf ([] : Code) then some ([], []) else none
  | c :: rest =>
    if sep.isPrefixOf (c :: rest) then
      some ([], (c :: rest).drop sep.length)
    else (breakOn sep rest).map (fun p => (c :: p.1, p.2))

/-- An expression of the mini concrete syntax the cleanup manipulates:
a bare name (`ast.Name`) or a call with its raw argument text
(`ast.Call`; the cleanup never inspects arguments). -/
inductive PyExpr where
  | name (id : Code)
  | call (func : Code) (argsText : Code)
deriving Repr, DecidableEq

/-- One statement (`code_ast.body[0]`): an expression statement (`ast.Expr`)
or a single-target assignment (`ast.Assign`). -/
inductive PyStmt where
  | exprStmt (value : PyExpr)
  | assign (target : Code) (value : PyExpr)
deriving Repr, DecidableEq

/-- Parses the mini concrete syntax of one expression: `f(...)` or a bare
name. -/
def parseExpr (s : Code) : PyExpr :=
  if (")".data).isSuffixOf s then
    match breakOn ("(".data) s.dropLast with
    | some (f, argsText) => PyExpr.call f argsText
    | none => PyExpr.name s
  else PyExpr.name s

/-- `utils.parse_code_str` on the statements the cleanup handles.  Modelled
from the spec: `parse_code_str` is absent from the `utils.py` iteration in
the corpus; per the spec it parses a statement's concrete syntax into its
AST (the Python version delegates to `ast.parse`). -/
def parse_code_str (s : Code) : PyStmt :=
  match breakOn (" = ".data) s with
  | some (lhs, rhs) => PyStmt.assign lhs (parseExpr rhs)
  | none => PyStmt.exprStmt (parseExpr s)

/-- `re.match(r"r[\d]+_", s)`: an `r`, one or more digits, then `_`,
anchored at the start of the string. -/
def isRiName : Code → Bool
  | 'r' :: t =>
    let ds := t.takeWhile Char.isDigit
    !ds.isEmpty &&
      (match t.drop ds.length with
       | '_' :: _ => true
       | _ => false)
  | _ => false

/-- `prev.code_str.split("=", 1)[1].lstrip()`. -/
def splitEqTail (s : Code) : Code :=
  match breakOn ("=".data) s with
  | some (_, tail) => tail.dropWhile Char.isWhitespace
  | none => s

/-- `astor.to_source(...)` on the mini expression syntax. -/
def exprToSource : PyExpr → Code
  | PyExpr.name id => id
  | PyExpr.call f argsText => f ++ "(".data ++ argsText ++ ")".data

/-- `astor.to_source(...).strip()` on the mini statement syntax. -/
def toSource : PyStmt → Code
  | PyStmt.exprStmt e => exprToSource e
  | PyStmt.assign t e => t ++ " = ".data ++ exprToSource e

/-- The builder's view of a node while `replace_calls` runs: just the
fields its cleanup reads or writes. -/
structure BNode where
  type : NodeType
  code_str : Code
  code_ast : PyStmt
  prev : Ref
  next : Ref
deriving Repr, DecidableEq

/-- The "special cases" cleanup at the end of each surrounding-group pass of
`flow.replace_calls` (flow.py:341-382), applied to the group's final node
(index `lastIdx`).  Branch 1 (`ast.Expr` whose value is a bare `rN_` name):
assert the node is a LINE and its `prev` a CALL whose text starts with the
name, unlink the node (`prev.next = node.next; node.next.prev = prev`), set
`prev.code_str = prev.code_str.split("=", 1)[1].lstrip()` and
`prev.code_ast = utils.parse_code_str(node.code_str)` — the source parses
*`node`'s* text here, not `prev`'s.  Branch 2 (`ast.Assign` to a bare `rN_`
name): merge the assignment target into `prev`'s own binding
(`prev.code_ast.body[0].targets = stmt.targets`,
`prev.code_str = astor.to_source(prev.code_ast).strip()`) and unlink the
node.  Failed asserts (and retargeting a non-assign AST, which the
`startswith` assert precludes on real input) become `Except.error`. -/
def replaceCallsCleanup (nodes : List BNode) (lastIdx : Nat) :
    Except Unit (List BNode) :=
  match nodes[lastIdx]? with
  | none => Except.error ()
  | some node =>
    match node.code_ast with
    | PyStmt.exprStmt (PyExpr.name id) =>
      if isRiName id then
        if node.type ≠ NodeType.line then Except.error ()
        else
          match node.prev with
          | Ref.node pidx =>
            match nodes[pidx]? with
            | none => Except.error ()
            | some prev =>
              if ¬ (prev.type = NodeType.call ∧
                  id.isPrefixOf prev.code_str) then Except.error ()
              else
                match (nodes.set pidx
                    { prev with
                      next := node.next,
                      code_str := splitEqTail prev.code_str,
                      code_ast := parse_code_str node.code_str }), node.next
                  with
                | nodes1, Ref.node nidx =>
                  match nodes1[nidx]? with
                  | none => Except.error ()
                  | some nxt =>
                      Except.ok (nodes1.set nidx
                        { nxt with prev := Ref.node pidx })
                | nodes1, _ => Except.ok nodes1
          | _ => Except.error ()
      else Except.ok nodes
    | PyStmt.assign target (PyExpr.name id) =>
      if isRiName id then
        match node.prev with
        | Ref.node pidx =>
          match nodes[pidx]? with
          | none => Except.error ()
          | some prev =>
            if ¬ (prev.type = NodeType.call ∧
                (id ++ " =".data).isPrefixOf prev.code_str) then
              Except.error ()
            else
              match prev.code_ast with
              | PyStmt.assign _ v =>
                match (nodes.set pidx
                    { prev with
                      next := node.next,
                      code_ast := PyStmt.assign target v,
                      code_str := toSource (PyStmt.assign target v) }),
                    node.next with
                | nodes1, Ref.node nidx =>
                  match nodes1[nidx]? with
                  | none => Except.error ()
                  | some nxt =>
                      Except.ok (nodes1.set nidx
                        { nxt with prev := Ref.node pidx })
                | nodes1, _ => Except.ok nodes1
              | _ => Except.error ()
        | _ => Except.error ()
      else Except.ok nodes
    | _ => Except.ok nodes

/-- The CALL node `r0_ = f()` produced for a source line that is just
`f()`. -/
def c6Call : BNode :=
  { type := NodeType.call, code_str := "r0_ = f()".data,
    code_ast := PyStmt.assign "r0_".data (PyExpr.call "f".data []),
    prev := Ref.null, next := Ref.node 1 }

/-- The trailing node whose entire statement is the bare `r0_`. -/
def c6Trailing : BNode :=
  { type := NodeType.line, code_str := "r0_".data,
    code_ast := PyStmt.exprStmt (PyExpr.name "r0_".data),
    prev := Ref.node 0, next := Ref.null }

/-- **C6** (code bug): on the canonical failing input — a frame group for
the source line `f()`, i.e. CALL `r0_ = f()` followed by LINE `r0_` — the
cleanup does delete the trailing node from the chain and does restore the
CALL node's *text* to the bare call `f()`, but it sets the CALL node's
*parsed representation* to `parse_code_str(node.code_str)` =
`parse_code_str("r0_")`, a bare-name expression — not the parse of `f()`
that both the claim and the source's own comment ("restores previous node
to 'f()'") prescribe; the adjacent `ast.Assign` branch regenerates `prev`'s
fields from `prev`'s own AST, confirming the intent. -/
theorem C6_code_bug_trailing_ri_cleanup :
    replaceCallsCleanup [c6Call, c6Trailing] 1 =
      Except.ok
        [{ c6Call with
            next := Ref.null, code_str := "f()".data,
            code_ast := PyStmt.exprStmt (PyExpr.name "r0_".data) },
          c6Trailing] ∧
    parse_code_str ("f()".data) =
      PyStmt.exprStmt (PyExpr.call "f".data []) ∧
    (PyStmt.exprStmt (PyExpr.name "r0_".data) ≠
      PyStmt.exprStmt (PyExpr.call "f".data [])) := by
  refine ⟨by decide, by decide, by decide⟩

/-! ### Evolution through the case bodies and the loop step -/

theorem case1Apply_evolves (synced : NodeData) (changes : List VarChange) :
    Evolves synced (case1Apply synced changes) := by
  unfold case1Apply
  by_cases he : ((changes.take 1)).isEmpty
  · rw [if_pos he]
    exact foldl_recordChange_evolves _ _
  · rw [if_neg he]
    exact (foldl_recordChange_evolves _ _).trans (add_tracking_evolves _ _)

theorem case1Body_evolves {c n c' : NodeData}
    (h : case1Body c n = Except.ok c') : Evolves c c' := by
  unfold case1Body at h
  split at h
  · exact Except.noConfusion h
  · rename_i cs hg
    cases Except.ok.inj h
    exact (sync_tracking_with_evolves c n).trans (case1Apply_evolves _ _)

theorem case2ArgStep_evolves {pid : ID} {c c' : NodeData} {aid : ID}
    (h : case2ArgStep pid c aid = Except.ok c') : Evolves c c' := by
  unfold case2ArgStep at h
  split at h
  · exact Except.noConfusion h
  · rename_i v hv
    cases Except.ok.inj h
    exact (add_tracking_evolves c [aid]).trans (add_var_switch_evolves _ _)

theorem case2IdStep_evolves {b : Bool} {cur cur' : NodeData} {pid : ID}
    (h : case2IdStep b cur pid = Except.ok cur') : Evolves cur cur' := by
  unfold case2IdStep at h
  split at h
  · cases Except.ok.inj h; exact Evolves.refl _
  · split at h
    · exact Except.noConfusion h
    · rename_i arg_ids hf
      exact foldlM_preserve (Evolves cur) _ arg_ids
        (fun b a b' _ hs hb => hb.trans (case2ArgStep_evolves hs))
        cur cur' h (Evolves.refl cur)

theorem case2Body_evolves {c n c' : NodeData}
    (h : case2Body c n = Except.ok c') : Evolves c c' :=
  foldlM_preserve (Evolves c) _ n.tracking
    (fun b a b' _ hs hb => hb.trans (case2IdStep_evolves hs))
    c c' h (Evolves.refl c)

theorem case3ReturnTrack_evolves (idsA : List ID) (rf : NodeData)
    (vc : VarChange) : Evolves rf (case3ReturnTrack idsA rf vc) := by
  unfold case3ReturnTrack
  by_cases hi : rf.frame_is_init = true
  · rw [if_pos hi]; exact Evolves.refl rf
  · rw [if_neg hi]
    by_cases hm : vc.id ∈ idsA
    · rw [if_pos hm]
      exact (set_irr_evolves rf).trans (add_tracking_evolves _ _)
    · rw [if_neg hm]; exact Evolves.refl rf

theorem case3ChangeStep_evolves {args idsA : List ID}
    {cur rf rf' : NodeData} {vc : VarChange}
    (h : case3ChangeStep args idsA cur rf vc = Except.ok rf') :
    Evolves rf rf' := by
  unfold case3ChangeStep at h
  split at h
  · split at h
    · exact Except.noConfusion h
    · rename_i q hq
      cases Except.ok.inj h
      exact (add_tracking_evolves rf [q]).trans
        (case3ReturnTrack_evolves _ _ _)
  · cases Except.ok.inj h
    exact case3ReturnTrack_evolves _ _ _

theorem seedSelf_evolves (rf : NodeData) : Evolves rf (seedSelf rf) := by
  unfold seedSelf
  by_cases hi : rf.frame_is_init = true
  · rw [if_pos hi]; exact add_tracking_evolves _ _
  · rw [if_neg hi]; exact Evolves.refl rf

theorem case3Body_evolves {c n rf c' rf' : NodeData}
    (h : case3Body c n rf = Except.ok (c', rf')) :
    Evolves c c' ∧ Evolves rf rf' := by
  unfold case3Body at h
  split at h
  · exact Except.noConfusion h
  · rename_i cs hg
    split at h
    · exact Except.noConfusion h
    · rename_i rf1 hr1
      split at h
      · exact Except.noConfusion h
      · rename_i rf2 hr2
        cases Except.ok.inj h
        refine ⟨(sync_tracking_with_evolves c n).trans
          (foldl_recordChange_evolves _ _), ?_⟩
        refine ((seedSelf_evolves rf).trans ?_).trans
          (updateVarChangesBeforeReturn_evolves hr2)
        exact foldlM_preserve (Evolves (seedSelf rf)) _ cs
          (fun b a b' _ hs hb => hb.trans (case3ChangeStep_evolves hs))
          (seedSelf rf) rf1 hr1 (Evolves.refl _)

/-- How one loop step relates the node array before and after: every node
evolves (in particular all structural fields are untouched). -/
def optionEvolves : Option NodeData → Option NodeData → Prop
  | none, none => True
  | some a, some b => Evolves a b
  | _, _ => False

theorem optionEvolves_refl (o : Option NodeData) : optionEvolves o o := by
  cases o with
  | none => trivial
  | some a => exact Evolves.refl a

theorem optionEvolves_trans {o1 o2 o3 : Option NodeData}
    (h1 : optionEvolves o1 o2) (h2 : optionEvolves o2 o3) :
    optionEvolves o1 o3 := by
  cases o1 with
  | none =>
    cases o2 with
    | none =>
      cases o3 with
      | none => trivial
      | some c => exact h2.elim
    | some b => exact h1.elim
  | some a =>
    cases o2 with
    | none => exact h1.elim
    | some b =>
      cases o3 with
      | none => exact h2.elim
      | some c => exact Evolves.trans h1 h2

theorem set_optionEvolves {nodes : List NodeData} {i : Nat}
    {old new : NodeData} (hi : nodes[i]? = some old)
    (hev : Evolves old new) :
    ∀ j : Nat, optionEvolves nodes[j]? (nodes.set i new)[j]? := by
  intro j
  rw [List.getElem?_set]
  by_cases hij : i = j
  · subst hij
    rw [if_pos rfl, if_pos (List.getElem?_eq_some.mp hi).1, hi]
    exact hev
  · rw [if_neg hij]
    exact optionEvolves_refl _

theorem traceStep_evolves {s s' : FlowState}
    (h : traceStep s = Except.ok (some s')) :
    (∀ j : Nat, optionEvolves s.nodes[j]? s'.nodes[j]?) ∧
      s'.nodes.length = s.nodes.length := by
  unfold traceStep at h
  split at h
  · exact Option.noConfusion (Except.ok.inj h)
  · exact Except.noConfusion h
  · rename_i ci hsc
    split at h
    · rename_i current next hcur hnext
      split at h
      · split at h
        · exact Except.noConfusion h
        · rename_i current' h1
          cases Except.ok.inj h
          exact ⟨set_optionEvolves hcur (case1Body_evolves h1),
            List.length_set _ _ _⟩
      · split at h
        · split at h
          · exact Except.noConfusion h
          · rename_i current' h1
            cases Except.ok.inj h
            exact ⟨set_optionEvolves hcur (case2Body_evolves h1),
              List.length_set _ _ _⟩
        · split at h
          · rename_i ri hri
            split at h
            · rename_i rf hrf
              split at h
              · exact Except.noConfusion h
              · rename_i current' rf' h1
                cases Except.ok.inj h
                obtain ⟨hev1, hev2⟩ := case3Body_evolves h1
                constructor
                · intro j
                  rw [List.getElem?_set]
                  by_cases hjr : ri = j
                  · subst hjr
                    rw [if_pos rfl, if_pos (by
                      rw [List.length_set]
                      exact (List.getElem?_eq_some.mp hrf).1), hrf]
                    exact hev2
                  · rw [if_neg hjr, List.getElem?_set]
                    by_cases hjc : ci = j
                    · subst hjc
                      rw [if_pos rfl,
                        if_pos (List.getElem?_eq_some.mp hcur).1, hcur]
                      exact hev1
                    · rw [if_neg hjc]
                      exact optionEvolves_refl _
                · rw [List.length_set, List.length_set]
            · exact Except.noConfusion h
          · exact Except.noConfusion h
    · exact Except.noConfusion h

/-! ### Well-formed flows and termination (claim C7) -/

/-- Well-formedness of a flow's node array, witnessed by an execution-order
ranking `rank` (chronological position of each node).  The conditions encode
the flow invariants `build_flow` establishes: `prev` pointers are never
dangling and move strictly backward in execution order; a node's
predecessor is either its frame-mate or the callsite it is the first line
of; a callsite whose callee is not the next node itself has a
`returned_from` node strictly earlier in execution order than the statement
after the call; a callee-entry snapshot's identifiers (minus an
`__init__`'s `self`) are covered by the callsite's `param_to_arg`, whose
argument identifiers appear in the callsite's snapshot; and a
`returned_from` node carries a `vars_before_return` snapshot covering its
own snapshot's keys. -/
structure WF (nodes : List NodeData) (rank : Nat → Nat) : Prop where
  prev_not_null : ∀ (i : Nat) (n : NodeData), nodes[i]? = some n →
    n.prev ≠ Ref.null
  prev_rank : ∀ (i : Nat) (n : NodeData) (c : Nat), nodes[i]? = some n →
    n.prev = Ref.node c → c < nodes.length ∧ rank c < rank i
  frame_or_entry : ∀ (i : Nat) (n : NodeData) (c : Nat) (cn : NodeData),
    nodes[i]? = some n → n.prev = Ref.node c → nodes[c]? = some cn →
    cn.step_into = Ref.node i ∨ cn.frame_id = n.frame_id
  rf_rank : ∀ (i : Nat) (n : NodeData) (c : Nat) (cn : NodeData),
    nodes[i]? = some n → n.prev = Ref.node c →
    nodes[c]? = some cn → cn.is_callsite = true →
    cn.step_into ≠ Ref.node i →
    ∃ r, cn.returned_from = Ref.node r ∧ r < nodes.length ∧
      rank r < rank i ∧ r ≠ c
  param_map : ∀ (c : Nat) (cn : NodeData) (i : Nat) (n : NodeData),
    nodes[c]? = some cn →
    cn.step_into = Ref.node i → nodes[i]? = some n →
    ∀ id, Vars.hasKey n.vars id →
    ¬(n.frame_is_init = true ∧ id = "self") →
    ∃ pr, cn.param_to_arg.find? (fun p => p.1 = id) = some pr ∧
      ∀ a ∈ pr.2, Vars.hasKey cn.vars a
  vbr_cover : ∀ (c : Nat) (cn : NodeData) (r : Nat) (rn : NodeData),
    nodes[c]? = some cn →
    cn.returned_from = Ref.node r → nodes[r]? = some rn →
    ∃ vbr, rn.vars_before_return = some vbr ∧
      ∀ id, Vars.hasKey rn.vars id → Vars.hasKey vbr id

theorem evolves_back {nodes nodes' : List NodeData}
    (hev : ∀ j : Nat, optionEvolves nodes[j]? nodes'[j]?)
    {i : Nat} {n' : NodeData} (h : nodes'[i]? = some n') :
    ∃ n, nodes[i]? = some n ∧ Evolves n n' := by
  have h0 := hev i
  cases hn : nodes[i]? with
  | none => rw [hn, h] at h0; exact h0.elim
  | some n =>
    rw [hn, h] at h0
    exact ⟨n, rfl, h0⟩

/-- Every flow invariant in `WF` is stated over node fields that `Evolves`
keeps fixed, so well-formedness transfers along any evolution of the node
array (the loop only appends records and tracking ids). -/
theorem WF_of_evolves {nodes nodes' : List NodeData} {rank : Nat → Nat}
    (hwf : WF nodes rank)
    (hev : ∀ j : Nat, optionEvolves nodes[j]? nodes'[j]?)
    (hlen : nodes'.length = nodes.length) : WF nodes' rank := by
  constructor
  · intro i n' h
    obtain ⟨n, hn, e⟩ := evolves_back hev h
    rw [e.prev_eq]
    exact hwf.prev_not_null i n hn
  · intro i n' c h hp
    obtain ⟨n, hn, e⟩ := evolves_back hev h
    rw [e.prev_eq] at hp
    obtain ⟨h1, h2⟩ := hwf.prev_rank i n c hn hp
    exact ⟨by rw [hlen]; exact h1, h2⟩
  · intro i n' c cn' h hp hc
    obtain ⟨n, hn, e⟩ := evolves_back hev h
    obtain ⟨cn, hcn, ec⟩ := evolves_back hev hc
    rw [e.prev_eq] at hp
    rcases hwf.frame_or_entry i n c cn hn hp hcn with h1 | h1
    · exact Or.inl (by rw [ec.step_into_eq]; exact h1)
    · exact Or.inr (by rw [ec.frame_id_eq, e.frame_id_eq]; exact h1)
  · intro i n' c cn' h hp hc hcall hsi
    obtain ⟨n, hn, e⟩ := evolves_back hev h
    obtain ⟨cn, hcn, ec⟩ := evolves_back hev hc
    rw [e.prev_eq] at hp
    rw [show cn'.is_callsite = cn.is_callsite by
      unfold NodeData.is_callsite; rw [ec.step_into_eq]] at hcall
    rw [ec.step_into_eq] at hsi
    obtain ⟨r, hr, h1, h2, h3⟩ := hwf.rf_rank i n c cn hn hp hcn hcall hsi
    exact ⟨r, by rw [ec.returned_from_eq]; exact hr,
      by rw [hlen]; exact h1, h2, h3⟩
  · intro c cn' i n' hc hsi h id hk hns
    obtain ⟨cn, hcn, ec⟩ := evolves_back hev hc
    obtain ⟨n, hn, e⟩ := evolves_back hev h
    rw [ec.step_into_eq] at hsi
    rw [e.vars_eq] at hk
    rw [e.frame_is_init_eq] at hns
    obtain ⟨pr, h1, h2⟩ := hwf.param_map c cn i n hcn hsi hn id hk hns
    refine ⟨pr, by rw [ec.pta_eq]; exact h1, fun a ha => ?_⟩
    rw [ec.vars_eq]
    exact h2 a ha
  · intro c cn' r rn' hc hr h
    obtain ⟨cn, hcn, ec⟩ := evolves_back hev hc
    obtain ⟨rn, hrn, er⟩ := evolves_back hev h
    rw [ec.returned_from_eq] at hr
    obtain ⟨vbr, h1, h2⟩ := hwf.vbr_cover c cn r rn hcn hr hrn
    refine ⟨vbr, by rw [er.vbr_eq]; exact h1, fun id hk => ?_⟩
    rw [er.vars_eq] at hk
    exact h2 id hk

/-- The cursor invariant of the loop: `current` is always the `prev` of the
node at `nextIdx` (the source re-establishes it at every advancement). -/
def cursorInv (s : FlowState) : Prop :=
  ∃ n, s.nodes[s.nextIdx]? = some n ∧ s.current = n.prev

theorem args_arg_to_param {n : NodeData} {arg : ID}
    (h : arg ∈ n.get_args) : ∃ p, n.arg_to_param arg = some p := by
  unfold NodeData.get_args at h
  obtain ⟨l, hl, hmem⟩ := List.mem_flatten.mp h
  obtain ⟨pa, hpa, rfl⟩ := List.mem_map.mp hl
  unfold NodeData.arg_to_param
  have key : ∀ (l : List (ID × List ID)) (acc : Option ID),
      ((∃ q ∈ l, arg ∈ q.2) ∨ acc.isSome = true) →
      (l.foldl (fun acc pa => if arg ∈ pa.2 then some pa.1 else acc)
        acc).isSome = true := by
    intro l
    induction l with
    | nil =>
      intro acc h
      rcases h with ⟨q, hq, -⟩ | h
      · cases hq
      · exact h
    | cons q l ih =>
      intro acc h
      rw [List.foldl_cons]
      by_cases hq : arg ∈ q.2
      · rw [if_pos hq]
        exact ih _ (Or.inr rfl)
      · rw [if_neg hq]
        refine ih _ ?_
        rcases h with ⟨q', hq', hm⟩ | h
        · rcases List.mem_cons.mp hq' with rfl | hq'
          · exact absurd hm hq
          · exact Or.inl ⟨q', hq', hm⟩
        · exact Or.inr h
  have hsome := key n.param_to_arg none (Or.inl ⟨pa, hpa, hmem⟩)
  cases ho : n.param_to_arg.foldl
      (fun acc pa => if arg ∈ pa.2 then some pa.1 else acc) none with
  | none => rw [ho] at hsome; cases hsome
  | some p => exact ⟨p, rfl⟩

theorem case1Body_ok_of {c n : NodeData}
    (hf : c.frame_id = n.frame_id)
    (hk : ∀ id ∈ n.tracking, Vars.hasKey n.vars id) :
    case1Body c n =
      Except.ok (case1Apply (c.sync_tracking_with n) (changesOf c n)) := by
  have hg : getVarChanges (c.sync_tracking_with n) n =
      Except.ok (changesOf c n) :=
    getVarChanges_ok_iff.mpr
      ⟨by rw [(sync_tracking_with_evolves c n).frame_id_eq]; exact hf,
        hk, rfl⟩
  unfold case1Body
  rw [hg]

theorem case2Body_ok_of {c n : NodeData}
    (hmap : ∀ id, Vars.hasKey n.vars id →
      ¬(n.frame_is_init = true ∧ id = "self") →
      ∃ pr, c.param_to_arg.find? (fun p => p.1 = id) = some pr ∧
        ∀ a ∈ pr.2, Vars.hasKey c.vars a)
    (hk : ∀ id ∈ n.tracking, Vars.hasKey n.vars id) :
    ∃ c', case2Body c n = Except.ok c' ∧ Evolves c c' := by
  unfold case2Body
  refine foldlM_ok_of_all (Evolves c) _ n.tracking ?_ c (Evolves.refl c)
  intro cur pid hpid hev
  unfold case2IdStep
  by_cases hskip : n.frame_is_init = true ∧ pid = "self"
  · rw [if_pos hskip]
    exact ⟨cur, rfl, hev⟩
  · rw [if_neg hskip]
    obtain ⟨pr, hfind, hargs⟩ := hmap pid (hk pid hpid) hskip
    rw [hev.pta_eq]
    simp only [hfind, Option.map_some']
    refine foldlM_ok_of_all (Evolves c) _ pr.2 ?_ cur hev
    intro c2 aid haid hev2
    unfold case2ArgStep
    have hvars : (c2.add_tracking [aid]).vars = c.vars := by
      rw [(add_tracking_evolves c2 [aid]).vars_eq, hev2.vars_eq]
    rw [hvars]
    cases hget : Vars.get? c.vars aid with
    | none =>
      have hkey := hargs aid haid
      simp [Vars.hasKey, hget] at hkey
    | some v =>
      exact ⟨_, rfl, (hev2.trans (add_tracking_evolves c2 [aid])).trans
        (add_var_switch_evolves _ _)⟩

theorem case3Body_ok_of {c n rf : NodeData}
    (hf : c.frame_id = n.frame_id)
    (hk : ∀ id ∈ n.tracking, Vars.hasKey n.vars id)
    (hrfinv : trackingInv rf)
    (hvbr : ∃ vbr, rf.vars_before_return = some vbr ∧
      ∀ id, Vars.hasKey rf.vars id → Vars.hasKey vbr id) :
    ∃ c' rf', case3Body c n rf = Except.ok (c', rf') ∧
      Evolves c c' ∧ Evolves rf rf' := by
  have hg : getVarChanges (c.sync_tracking_with n) n =
      Except.ok (changesOf c n) :=
    getVarChanges_ok_iff.mpr
      ⟨by rw [(sync_tracking_with_evolves c n).frame_id_eq]; exact hf,
        hk, rfl⟩
  obtain ⟨vbr, hvbr1, hvbr2⟩ := hvbr
  have hfold : ∃ rf1, (changesOf c n).foldlM
      (case3ChangeStep (c.sync_tracking_with n).get_args
        (assignedIds (c.sync_tracking_with n))
        ((changesOf c n).foldl NodeData.recordChange
          (c.sync_tracking_with n)))
      (seedSelf rf) = Except.ok rf1 ∧ Evolves (seedSelf rf) rf1 := by
    refine foldlM_ok_of_all (Evolves (seedSelf rf)) _ (changesOf c n) ?_
      (seedSelf rf) (Evolves.refl _)
    intro rf0 vc hvc hev
    unfold case3ChangeStep
    by_cases ha : vc.id ∈ (c.sync_tracking_with n).get_args
    · rw [if_pos ha]
      have ha2 : vc.id ∈ ((changesOf c n).foldl NodeData.recordChange
          (c.sync_tracking_with n)).get_args := by
        unfold NodeData.get_args
        rw [foldl_recordChange_pta]
        exact ha
      obtain ⟨p, hp⟩ := args_arg_to_param ha2
      rw [hp]
      exact ⟨_, rfl, hev.trans ((add_tracking_evolves rf0 [p]).trans
        (case3ReturnTrack_evolves _ _ _))⟩
    · rw [if_neg ha]
      exact ⟨_, rfl, hev.trans (case3ReturnTrack_evolves _ _ _)⟩
  obtain ⟨rf1, hr1, hev1⟩ := hfold
  have hseedev : Evolves rf (seedSelf rf) := seedSelf_evolves rf
  have hrf1inv : trackingInv rf1 :=
    foldlM_preserve trackingInv _ (changesOf c n)
      (fun _ _ _ _ hs hb => trackingInv_case3ChangeStep hs hb)
      (seedSelf rf) rf1 hr1 (trackingInv_seedSelf hrfinv)
  have hvbr1a : rf1.vars_before_return = some vbr := by
    rw [hev1.vbr_eq, hseedev.vbr_eq]; exact hvbr1
  have hvars1 : rf1.vars = rf.vars := by
    rw [hev1.vars_eq, hseedev.vars_eq]
  have hkeys1 : ∀ id ∈ rf1.tracking, Vars.hasKey vbr id := by
    intro id hid
    have hkk := hrf1inv id hid
    rw [hvars1] at hkk
    exact hvbr2 id hkk
  have hupd : updateVarChangesBeforeReturn rf1 =
      Except.ok ((rf1.tracking.filterMap (changeAtV rf1.vars vbr)).foldl
        NodeData.recordChange rf1) := by
    unfold updateVarChangesBeforeReturn
    exact (vbr_fold_iff vbr rf1.tracking rf1 _ hvbr1a).mpr ⟨hkeys1, rfl⟩
  refine ⟨(changesOf c n).foldl NodeData.recordChange
      (c.sync_tracking_with n),
    (rf1.tracking.filterMap (changeAtV rf1.vars vbr)).foldl
      NodeData.recordChange rf1, ?_, ?_, ?_⟩
  · unfold case3Body
    simp only [hg, hr1, hupd]
  · exact (sync_tracking_with_evolves c n).trans
      (foldl_recordChange_evolves _ _)
  · exact (hseedev.trans hev1).trans (foldl_recordChange_evolves _ _)

/-- On a well-formed state the loop body either exits (the cursor is at the
ROOT sentinel) or succeeds, re-establishing the cursor invariant and moving
`next` strictly backward in execution order. -/
theorem traceStep_ok {rank : Nat → Nat} {s : FlowState}
    (hwf : WF s.nodes rank) (hinv : stateInv s) (hcur : cursorInv s) :
    (s.current = Ref.root ∧ traceStep s = Except.ok none) ∨
    ∃ s', traceStep s = Except.ok (some s') ∧ cursorInv s' ∧
      rank s'.nextIdx < rank s.nextIdx := by
  obtain ⟨n, hn, hc⟩ := hcur
  have hkn : trackingInv n := hinv n (List.getElem?_mem hn)
  cases hprev : n.prev with
  | root =>
    left
    have hsc : s.current = Ref.root := hc.trans hprev
    refine ⟨hsc, ?_⟩
    unfold traceStep
    rw [hsc]
  | null => exact absurd hprev (hwf.prev_not_null s.nextIdx n hn)
  | node ci =>
    right
    have hsc : s.current = Ref.node ci := hc.trans hprev
    obtain ⟨hcilt, hrank⟩ := hwf.prev_rank s.nextIdx n ci hn hprev
    obtain ⟨current, hci⟩ : ∃ cu, s.nodes[ci]? = some cu :=
      ⟨_, List.getElem?_eq_getElem hcilt⟩
    by_cases hcall : current.is_callsite = true
    · by_cases hsi : current.step_into = Ref.node s.nextIdx
      · have hmap := hwf.param_map ci current s.nextIdx n hci hsi hn
        obtain ⟨c', hok, hev⟩ := case2Body_ok_of hmap hkn
        refine ⟨⟨s.nodes.set ci c', c'.prev, ci⟩, ?_, ⟨c', ?_, rfl⟩,
          hrank⟩
        · unfold traceStep
          simp only [hsc, hci, hn, hok]
          rw [if_neg (not_not_intro hcall), if_pos hsi]
        · rw [List.getElem?_set, if_pos rfl, if_pos hcilt]
      · obtain ⟨r, hrret, hrlt, hrrank, -⟩ :=
          hwf.rf_rank s.nextIdx n ci current hn hprev hci hcall hsi
        obtain ⟨rf, hrf⟩ : ∃ rn, s.nodes[r]? = some rn :=
          ⟨_, List.getElem?_eq_getElem hrlt⟩
        have hfr : current.frame_id = n.frame_id := by
          rcases hwf.frame_or_entry s.nextIdx n ci current hn hprev hci
            with h1 | h1
          · exact absurd h1 hsi
          · exact h1
        have hvbrC := hwf.vbr_cover ci current r rf hci hrret hrf
        have hrfinv : trackingInv rf := hinv rf (List.getElem?_mem hrf)
        obtain ⟨c', rf', hok, hevc, hevr⟩ :=
          case3Body_ok_of hfr hkn hrfinv hvbrC
        refine ⟨⟨(s.nodes.set ci c').set r rf', rf'.prev, r⟩, ?_,
          ⟨rf', ?_, rfl⟩, hrrank⟩
        · unfold traceStep
          simp only [hsc, hci, hn, hrret, hrf, hok]
          rw [if_neg (not_not_intro hcall), if_neg hsi]
        · rw [List.getElem?_set, if_pos rfl,
            if_pos (by rw [List.length_set]; exact hrlt)]
    · have hnull : current.step_into = Ref.null := by
        by_contra hne
        exact hcall (by unfold NodeData.is_callsite; exact decide_eq_true hne)
      have hfr : current.frame_id = n.frame_id := by
        rcases hwf.frame_or_entry s.nextIdx n ci current hn hprev hci
          with h1 | h1
        · rw [hnull] at h1; exact Ref.noConfusion h1
        · exact h1
      obtain ⟨c', hok⟩ : ∃ c', case1Body current n = Except.ok c' :=
        ⟨_, case1Body_ok_of hfr hkn⟩
      refine ⟨⟨s.nodes.set ci c', c'.prev, ci⟩, ?_, ⟨c', ?_, rfl⟩, hrank⟩
      · unfold traceStep
        simp only [hsc, hci, hn, hok]
        rw [if_pos hcall]
      · rw [List.getElem?_set, if_pos rfl, if_pos hcilt]

/-- On a well-formed state, with fuel exceeding the execution-order rank of
the `next` cursor, the loop runs to completion and exits with `current` at
the ROOT sentinel; the node array only evolves (append-only records, static
structure unchanged). -/
theorem traceLoop_reaches_root {rank : Nat → Nat} :
    ∀ (fuel : Nat) (s : FlowState), WF s.nodes rank → stateInv s →
    cursorInv s → rank s.nextIdx < fuel →
    ∃ final, traceLoop fuel s = Except.ok final ∧
      final.current = Ref.root ∧
      (∀ j : Nat, optionEvolves s.nodes[j]? final.nodes[j]?) ∧
      final.nodes.length = s.nodes.length := by
  intro fuel
  induction fuel with
  | zero => intro s _ _ _ hlt; cases hlt
  | succ fuel ih =>
    intro s hwf hinv hcur hlt
    rcases traceStep_ok hwf hinv hcur with ⟨hroot, hstep⟩ |
      ⟨s', hstep, hcur', hrank⟩
    · refine ⟨s, ?_, hroot, fun j => optionEvolves_refl _, rfl⟩
      unfold traceLoop
      rw [hstep]
    · obtain ⟨hev, hlen⟩ := traceStep_evolves hstep
      have hwf' := WF_of_evolves hwf hev hlen
      have hinv' := traceStep_inv hstep hinv
      obtain ⟨final, hfin, hf1, hf2, hf3⟩ := ih s' hwf' hinv' hcur'
        (Nat.lt_of_lt_of_le hrank (Nat.lt_succ_iff.mp hlt))
      refine ⟨final, ?_, hf1, fun j => optionEvolves_trans (hev j) (hf2 j),
        hf3.trans hlen⟩
      unfold traceLoop
      rw [hstep]
      exact hfin

/-- **C7**: for every well-formed Flow — finitely many nodes whose `prev`
chains and `step_into`/`returned_from` edges respect an execution-order
ranking (`WF`), with well-formed metadata (`flowInv`) — `trace_flow`
terminates: starting from `(target.prev, target)` the loop runs to
completion without error, the cursor reaching the ROOT sentinel installed
by `Flow.__init__` as `start.prev`, as soon as the iteration budget exceeds
the target's rank; and every successful iteration moves the cursor strictly
backward in total execution order. -/
theorem C7_trace_flow_terminates {rank : Nat → Nat} {f : Flow}
    {tgt : NodeData} {fuel : Nat}
    (hwf : WF f.nodes rank) (hinv : flowInv f)
    (htgt : f.nodes[f.target]? = some tgt)
    (hfuel : rank f.target < fuel) :
    (∃ final, traceLoop fuel ⟨f.nodes, tgt.prev, f.target⟩ =
        Except.ok final ∧ final.current = Ref.root ∧
        trace_flow fuel f = Except.ok { f with nodes := final.nodes }) ∧
    (∀ s s' : FlowState, WF s.nodes rank → stateInv s → cursorInv s →
      traceStep s = Except.ok (some s') →
      rank s'.nextIdx < rank s.nextIdx) := by
  constructor
  · have hcur : cursorInv ⟨f.nodes, tgt.prev, f.target⟩ := ⟨tgt, htgt, rfl⟩
    obtain ⟨final, hloop, hroot, -, -⟩ := traceLoop_reaches_root fuel
      ⟨f.nodes, tgt.prev, f.target⟩ hwf hinv hcur hfuel
    refine ⟨final, hloop, hroot, ?_⟩
    unfold trace_flow
    simp only [htgt, hloop]
  · intro s s' hwf' hinv' hcur' hstep
    rcases traceStep_ok hwf' hinv' hcur' with ⟨-, hnone⟩ |
      ⟨s'', hsome, -, hr⟩
    · rw [hstep] at hnone
      exact Option.noConfusion (Except.ok.inj hnone)
    · rw [hstep] at hsome
      cases Option.some.inj (Except.ok.inj hsome)
      exact hr

/-- The execution-order ranking of the concrete witness flow: node 0 runs
first, node 1 second. -/
def c7rank : Nat → Nat := fun i => i

/-- The witness flow's start node after `Flow.init` (prev set to ROOT). -/
def c7n0 : NodeData := { exNode0 with prev := Ref.root }

/-- The witness flow's target node after `Flow.init` (marked as target, its
register-call identifier seeded into tracking). -/
def c7tgt : NodeData :=
  { exNode1 with is_target := true, tracking := ["a"] }

theorem c7_bound {i : Nat} {m : NodeData}
    (h : [c7n0, c7tgt][i]? = some m) : i < 2 := by
  by_contra hge
  rw [List.getElem?_eq_none
    (by simp only [List.length_cons, List.length_nil]; omega)] at h
  exact Option.noConfusion h

theorem exFlow_wf : WF exFlow.nodes c7rank := by
  have hnodes : exFlow.nodes = [c7n0, c7tgt] := by decide
  constructor
  · intro i m h
    rw [hnodes] at h
    have hi := c7_bound h
    interval_cases i
    · cases h; decide
    · cases h; decide
  · intro i m c h hp
    rw [hnodes] at h
    have hi := c7_bound h
    interval_cases i
    · cases h; exact Ref.noConfusion hp
    · cases h
      cases hp
      rw [hnodes]
      exact ⟨by decide, by decide⟩
  · intro i m c cn h hp hc
    rw [hnodes] at h hc
    have hi := c7_bound h
    interval_cases i
    · cases h; exact Ref.noConfusion hp
    · cases h
      cases hp
      cases hc
      exact Or.inr (by decide)
  · intro i m c cn h hp hc hcall hsi
    rw [hnodes] at h hc
    have hi := c7_bound h
    interval_cases i
    · cases h; exact Ref.noConfusion hp
    · cases h
      cases hp
      cases hc
      exact absurd hcall (by decide)
  · intro c cn i m hc hsi h id hk hns
    rw [hnodes] at hc
    have hc2 := c7_bound hc
    interval_cases c
    · cases hc; exact Ref.noConfusion hsi
    · cases hc; exact Ref.noConfusion hsi
  · intro c cn r rn hc hr h
    rw [hnodes] at hc
    have hc2 := c7_bound hc
    interval_cases c
    · cases hc; exact Ref.noConfusion hr
    · cases hc; exact Ref.noConfusion hr

/-- Witness for C7: the claim theorem applied to the concrete two-node flow
with the identity execution-order ranking and fuel 2; the loop indeed exits
with the cursor at ROOT. -/
theorem C7_witness :
    c7rank exFlow.target < 2 ∧
    exFlow.nodes[exFlow.target]? = some c7tgt ∧
    flowInv exFlow ∧
    ∃ final, traceLoop 2 ⟨exFlow.nodes, c7tgt.prev, exFlow.target⟩ =
      Except.ok final ∧ final.current = Ref.root ∧
      trace_flow 2 exFlow = Except.ok { exFlow with nodes := final.nodes } :=
  ⟨by decide, by decide, by unfold flowInv trackingInv; decide,
    (C7_trace_flow_terminates exFlow_wf
      (by unfold flowInv trackingInv; decide)
      (show exFlow.nodes[exFlow.target]? = some c7tgt by decide)
      (by decide)).1⟩

/-! ### Claim C4: rerunning the backward pass -/

/-- Equality of all fields the backward pass never modifies (the static
structure of a node), relating a run-1 node value to its run-2 counterpart. -/
structure StaticRel (a b : NodeData) : Prop where
  type_eq : b.type = a.type
  frame_id_eq : b.frame_id = a.frame_id
  frame_is_init_eq : b.frame_is_init = a.frame_is_init
  vars_eq : b.vars = a.vars
  vbr_eq : b.vars_before_return = a.vars_before_return
  names_eq : b.names = a.names
  pta_eq : b.param_to_arg = a.param_to_arg
  prev_eq : b.prev = a.prev
  next_eq : b.next = a.next
  step_into_eq : b.step_into = a.step_into
  returned_from_eq : b.returned_from = a.returned_from
  is_target_eq : b.is_target = a.is_target

theorem Evolves.static {a b : NodeData} (h : Evolves a b) : StaticRel a b :=
  ⟨h.type_eq, h.frame_id_eq, h.frame_is_init_eq, h.vars_eq, h.vbr_eq,
    h.names_eq, h.pta_eq, h.prev_eq, h.next_eq, h.step_into_eq,
    h.returned_from_eq, h.is_target_eq⟩

theorem staticRel_refl (a : NodeData) : StaticRel a a :=
  ⟨rfl, rfl, rfl, rfl, rfl, rfl, rfl, rfl, rfl, rfl, rfl, rfl⟩

/-- Static equality is stable when each side evolves separately. -/
theorem StaticRel.of_evolves {s t s' t' : NodeData} (h : StaticRel s t)
    (hs : Evolves s s') (ht : Evolves t t') : StaticRel s' t' :=
  ⟨ht.type_eq.trans (h.type_eq.trans hs.type_eq.symm),
    ht.frame_id_eq.trans (h.frame_id_eq.trans hs.frame_id_eq.symm),
    ht.frame_is_init_eq.trans
      (h.frame_is_init_eq.trans hs.frame_is_init_eq.symm),
    ht.vars_eq.trans (h.vars_eq.trans hs.vars_eq.symm),
    ht.vbr_eq.trans (h.vbr_eq.trans hs.vbr_eq.symm),
    ht.names_eq.trans (h.names_eq.trans hs.names_eq.symm),
    ht.pta_eq.trans (h.pta_eq.trans hs.pta_eq.symm),
    ht.prev_eq.trans (h.prev_eq.trans hs.prev_eq.symm),
    ht.next_eq.trans (h.next_eq.trans hs.next_eq.symm),
    ht.step_into_eq.trans (h.step_into_eq.trans hs.step_into_eq.symm),
    ht.returned_from_eq.trans
      (h.returned_from_eq.trans hs.returned_from_eq.symm),
    ht.is_target_eq.trans (h.is_target_eq.trans hs.is_target_eq.symm)⟩

/-- The two runs have appended one and the same block of records: `s` (run 1)
extends `s0` and `t` (run 2) extends `t0` by a common suffix, per record
kind. -/
structure RSync (s0 t0 s t : NodeData) : Prop where
  apps : ∃ δ, s.var_appearances = s0.var_appearances ++ δ ∧
    t.var_appearances = t0.var_appearances ++ δ
  mods : ∃ δ, s.var_modifications = s0.var_modifications ++ δ ∧
    t.var_modifications = t0.var_modifications ++ δ
  sws : ∃ δ, s.var_switches = s0.var_switches ++ δ ∧
    t.var_switches = t0.var_switches ++ δ

theorem rsync_refl (s0 t0 : NodeData) : RSync s0 t0 s0 t0 :=
  ⟨⟨[], (List.append_nil _).symm, (List.append_nil _).symm⟩,
    ⟨[], (List.append_nil _).symm, (List.append_nil _).symm⟩,
    ⟨[], (List.append_nil _).symm, (List.append_nil _).symm⟩⟩

theorem rsync_trans {s0 t0 s t s' t' : NodeData} (h1 : RSync s0 t0 s t)
    (h2 : RSync s t s' t') : RSync s0 t0 s' t' := by
  obtain ⟨⟨a1, ha1s, ha1t⟩, ⟨m1, hm1s, hm1t⟩, ⟨w1, hw1s, hw1t⟩⟩ := h1
  obtain ⟨⟨a2, ha2s, ha2t⟩, ⟨m2, hm2s, hm2t⟩, ⟨w2, hw2s, hw2t⟩⟩ := h2
  exact ⟨⟨a1 ++ a2, by rw [ha2s, ha1s, List.append_assoc],
      by rw [ha2t, ha1t, List.append_assoc]⟩,
    ⟨m1 ++ m2, by rw [hm2s, hm1s, List.append_assoc],
      by rw [hm2t, hm1t, List.append_assoc]⟩,
    ⟨w1 ++ w2, by rw [hw2s, hw1s, List.append_assoc],
      by rw [hw2t, hw1t, List.append_assoc]⟩⟩

/-- Full relation between a run-1 intermediate node value `s` and its run-2
counterpart `t`: statics agree; the run-2 value already carries the final
(run 1) tracking set and relevant-return flag `o`; and the two runs have
appended the same record block over their respective starting points
(`init` for run 1, `o` for run 2). -/
structure NRel (init o s t : NodeData) : Prop where
  statics : StaticRel s t
  tr : t.tracking = o.tracking
  irr : t.is_relevant_return = o.is_relevant_return
  recs : RSync init o s t

theorem fold_insert_eq_self (vs : Vars) :
    ∀ (ids : List ID) (t : List ID),
      (∀ id ∈ ids, Vars.hasKey vs id → id ∈ t) →
      ids.foldl (fun t i => if Vars.hasKey vs i then insertId t i else t) t
        = t := by
  intro ids
  induction ids with
  | nil => intro t _; rfl
  | cons i ids ih =>
    intro t h
    rw [List.foldl_cons]
    by_cases hk : Vars.hasKey vs i = true
    · rw [if_pos hk, show insertId t i = t from by
        unfold insertId
        rw [if_pos (h i (List.mem_cons_self i ids) hk)]]
      exact ih t (fun id hid hk2 => h id (List.mem_cons_of_mem _ hid) hk2)
    · rw [if_neg hk]
      exact ih t (fun id hid hk2 => h id (List.mem_cons_of_mem _ hid) hk2)

/-- `add_tracking` is the identity once every addable id is already
tracked (Python set `add` of present elements). -/
theorem add_tracking_eq_self {n : NodeData} {ids : List ID}
    (h : ∀ id ∈ ids, Vars.hasKey n.vars id → id ∈ n.tracking) :
    n.add_tracking ids = n := by
  have key := fold_insert_eq_self n.vars ids n.tracking h
  simp only [NodeData.add_tracking]
  rw [key]

/-- Setting an already-set relevant-return flag is the identity. -/
theorem set_irr_eq_self {n : NodeData} (h : n.is_relevant_return = true) :
    { n with is_relevant_return := true } = n := by
  cases n
  cases h
  rfl

theorem Evolves.tracking_mem {a b : NodeData} (h : Evolves a b) {id : ID}
    (hm : id ∈ a.tracking) : id ∈ b.tracking := by
  obtain ⟨δ, hd⟩ := h.tracking_app
  rw [hd]
  exact List.mem_append_left _ hm

theorem foldl_recordChange_irr (l : List VarChange) (n : NodeData) :
    (l.foldl NodeData.recordChange n).is_relevant_return =
      n.is_relevant_return := by
  induction l generalizing n with
  | nil => rfl
  | cons c l ih =>
    rw [List.foldl_cons, ih]
    cases c <;> rfl

theorem changesOf_congr {s t n : NodeData} (h : t.vars = s.vars) :
    changesOf t n = changesOf s n := by
  unfold changesOf changeAt
  rw [h]


/-- Replaying case 1 on the once-sliced node values: the body succeeds
again, adds no new tracking ids (they are all present already) and appends
exactly the same records again. -/
theorem case1_replay {init o n s t s' : NodeData}
    (hrel : NRel init o s t) (hs : case1Body s n = Except.ok s')
    (hfut : Evolves s' o) :
    ∃ t', case1Body t n = Except.ok t' ∧ NRel init o s' t' := by
  unfold case1Body at hs
  cases hg : getVarChanges (s.sync_tracking_with n) n with
  | error e => rw [hg] at hs; exact Except.noConfusion hs
  | ok cs =>
    rw [hg] at hs
    cases Except.ok.inj hs
    obtain ⟨hf, hk, hcs⟩ := getVarChanges_ok_iff.mp hg
    subst hcs
    have hvars : t.vars = s.vars := hrel.statics.vars_eq
    have hsf : s.frame_id = n.frame_id :=
      ((sync_tracking_with_evolves s n).frame_id_eq).symm.trans hf
    have hokt := case1Body_ok_of
      (hrel.statics.frame_id_eq.trans hsf) hk
    have hceq : changesOf t n =
        changesOf (s.sync_tracking_with n) n := by
      rw [changesOf_sync]
      exact changesOf_congr hvars
    have habs : t.sync_tracking_with n = t := by
      unfold NodeData.sync_tracking_with
      apply add_tracking_eq_self
      intro id hid hkey
      rw [hrel.tr]
      refine hfut.tracking_mem ((case1Apply_evolves _ _).tracking_mem ?_)
      exact mem_add_tracking.mpr
        (Or.inr ⟨hid, by rw [← hvars]; exact hkey⟩)
    rw [hceq, habs] at hokt
    refine ⟨_, hokt, ?_⟩
    unfold case1Apply
    set cs1 := (changesOf (s.sync_tracking_with n) n).take 1 with hcs1
    by_cases he : cs1.isEmpty = true
    · rw [if_pos he, if_pos he]
      constructor
      · exact StaticRel.of_evolves hrel.statics
          ((sync_tracking_with_evolves s n).trans
            (foldl_recordChange_evolves _ _))
          (foldl_recordChange_evolves _ _)
      · rw [foldl_recordChange_tracking]
        exact hrel.tr
      · rw [foldl_recordChange_irr]
        exact hrel.irr
      · refine rsync_trans hrel.recs ⟨⟨appsOf cs1, ?_, ?_⟩,
          ⟨modsOf cs1, ?_, ?_⟩, ⟨[], ?_, ?_⟩⟩
        · simp only [NodeData.sync_tracking_with]
          rw [foldl_recordChange_apps,
            (add_tracking_fields s n.tracking).2.1]
        · rw [foldl_recordChange_apps]
        · simp only [NodeData.sync_tracking_with]
          rw [foldl_recordChange_mods,
            (add_tracking_fields s n.tracking).2.2.1]
        · rw [foldl_recordChange_mods]
        · simp only [NodeData.sync_tracking_with]
          rw [foldl_recordChange_switches,
            (add_tracking_fields s n.tracking).2.2.2.1, List.append_nil]
        · rw [foldl_recordChange_switches, List.append_nil]
    · rw [if_neg he, if_neg he]
      have habs3 : (((changesOf (s.sync_tracking_with n) n).take 1).foldl
            NodeData.recordChange t).add_tracking
          (((changesOf (s.sync_tracking_with n) n).take 1).foldl
            NodeData.recordChange t).names =
          ((changesOf (s.sync_tracking_with n) n).take 1).foldl
            NodeData.recordChange t := by
        apply add_tracking_eq_self
        intro id hid hkey
        rw [foldl_recordChange_tracking, hrel.tr]
        refine hfut.tracking_mem ?_
        unfold case1Apply
        rw [← hcs1, if_neg he]
        rw [(foldl_recordChange_evolves _ _).names_eq,
          hrel.statics.names_eq] at hid
        rw [(foldl_recordChange_evolves _ _).vars_eq, hvars] at hkey
        refine mem_add_tracking.mpr (Or.inr ⟨?_, ?_⟩)
        · rw [(foldl_recordChange_evolves _ _).names_eq,
            (sync_tracking_with_evolves s n).names_eq]
          exact hid
        · rw [(foldl_recordChange_evolves _ _).vars_eq,
            (sync_tracking_with_evolves s n).vars_eq]
          exact hkey
      rw [habs3]
      constructor
      · exact StaticRel.of_evolves hrel.statics
          (((sync_tracking_with_evolves s n).trans
            (foldl_recordChange_evolves _ _)).trans
              (add_tracking_evolves _ _))
          (foldl_recordChange_evolves _ _)
      · rw [foldl_recordChange_tracking]
        exact hrel.tr
      · rw [foldl_recordChange_irr]
        exact hrel.irr
      · refine rsync_trans hrel.recs ⟨⟨appsOf cs1, ?_, ?_⟩,
          ⟨modsOf cs1, ?_, ?_⟩, ⟨[], ?_, ?_⟩⟩
        · simp only [NodeData.sync_tracking_with]
          rw [(add_tracking_fields _ _).2.1, foldl_recordChange_apps,
            (add_tracking_fields s n.tracking).2.1]
        · rw [foldl_recordChange_apps]
        · simp only [NodeData.sync_tracking_with]
          rw [(add_tracking_fields _ _).2.2.1, foldl_recordChange_mods,
            (add_tracking_fields s n.tracking).2.2.1]
        · rw [foldl_recordChange_mods]
        · simp only [NodeData.sync_tracking_with]
          rw [(add_tracking_fields _ _).2.2.2.1,
            foldl_recordChange_switches,
            (add_tracking_fields s n.tracking).2.2.2.1, List.append_nil]
        · rw [foldl_recordChange_switches, List.append_nil]

/-- Generic replay of a monadic fold: if the same fold (with evolving
steps) succeeded in run 1 and each step can be replayed preserving a pair
relation, the run-2 fold succeeds with the relation holding at the end. -/
theorem foldlM_replay (R : NodeData → NodeData → Prop) (sfin : NodeData)
    {α : Type} (f : NodeData → α → Except Unit NodeData)
    (hevf : ∀ (b : NodeData) (a : α) (b' : NodeData),
      f b a = Except.ok b' → Evolves b b') :
    ∀ (l : List α) (s t : NodeData), R s t →
      (∀ (s1 t1 : NodeData) (a : α), a ∈ l → R s1 t1 → Evolves s1 sfin →
        ∀ s2, f s1 a = Except.ok s2 → Evolves s2 sfin →
        ∃ t2, f t1 a = Except.ok t2 ∧ R s2 t2) →
      l.foldlM f s = Except.ok sfin →
      ∃ tfin, l.foldlM f t = Except.ok tfin ∧ R sfin tfin := by
  intro l
  induction l with
  | nil =>
    intro s t hR _ hfold
    simp only [List.foldlM_nil] at hfold ⊢
    cases Except.ok.inj hfold
    exact ⟨t, rfl, hR⟩
  | cons a l ih =>
    intro s t hR hstep hfold
    rw [List.foldlM_cons] at hfold
    cases hfa : f s a with
    | error e => rw [hfa] at hfold; exact Except.noConfusion hfold
    | ok s1 =>
      rw [hfa] at hfold
      have hev1 : Evolves s1 sfin :=
        foldlM_preserve (Evolves s1) f l
          (fun b a b' _ hf hb => hb.trans (hevf b a b' hf)) s1 sfin hfold
          (Evolves.refl s1)
      have hev0 : Evolves s sfin := (hevf s a s1 hfa).trans hev1
      obtain ⟨t1, hft, hR1⟩ :=
        hstep s t a (List.mem_cons_self a l) hR hev0 s1 hfa hev1
      obtain ⟨tfin, hfoldt, hRfin⟩ := ih s1 t1 hR1
        (fun s2 t2 a2 ha2 => hstep s2 t2 a2 (List.mem_cons_of_mem _ ha2))
        hfold
      exact ⟨tfin, by rw [List.foldlM_cons, hft]; exact hfoldt, hRfin⟩

/-- Replaying case 2 on the once-sliced node values: every tracked callee
parameter resolves to the same caller arguments, whose tracking additions
are absorbed, and the identical variable switches are appended again. -/
theorem case2_replay {init o n s t s' : NodeData}
    (hrel : NRel init o s t) (hs : case2Body s n = Except.ok s')
    (hfut : Evolves s' o) :
    ∃ t', case2Body t n = Except.ok t' ∧ NRel init o s' t' := by
  unfold case2Body at hs ⊢
  have hstep : ∀ (s1 t1 : NodeData) (pid : ID), pid ∈ n.tracking →
      (StaticRel s1 t1 ∧ t1.tracking = o.tracking ∧
        t1.is_relevant_return = o.is_relevant_return ∧ RSync s t s1 t1) →
      Evolves s1 s' →
      ∀ s2, case2IdStep n.frame_is_init s1 pid = Except.ok s2 →
      Evolves s2 s' →
      ∃ t2, case2IdStep n.frame_is_init t1 pid = Except.ok t2 ∧
        (StaticRel s2 t2 ∧ t2.tracking = o.tracking ∧
          t2.is_relevant_return = o.is_relevant_return ∧
          RSync s t s2 t2) := by
    intro s1 t1 pid hp hR1 hev1 s2 hfa hev2
    obtain ⟨hst, htr, hirr, hrs⟩ := hR1
    unfold case2IdStep at hfa ⊢
    by_cases hskip : n.frame_is_init = true ∧ pid = "self"
    · rw [if_pos hskip] at hfa ⊢
      cases Except.ok.inj hfa
      exact ⟨t1, rfl, hst, htr, hirr, hrs⟩
    · rw [if_neg hskip] at hfa ⊢
      cases hfind : (s1.param_to_arg.find?
          (fun p => p.1 = pid)).map Prod.snd with
      | none =>
        simp only [hfind] at hfa
        exact Except.noConfusion hfa
      | some arg_ids =>
        simp only [hfind] at hfa
        rw [hst.pta_eq]
        simp only [hfind]
        have hinner : ∀ (sb tb : NodeData) (aid : ID), aid ∈ arg_ids →
            (StaticRel sb tb ∧ tb.tracking = o.tracking ∧
              tb.is_relevant_return = o.is_relevant_return ∧
              RSync s1 t1 sb tb) →
            Evolves sb s2 →
            ∀ sb2, case2ArgStep pid sb aid = Except.ok sb2 →
            Evolves sb2 s2 →
            ∃ tb2, case2ArgStep pid tb aid = Except.ok tb2 ∧
              (StaticRel sb2 tb2 ∧ tb2.tracking = o.tracking ∧
                tb2.is_relevant_return = o.is_relevant_return ∧
                RSync s1 t1 sb2 tb2) := by
          intro sb tb aid ha hR2 hevb sb2 hfa2 hevb2
          obtain ⟨hstb, htrb, hirrb, hrsb⟩ := hR2
          unfold case2ArgStep at hfa2 ⊢
          cases hget : Vars.get? (sb.add_tracking [aid]).vars aid with
          | none =>
            simp only [hget] at hfa2
            exact Except.noConfusion hfa2
          | some v =>
            simp only [hget] at hfa2
            cases Except.ok.inj hfa2
            have hkeyb : Vars.get? sb.vars aid = some v := by
              rw [← (add_tracking_evolves sb [aid]).vars_eq]
              exact hget
            have hmemfin : aid ∈
                ((sb.add_tracking [aid]).add_var_switch
                  ⟨aid, pid, v⟩).tracking := by
              show aid ∈ (sb.add_tracking [aid]).tracking
              refine mem_add_tracking.mpr (Or.inr
                ⟨List.mem_singleton.mpr rfl, ?_⟩)
              show (Vars.get? sb.vars aid).isSome = true
              rw [hkeyb]; rfl
            have habsb : tb.add_tracking [aid] = tb := by
              apply add_tracking_eq_self
              intro id hidm hkk
              obtain rfl := List.mem_singleton.mp hidm
              rw [htrb]
              exact ((hevb2.trans (hev2.trans hfut))).tracking_mem hmemfin
            refine ⟨tb.add_var_switch ⟨aid, pid, v⟩, ?_, ?_, ?_, ?_, ?_⟩
            · rw [show Vars.get? (tb.add_tracking [aid]).vars aid =
                  some v by rw [habsb, hstb.vars_eq]; exact hkeyb]
              rw [habsb]
            · exact StaticRel.of_evolves hstb
                ((add_tracking_evolves sb [aid]).trans
                  (add_var_switch_evolves _ _))
                (add_var_switch_evolves tb _)
            · exact htrb
            · exact hirrb
            · refine rsync_trans hrsb ⟨⟨[], ?_, ?_⟩, ⟨[], ?_, ?_⟩,
                ⟨[⟨aid, pid, v⟩], ?_, ?_⟩⟩
              · show (sb.add_tracking [aid]).var_appearances =
                  sb.var_appearances ++ []
                rw [(add_tracking_fields sb [aid]).2.1, List.append_nil]
              · rw [List.append_nil]
                rfl
              · show (sb.add_tracking [aid]).var_modifications =
                  sb.var_modifications ++ []
                rw [(add_tracking_fields sb [aid]).2.2.1, List.append_nil]
              · rw [List.append_nil]
                rfl
              · show (sb.add_tracking [aid]).var_switches ++
                  [⟨aid, pid, v⟩] = sb.var_switches ++ [⟨aid, pid, v⟩]
                rw [(add_tracking_fields sb [aid]).2.2.2.1]
              · rfl
        obtain ⟨t2, hft2, hR2⟩ := foldlM_replay _ s2 (case2ArgStep pid)
          (fun b a b' hf => case2ArgStep_evolves hf) arg_ids s1 t1
          ⟨hst, htr, hirr, rsync_refl s1 t1⟩ hinner hfa
        exact ⟨t2, hft2, hR2.1, hR2.2.1, hR2.2.2.1,
          rsync_trans hrs hR2.2.2.2⟩
  obtain ⟨t', hft, hR⟩ := foldlM_replay _ s'
    (case2IdStep n.frame_is_init)
    (fun b a b' hf => case2IdStep_evolves hf) n.tracking s t
    ⟨hrel.statics, hrel.tr, hrel.irr, rsync_refl s t⟩ hstep hs
  exact ⟨t', hft, ⟨hR.1, hR.2.1, hR.2.2.1,
    rsync_trans hrel.recs hR.2.2.2⟩⟩

theorem case3ReturnTrack_records (idsA : List ID) (rf : NodeData)
    (vc : VarChange) :
    (case3ReturnTrack idsA rf vc).var_appearances = rf.var_appearances ∧
    (case3ReturnTrack idsA rf vc).var_modifications =
      rf.var_modifications ∧
    (case3ReturnTrack idsA rf vc).var_switches = rf.var_switches := by
  unfold case3ReturnTrack
  by_cases hi : rf.frame_is_init = true
  · rw [if_pos hi]; exact ⟨rfl, rfl, rfl⟩
  · rw [if_neg hi]
    by_cases hm : vc.id ∈ idsA
    · rw [if_pos hm]
      exact ⟨(add_tracking_fields _ _).2.1,
        (add_tracking_fields _ _).2.2.1,
        (add_tracking_fields _ _).2.2.2.1⟩
    · rw [if_neg hm]; exact ⟨rfl, rfl, rfl⟩

theorem case3ChangeStep_records {args idsA : List ID}
    {cur rf rf' : NodeData} {vc : VarChange}
    (h : case3ChangeStep args idsA cur rf vc = Except.ok rf') :
    rf'.var_appearances = rf.var_appearances ∧
    rf'.var_modifications = rf.var_modifications ∧
    rf'.var_switches = rf.var_switches := by
  unfold case3ChangeStep at h
  split at h
  · split at h
    · exact Except.noConfusion h
    · rename_i p hp
      cases Except.ok.inj h
      refine ⟨?_, ?_, ?_⟩
      · rw [(case3ReturnTrack_records _ _ _).1,
          (add_tracking_fields _ _).2.1]
      · rw [(case3ReturnTrack_records _ _ _).2.1,
          (add_tracking_fields _ _).2.2.1]
      · rw [(case3ReturnTrack_records _ _ _).2.2,
          (add_tracking_fields _ _).2.2.2.1]
  · cases Except.ok.inj h
    exact case3ReturnTrack_records _ _ _

theorem case3Fold_records {args idsA : List ID} {cur : NodeData}
    {cs : List VarChange} {rf rf1 : NodeData}
    (h : cs.foldlM (case3ChangeStep args idsA cur) rf = Except.ok rf1) :
    rf1.var_appearances = rf.var_appearances ∧
    rf1.var_modifications = rf.var_modifications ∧
    rf1.var_switches = rf.var_switches := by
  refine foldlM_preserve (fun b =>
    b.var_appearances = rf.var_appearances ∧
    b.var_modifications = rf.var_modifications ∧
    b.var_switches = rf.var_switches) _ cs ?_ rf rf1 h ⟨rfl, rfl, rfl⟩
  intro b a b' _ hstep hb
  obtain ⟨h1, h2, h3⟩ := case3ChangeStep_records hstep
  exact ⟨h1.trans hb.1, h2.trans hb.2.1, h3.trans hb.2.2⟩

theorem seedSelf_records (rf : NodeData) :
    (seedSelf rf).var_appearances = rf.var_appearances ∧
    (seedSelf rf).var_modifications = rf.var_modifications ∧
    (seedSelf rf).var_switches = rf.var_switches := by
  unfold seedSelf
  by_cases hi : rf.frame_is_init = true
  · rw [if_pos hi]
    exact ⟨(add_tracking_fields _ _).2.1,
      (add_tracking_fields _ _).2.2.1,
      (add_tracking_fields _ _).2.2.2.1⟩
  · rw [if_neg hi]; exact ⟨rfl, rfl, rfl⟩

/-- Replaying case 3 on the once-sliced node values: the caller-side diff
yields the same changes (recorded again on the callsite node), every
tracking/relevant-return update on the callee exit node is absorbed, and
`update_var_changes_before_return` appends the identical records again. -/
theorem case3_replay {init initr o orf n s t rs rt s' rs' : NodeData}
    (hrel : NRel init o s t) (hrfrel : NRel initr orf rs rt)
    (hs : case3Body s n rs = Except.ok (s', rs'))
    (hfut : Evolves s' o) (hrfeq : orf = rs') :
    ∃ t' rt', case3Body t n rt = Except.ok (t', rt') ∧
      NRel init o s' t' ∧ NRel initr orf rs' rt' := by
  unfold case3Body at hs
  cases hg : getVarChanges (s.sync_tracking_with n) n with
  | error e => rw [hg] at hs; exact Except.noConfusion hs
  | ok cs =>
    simp only [hg] at hs
    obtain ⟨hf, hk, hcs⟩ := getVarChanges_ok_iff.mp hg
    cases hfold1 : cs.foldlM
        (case3ChangeStep (s.sync_tracking_with n).get_args
          (assignedIds (s.sync_tracking_with n))
          (cs.foldl NodeData.recordChange (s.sync_tracking_with n)))
        (seedSelf rs) with
    | error e =>
      simp only [hfold1] at hs
      exact Except.noConfusion hs
    | ok rs1 =>
      simp only [hfold1] at hs
      cases hupd1 : updateVarChangesBeforeReturn rs1 with
      | error e =>
        simp only [hupd1] at hs
        exact Except.noConfusion hs
      | ok rs2 =>
        simp only [hupd1] at hs
        injection Except.ok.inj hs with h1 h2
        subst h1
        subst h2
        have hsync_ev := sync_tracking_with_evolves s n
        have hseed_ev := seedSelf_evolves rs
        have hsf : s.frame_id = n.frame_id :=
          hsync_ev.frame_id_eq.symm.trans hf
        have hev_seed_rs1 : Evolves (seedSelf rs) rs1 :=
          foldlM_preserve (Evolves (seedSelf rs)) _ cs
            (fun b a b' _ hstep hb =>
              hb.trans (case3ChangeStep_evolves hstep))
            (seedSelf rs) rs1 hfold1 (Evolves.refl _)
        have hupd_ti := updateVBR_tracking_irr hupd1
        have htr_orf : orf.tracking = rs1.tracking := by
          rw [hrfeq]; exact hupd_ti.1
        have hirr_orf : orf.is_relevant_return =
            rs1.is_relevant_return := by
          rw [hrfeq]; exact hupd_ti.2
        have hvars_rt : rt.vars = rs.vars := hrfrel.statics.vars_eq
        have hvars_rs1 : rs1.vars = rs.vars := by
          rw [hev_seed_rs1.vars_eq, hseed_ev.vars_eq]
        have hfii : rt.frame_is_init = rs.frame_is_init :=
          hrfrel.statics.frame_is_init_eq
        obtain ⟨hmemF, hirrF⟩ :=
          mem_case3Fold _ _ _ cs (seedSelf rs) rs1 hfold1
        have hvars_t : t.vars = s.vars := hrel.statics.vars_eq
        have habs : t.sync_tracking_with n = t := by
          unfold NodeData.sync_tracking_with
          apply add_tracking_eq_self
          intro id hid hkey
          rw [hrel.tr]
          refine hfut.tracking_mem ?_
          rw [foldl_recordChange_tracking]
          exact mem_add_tracking.mpr
            (Or.inr ⟨hid, by rw [← hvars_t]; exact hkey⟩)
        have hcs_teq : changesOf t n = cs := by
          rw [hcs, changesOf_sync]
          exact changesOf_congr hvars_t
        have habs_seed : seedSelf rt = rt := by
          unfold seedSelf
          by_cases hi : rt.frame_is_init = true
          · rw [if_pos hi]
            apply add_tracking_eq_self
            intro id hidm hkk
            obtain rfl := List.mem_singleton.mp hidm
            rw [hrfrel.tr, htr_orf]
            refine (hmemF "self").mpr (Or.inl ?_)
            show ("self" : ID) ∈ (seedSelf rs).tracking
            unfold seedSelf
            rw [if_pos (by rw [← hfii]; exact hi)]
            exact mem_add_tracking.mpr
              (Or.inr ⟨List.mem_singleton.mpr rfl,
                by rw [← hvars_rt]; exact hkk⟩)
          · rw [if_neg hi]
        have hargs_eq : t.get_args =
            (s.sync_tracking_with n).get_args := by
          unfold NodeData.get_args
          rw [hrel.statics.pta_eq, hsync_ev.pta_eq]
        have hidsA_eq : assignedIds t =
            assignedIds (s.sync_tracking_with n) := by
          unfold assignedIds NodeData.get_args
          rw [hrel.statics.names_eq, hsync_ev.names_eq,
            hrel.statics.pta_eq, hsync_ev.pta_eq]
        have hpta_curT : (cs.foldl NodeData.recordChange t).param_to_arg =
            (cs.foldl NodeData.recordChange
              (s.sync_tracking_with n)).param_to_arg := by
          rw [foldl_recordChange_pta, foldl_recordChange_pta,
            hrel.statics.pta_eq, hsync_ev.pta_eq]
        have hret_absorb : ∀ vc, vc ∈ cs →
            case3ReturnTrack (assignedIds t) rt vc = rt := by
          intro vc hvc
          unfold case3ReturnTrack
          by_cases hi : rt.frame_is_init = true
          · rw [if_pos hi]
          · rw [if_neg hi]
            have hrtfalse : rt.frame_is_init = false := by
              cases h2 : rt.frame_is_init
              · rfl
              · exact absurd h2 hi
            have hseedfalse : (seedSelf rs).frame_is_init = false := by
              rw [hseed_ev.frame_is_init_eq, ← hfii]
              exact hrtfalse
            by_cases hm : vc.id ∈ assignedIds t
            · rw [if_pos hm]
              have hmS : vc.id ∈
                  assignedIds (s.sync_tracking_with n) := by
                rw [← hidsA_eq]; exact hm
              have hirr_true : rt.is_relevant_return = true := by
                rw [hrfrel.irr, hirr_orf]
                exact hirrF.mpr (Or.inr ⟨hseedfalse, vc, hvc, hmS⟩)
              rw [set_irr_eq_self hirr_true]
              apply add_tracking_eq_self
              intro id hidm hkk
              rw [hrfrel.tr, htr_orf]
              refine (hmemF id).mpr (Or.inr ⟨?_, vc, hvc,
                Or.inr ⟨hseedfalse, hmS, ?_⟩⟩)
              · rw [hseed_ev.vars_eq, ← hvars_rt]
                exact hkk
              · rw [hseed_ev.names_eq]
                rw [hrfrel.statics.names_eq] at hidm
                exact hidm
            · rw [if_neg hm]
        have hstep3 : ∀ (b : NodeData) (vc : VarChange), vc ∈ cs →
            b = rt →
            ∃ b', case3ChangeStep t.get_args (assignedIds t)
              (cs.foldl NodeData.recordChange t) b vc = Except.ok b' ∧
              b' = rt := by
          intro b vc hvc hb
          rw [hb]
          unfold case3ChangeStep
          by_cases hvargs : vc.id ∈ t.get_args
          · rw [if_pos hvargs]
            have hvargs_s : vc.id ∈
                (s.sync_tracking_with n).get_args := by
              rw [← hargs_eq]; exact hvargs
            have hvargs_t : vc.id ∈
                (cs.foldl NodeData.recordChange t).get_args := by
              unfold NodeData.get_args
              rw [foldl_recordChange_pta]
              unfold NodeData.get_args at hvargs
              exact hvargs
            obtain ⟨p, hp⟩ := args_arg_to_param hvargs_t
            simp only [hp]
            have hp_s : (cs.foldl NodeData.recordChange
                (s.sync_tracking_with n)).arg_to_param vc.id =
                some p := by
              rw [← arg_to_param_congr hpta_curT vc.id]
              exact hp
            have habs_p : rt.add_tracking [p] = rt := by
              apply add_tracking_eq_self
              intro id hidm hkk
              obtain rfl := List.mem_singleton.mp hidm
              rw [hrfrel.tr, htr_orf]
              refine (hmemF id).mpr (Or.inr ⟨?_, vc, hvc,
                Or.inl ⟨hvargs_s, hp_s⟩⟩)
              rw [hseed_ev.vars_eq, ← hvars_rt]
              exact hkk
            rw [habs_p]
            exact ⟨_, rfl, hret_absorb vc hvc⟩
          · rw [if_neg hvargs]
            exact ⟨_, rfl, hret_absorb vc hvc⟩
        have hfold_t : cs.foldlM
            (case3ChangeStep t.get_args (assignedIds t)
              (cs.foldl NodeData.recordChange t)) rt = Except.ok rt := by
          obtain ⟨b, hb, hbe⟩ := foldlM_ok_of_all (fun b => b = rt)
            (case3ChangeStep t.get_args (assignedIds t)
              (cs.foldl NodeData.recordChange t)) cs hstep3 rt rfl
          rw [hbe] at hb
          exact hb
        have hg_t : getVarChanges t n = Except.ok cs :=
          getVarChanges_ok_iff.mpr
            ⟨hrel.statics.frame_id_eq.trans hsf, hk, hcs_teq.symm⟩
        have hrel_cur : NRel init o
            (cs.foldl NodeData.recordChange (s.sync_tracking_with n))
            (cs.foldl NodeData.recordChange t) := by
          constructor
          · exact StaticRel.of_evolves hrel.statics
              (hsync_ev.trans (foldl_recordChange_evolves _ _))
              (foldl_recordChange_evolves _ _)
          · rw [foldl_recordChange_tracking]
            exact hrel.tr
          · rw [foldl_recordChange_irr]
            exact hrel.irr
          · refine rsync_trans hrel.recs ⟨⟨appsOf cs, ?_, ?_⟩,
              ⟨modsOf cs, ?_, ?_⟩, ⟨[], ?_, ?_⟩⟩
            · simp only [NodeData.sync_tracking_with]
              rw [foldl_recordChange_apps,
                (add_tracking_fields s n.tracking).2.1]
            · rw [foldl_recordChange_apps]
            · simp only [NodeData.sync_tracking_with]
              rw [foldl_recordChange_mods,
                (add_tracking_fields s n.tracking).2.2.1]
            · rw [foldl_recordChange_mods]
            · simp only [NodeData.sync_tracking_with]
              rw [foldl_recordChange_switches,
                (add_tracking_fields s n.tracking).2.2.2.1,
                List.append_nil]
            · rw [foldl_recordChange_switches, List.append_nil]
        have hrs1_records := case3Fold_records hfold1
        have hseed_records := seedSelf_records rs
        rcases updateVBR_ok_spec hupd1 with ⟨hemp, hrs2eq⟩ |
          ⟨vbr, hvbr1, hcov, hrs2eq⟩
        · subst hrs2eq
          have htrk_rt : rt.tracking = [] := by
            rw [hrfrel.tr, htr_orf, hemp]
          have hupd_t : updateVarChangesBeforeReturn rt =
              Except.ok rt := by
            unfold updateVarChangesBeforeReturn
            rw [htrk_rt]
            rfl
          refine ⟨cs.foldl NodeData.recordChange t, rt, ?_, hrel_cur, ?_⟩
          · unfold case3Body
            simp only [habs, habs_seed, hg_t, hfold_t, hupd_t]
          · constructor
            · exact StaticRel.of_evolves hrfrel.statics
                (hseed_ev.trans hev_seed_rs1) (Evolves.refl rt)
            · exact hrfrel.tr
            · exact hrfrel.irr
            · refine rsync_trans hrfrel.recs ⟨⟨[], ?_, ?_⟩,
                ⟨[], ?_, ?_⟩, ⟨[], ?_, ?_⟩⟩
              · rw [hrs1_records.1, hseed_records.1, List.append_nil]
              · rw [List.append_nil]
              · rw [hrs1_records.2.1, hseed_records.2.1, List.append_nil]
              · rw [List.append_nil]
              · rw [hrs1_records.2.2, hseed_records.2.2, List.append_nil]
              · rw [List.append_nil]
        · subst hrs2eq
          have hvbr_rt : rt.vars_before_return = some vbr := by
            rw [hrfrel.statics.vbr_eq, ← hseed_ev.vbr_eq,
              ← hev_seed_rs1.vbr_eq]
            exact hvbr1
          have htrk_rt : rt.tracking = rs1.tracking := by
            rw [hrfrel.tr, htr_orf]
          have hvars_rt_rs1 : rt.vars = rs1.vars := by
            rw [hvars_rt, hvars_rs1]
          have hfilter_eq : rt.tracking.filterMap
              (changeAtV rt.vars vbr) =
              rs1.tracking.filterMap (changeAtV rs1.vars vbr) := by
            rw [htrk_rt, hvars_rt_rs1]
          have hupd_t : updateVarChangesBeforeReturn rt =
              Except.ok ((rt.tracking.filterMap
                (changeAtV rt.vars vbr)).foldl
                NodeData.recordChange rt) := by
            unfold updateVarChangesBeforeReturn
            exact (vbr_fold_iff vbr rt.tracking rt
              ((rt.tracking.filterMap (changeAtV rt.vars vbr)).foldl
                NodeData.recordChange rt) hvbr_rt).mpr
              ⟨fun id hid => hcov id (by rw [← htrk_rt]; exact hid), rfl⟩
          rw [hfilter_eq] at hupd_t
          refine ⟨cs.foldl NodeData.recordChange t,
            (rs1.tracking.filterMap (changeAtV rs1.vars vbr)).foldl
              NodeData.recordChange rt, ?_, hrel_cur, ?_⟩
          · unfold case3Body
            simp only [habs, habs_seed, hg_t, hfold_t, hupd_t]
          · constructor
            · exact StaticRel.of_evolves
                (StaticRel.of_evolves hrfrel.statics
                  (hseed_ev.trans hev_seed_rs1) (Evolves.refl rt))
                (foldl_recordChange_evolves _ _)
                (foldl_recordChange_evolves _ _)
            · rw [foldl_recordChange_tracking]
              exact hrfrel.tr
            · rw [foldl_recordChange_irr]
              exact hrfrel.irr
            · refine rsync_trans hrfrel.recs
                ⟨⟨appsOf (rs1.tracking.filterMap
                  (changeAtV rs1.vars vbr)), ?_, ?_⟩,
                ⟨modsOf (rs1.tracking.filterMap
                  (changeAtV rs1.vars vbr)), ?_, ?_⟩, ⟨[], ?_, ?_⟩⟩
              · rw [foldl_recordChange_apps, hrs1_records.1,
                  hseed_records.1]
              · rw [foldl_recordChange_apps]
              · rw [foldl_recordChange_mods, hrs1_records.2.1,
                  hseed_records.2.1]
              · rw [foldl_recordChange_mods]
              · rw [foldl_recordChange_switches, hrs1_records.2.2,
                  hseed_records.2.2, List.append_nil]
              · rw [foldl_recordChange_switches, List.append_nil]

theorem changeStep_congr {self a b : NodeData} (hv : b.vars = a.vars) :
    changeStep self b = changeStep self a := by
  funext acc var_id
  unfold changeStep
  rw [hv]

theorem getVarChanges_congr {self a b : NodeData}
    (hfr : b.frame_id = a.frame_id) (htr : b.tracking = a.tracking)
    (hv : b.vars = a.vars) :
    getVarChanges self b = getVarChanges self a := by
  unfold getVarChanges
  rw [hfr, htr, changeStep_congr hv]

theorem sync_congr (t : NodeData) {a b : NodeData}
    (htr : b.tracking = a.tracking) :
    t.sync_tracking_with b = t.sync_tracking_with a := by
  unfold NodeData.sync_tracking_with
  rw [htr]

/-- The run-2 `next` node deep-equals the run-1 `next` on every field the
case-1 body reads, so the body computes the same function of `current`. -/
theorem case1Body_congr (t : NodeData) {a b : NodeData}
    (hst : StaticRel a b) (htr : b.tracking = a.tracking) :
    case1Body t b = case1Body t a := by
  unfold case1Body
  rw [sync_congr t htr,
    getVarChanges_congr hst.frame_id_eq htr hst.vars_eq]

theorem case2Body_congr (t : NodeData) {a b : NodeData}
    (hst : StaticRel a b) (htr : b.tracking = a.tracking) :
    case2Body t b = case2Body t a := by
  unfold case2Body
  rw [htr, hst.frame_is_init_eq]

theorem case3Body_congr (t rt : NodeData) {a b : NodeData}
    (hst : StaticRel a b) (htr : b.tracking = a.tracking) :
    case3Body t b rt = case3Body t a rt := by
  unfold case3Body
  rw [sync_congr t htr,
    getVarChanges_congr hst.frame_id_eq htr hst.vars_eq]

/-- The per-index relation of the two runs, on optional array entries:
`init`/`S`/`out`/`T` entries must all be present (related by `NRel`) or all
absent. -/
def optionNRel : Option NodeData → Option NodeData → Option NodeData →
    Option NodeData → Prop
  | some d, some s, some o, some t => NRel d o s t
  | none, none, none, none => True
  | _, _, _, _ => False

theorem optionNRel_inv_s {od os oo ot : Option NodeData}
    (h : optionNRel od os oo ot) {cur : NodeData} (hs : os = some cur) :
    ∃ dv ov tv, od = some dv ∧ oo = some ov ∧ ot = some tv ∧
      NRel dv ov cur tv := by
  subst hs
  cases od <;> cases oo <;> cases ot <;>
    first
      | exact h.elim
      | exact ⟨_, _, _, rfl, rfl, rfl, h⟩

theorem optionNRel_mk {d o s t : NodeData} (h : NRel d o s t) :
    optionNRel (some d) (some s) (some o) (some t) := h

/-- The master invariant of the replay: the run-2 state has the same two
cursors, and every node entry is `NRel`-related to the run-1 entry, with
`init` the run-1 starting array and `out` the run-1 final array. -/
def stateRel (init : List NodeData) (S : FlowState) (out : List NodeData)
    (T : FlowState) : Prop :=
  T.current = S.current ∧ T.nextIdx = S.nextIdx ∧
  T.nodes.length = S.nodes.length ∧
  ∀ i : Nat, optionNRel init[i]? S.nodes[i]? out[i]? T.nodes[i]?

/-- One-step replay: from `NRel`-related states, the run-2 loop body takes
the same branch, succeeds, and re-establishes the relation.  `out` is the
run-1 final array; the two stability hypotheses say the nodes at the `next`
cursors before and after the step are already final in run 1. -/
theorem traceStep_replay {rank : Nat → Nat} {init out : List NodeData}
    {S T S' : FlowState}
    (hwf : WF S.nodes rank) (hcursor : cursorInv S)
    (hstep : traceStep S = Except.ok (some S'))
    (hrel : stateRel init S out T)
    (hfutN : ∀ j : Nat, optionEvolves S'.nodes[j]? out[j]?)
    (hnfin : out[S.nextIdx]? = S.nodes[S.nextIdx]?)
    (hnfin2 : out[S'.nextIdx]? = S'.nodes[S'.nextIdx]?) :
    ∃ T', traceStep T = Except.ok (some T') ∧
      stateRel init S' out T' := by
  obtain ⟨hcw, hnw, hlenTS, hall⟩ := hrel
  unfold traceStep at hstep
  split at hstep
  · exact Option.noConfusion (Except.ok.inj hstep)
  · exact Except.noConfusion hstep
  · rename_i ci hsc
    split at hstep
    · rename_i cur nxt hcur hnext
      have hcilt : ci < S.nodes.length := (List.getElem?_eq_some.mp hcur).1
      obtain ⟨dc, oc, tc, hdc, hoc, htc, hrelc⟩ :=
        optionNRel_inv_s (hall ci) hcur
      obtain ⟨dnn, onn, tnn, hdnn, honn, htnn, hreln⟩ :=
        optionNRel_inv_s (hall S.nextIdx) hnext
      have honn_eq : onn = nxt := by
        rw [hnext] at hnfin
        exact Option.some.inj (honn.symm.trans hnfin)
      have hnext_static : StaticRel nxt tnn := hreln.statics
      have hnext_tr : tnn.tracking = nxt.tracking := by
        rw [hreln.tr, honn_eq]
      have htcr : T.current = Ref.node ci := hcw.trans hsc
      have hTnext : T.nodes[T.nextIdx]? = some tnn := by
        rw [hnw]; exact htnn
      obtain ⟨n0, hn0, hc0⟩ := hcursor
      have hn0e : n0 = nxt := Option.some.inj (hn0.symm.trans hnext)
      have hprev : nxt.prev = Ref.node ci := by
        rw [← hn0e]
        exact hc0.symm.trans hsc
      split at hstep
      · rename_i hncall
        split at hstep
        · exact Except.noConfusion hstep
        · rename_i s1 hbody
          cases Except.ok.inj hstep
          have hfutci : optionEvolves (S.nodes.set ci s1)[ci]? out[ci]? :=
            hfutN ci
          rw [List.getElem?_set, if_pos rfl, if_pos hcilt, hoc] at hfutci
          have hfut1 : Evolves s1 oc := hfutci
          obtain ⟨t1, hbt, hrel1⟩ := case1_replay hrelc hbody hfut1
          have hncall2 : ¬tc.is_callsite = true := by
            rw [show tc.is_callsite = cur.is_callsite by
              unfold NodeData.is_callsite
              rw [hrelc.statics.step_into_eq]]
            exact hncall
          refine ⟨⟨T.nodes.set ci t1, t1.prev, ci⟩, ?_, ?_⟩
          · unfold traceStep
            simp only [htcr, htc, hTnext]
            rw [if_pos hncall2]
            rw [case1Body_congr tc hnext_static hnext_tr]
            simp only [hbt]
          · refine ⟨hrel1.statics.prev_eq, rfl, ?_, ?_⟩
            · show (T.nodes.set ci t1).length = (S.nodes.set ci s1).length
              rw [List.length_set, List.length_set]
              exact hlenTS
            · intro j
              show optionNRel init[j]? (S.nodes.set ci s1)[j]? out[j]?
                (T.nodes.set ci t1)[j]?
              by_cases hj : ci = j
              · subst hj
                rw [List.getElem?_set, if_pos rfl, if_pos hcilt,
                  List.getElem?_set, if_pos rfl,
                  if_pos (by rw [hlenTS]; exact hcilt), hdc, hoc]
                exact hrel1
              · rw [List.getElem?_set, if_neg hj,
                  List.getElem?_set, if_neg hj]
                exact hall j
      · rename_i hcall1
        have hcall : cur.is_callsite = true := not_not.mp hcall1
        have hcall2 : tc.is_callsite = true := by
          rw [show tc.is_callsite = cur.is_callsite by
            unfold NodeData.is_callsite
            rw [hrelc.statics.step_into_eq]]
          exact hcall
        split at hstep
        · rename_i hsi
          split at hstep
          · exact Except.noConfusion hstep
          · rename_i s1 hbody
            cases Except.ok.inj hstep
            have hfutci : optionEvolves (S.nodes.set ci s1)[ci]?
                out[ci]? := hfutN ci
            rw [List.getElem?_set, if_pos rfl, if_pos hcilt, hoc]
              at hfutci
            have hfut1 : Evolves s1 oc := hfutci
            obtain ⟨t1, hbt, hrel1⟩ := case2_replay hrelc hbody hfut1
            have hsi2 : tc.step_into = Ref.node T.nextIdx := by
              rw [hrelc.statics.step_into_eq, hnw]
              exact hsi
            refine ⟨⟨T.nodes.set ci t1, t1.prev, ci⟩, ?_, ?_⟩
            · unfold traceStep
              simp only [htcr, htc, hTnext]
              rw [if_neg (not_not_intro hcall2), if_pos hsi2]
              rw [case2Body_congr tc hnext_static hnext_tr]
              simp only [hbt]
            · refine ⟨hrel1.statics.prev_eq, rfl, ?_, ?_⟩
              · show (T.nodes.set ci t1).length =
                  (S.nodes.set ci s1).length
                rw [List.length_set, List.length_set]
                exact hlenTS
              · intro j
                show optionNRel init[j]? (S.nodes.set ci s1)[j]? out[j]?
                  (T.nodes.set ci t1)[j]?
                by_cases hj : ci = j
                · subst hj
                  rw [List.getElem?_set, if_pos rfl, if_pos hcilt,
                    List.getElem?_set, if_pos rfl,
                    if_pos (by rw [hlenTS]; exact hcilt), hdc, hoc]
                  exact hrel1
                · rw [List.getElem?_set, if_neg hj,
                    List.getElem?_set, if_neg hj]
                  exact hall j
        · rename_i hsi
          split at hstep
          · rename_i ri hret
            split at hstep
            · rename_i rfS hrfS
              split at hstep
              · exact Except.noConfusion hstep
              · rename_i s1 rf1 hbody
                cases Except.ok.inj hstep
                have hrilt : ri < S.nodes.length :=
                  (List.getElem?_eq_some.mp hrfS).1
                obtain ⟨r2, hrret2, hrlt2, hrk2, hrne2⟩ :=
                  hwf.rf_rank S.nextIdx nxt ci cur hnext hprev hcur
                    hcall hsi
                have hr2e : r2 = ri :=
                  Ref.node.inj (hrret2.symm.trans hret)
                have hrne : ri ≠ ci := hr2e ▸ hrne2
                obtain ⟨dr, orr, tr2, hdr, horr, htr2, hrelr⟩ :=
                  optionNRel_inv_s (hall ri) hrfS
                have hS'ri : ((S.nodes.set ci s1).set ri rf1)[ri]? =
                    some rf1 := by
                  rw [List.getElem?_set, if_pos rfl,
                    if_pos (by rw [List.length_set]; exact hrilt)]
                have horr_eq : orr = rf1 := by
                  have h2 : out[ri]? = some rf1 := by
                    rw [hnfin2]
                    exact hS'ri
                  exact Option.some.inj (horr.symm.trans h2)
                have hfutci : optionEvolves
                    ((S.nodes.set ci s1).set ri rf1)[ci]? out[ci]? :=
                  hfutN ci
                rw [List.getElem?_set, if_neg hrne, List.getElem?_set,
                  if_pos rfl, if_pos hcilt, hoc] at hfutci
                have hfut1 : Evolves s1 oc := hfutci
                obtain ⟨t1, rt1, hbt, hrel1, hrelrf1⟩ :=
                  case3_replay hrelc hrelr hbody hfut1 horr_eq
                have hTri : T.nodes[ri]? = some tr2 := htr2
                refine ⟨⟨(T.nodes.set ci t1).set ri rt1, rt1.prev, ri⟩,
                  ?_, ?_⟩
                · have hsi2 : ¬tc.step_into = Ref.node T.nextIdx := by
                    rw [hrelc.statics.step_into_eq, hnw]
                    exact hsi
                  have hret2 : tc.returned_from = Ref.node ri := by
                    rw [hrelc.statics.returned_from_eq]
                    exact hret
                  unfold traceStep
                  simp only [htcr, htc, hTnext]
                  rw [if_neg (not_not_intro hcall2), if_neg hsi2]
                  rw [hret2]
                  simp only [hTri]
                  rw [case3Body_congr tc tr2 hnext_static hnext_tr]
                  simp only [hbt]
                · refine ⟨hrelrf1.statics.prev_eq, rfl, ?_, ?_⟩
                  · show ((T.nodes.set ci t1).set ri rt1).length =
                      ((S.nodes.set ci s1).set ri rf1).length
                    rw [List.length_set, List.length_set,
                      List.length_set, List.length_set]
                    exact hlenTS
                  · intro j
                    show optionNRel init[j]?
                      ((S.nodes.set ci s1).set ri rf1)[j]? out[j]?
                      ((T.nodes.set ci t1).set ri rt1)[j]?
                    simp only [List.getElem?_set]
                    by_cases hjr : ri = j
                    · subst hjr
                      rw [if_pos rfl,
                        if_pos (by rw [List.length_set]; exact hrilt),
                        if_pos rfl,
                        if_pos (by rw [List.length_set, hlenTS]; exact hrilt),
                        hdr, horr]
                      exact hrelrf1
                    · rw [if_neg hjr, if_neg hjr]
                      by_cases hjc : ci = j
                      · subst hjc
                        rw [if_pos rfl, if_pos hcilt, if_pos rfl,
                          if_pos (by rw [hlenTS]; exact hcilt),
                          hdc, hoc]
                        exact hrel1
                      · rw [if_neg hjc, if_neg hjc]
                        exact hall j
            · exact Except.noConfusion hstep
          · exact Except.noConfusion hstep
    · exact Except.noConfusion hstep

/-- A loop step writes only nodes strictly earlier in execution order than
the `next` cursor: every node of rank at least `rank nextIdx` is untouched. -/
theorem traceStep_stable {rank : Nat → Nat} {S S' : FlowState}
    (hwf : WF S.nodes rank) (hcursor : cursorInv S)
    (hstep : traceStep S = Except.ok (some S')) :
    ∀ i : Nat, rank S.nextIdx ≤ rank i → S'.nodes[i]? = S.nodes[i]? := by
  obtain ⟨n0, hn0, hc0⟩ := hcursor
  unfold traceStep at hstep
  split at hstep
  · exact Option.noConfusion (Except.ok.inj hstep)
  · exact Except.noConfusion hstep
  · rename_i ci hsc
    split at hstep
    · rename_i cur nxt hcur hnext
      have hn0e : n0 = nxt := Option.some.inj (hn0.symm.trans hnext)
      have hprev : nxt.prev = Ref.node ci := by
        rw [← hn0e]
        exact hc0.symm.trans hsc
      obtain ⟨-, hrank⟩ := hwf.prev_rank S.nextIdx nxt ci hnext hprev
      have hcine : ∀ i : Nat, rank S.nextIdx ≤ rank i → ci ≠ i := by
        intro i hi he
        subst he
        exact absurd hrank (Nat.not_lt.mpr hi)
      split at hstep
      · rename_i hncall
        split at hstep
        · exact Except.noConfusion hstep
        · rename_i s1 hbody
          cases Except.ok.inj hstep
          intro i hi
          show (S.nodes.set ci s1)[i]? = S.nodes[i]?
          rw [List.getElem?_set, if_neg (hcine i hi)]
      · rename_i hcall1
        have hcall : cur.is_callsite = true := not_not.mp hcall1
        split at hstep
        · rename_i hsi
          split at hstep
          · exact Except.noConfusion hstep
          · rename_i s1 hbody
            cases Except.ok.inj hstep
            intro i hi
            show (S.nodes.set ci s1)[i]? = S.nodes[i]?
            rw [List.getElem?_set, if_neg (hcine i hi)]
        · rename_i hsi
          split at hstep
          · rename_i ri hret
            split at hstep
            · rename_i rfS hrfS
              split at hstep
              · exact Except.noConfusion hstep
              · rename_i s1 rf1 hbody
                cases Except.ok.inj hstep
                obtain ⟨r2, hrret2, -, hrk2, -⟩ :=
                  hwf.rf_rank S.nextIdx nxt ci cur hnext hprev hcur
                    hcall hsi
                have hr2e : r2 = ri :=
                  Ref.node.inj (hrret2.symm.trans hret)
                have hrk3 : rank ri < rank S.nextIdx := hr2e ▸ hrk2
                intro i hi
                have hrine : ri ≠ i := by
                  intro he
                  subst he
                  exact absurd hrk3 (Nat.not_lt.mpr hi)
                show ((S.nodes.set ci s1).set ri rf1)[i]? = S.nodes[i]?
                rw [List.getElem?_set, if_neg hrine,
                  List.getElem?_set, if_neg (hcine i hi)]
            · exact Except.noConfusion hstep
          · exact Except.noConfusion hstep
    · exact Except.noConfusion hstep

theorem traceLoop_evolves :
    ∀ (fuel : Nat) (s final : FlowState),
    traceLoop fuel s = Except.ok final →
    (∀ j : Nat, optionEvolves s.nodes[j]? final.nodes[j]?) ∧
      final.nodes.length = s.nodes.length := by
  intro fuel
  induction fuel with
  | zero =>
    intro s final h
    cases h
    exact ⟨fun j => optionEvolves_refl _, rfl⟩
  | succ fuel ih =>
    intro s final h
    unfold traceLoop at h
    split at h
    · exact Except.noConfusion h
    · cases h; exact ⟨fun j => optionEvolves_refl _, rfl⟩
    · rename_i s1 hstep
      obtain ⟨hev, hlen⟩ := traceStep_evolves hstep
      obtain ⟨hev2, hlen2⟩ := ih s1 final h
      exact ⟨fun j => optionEvolves_trans (hev j) (hev2 j),
        hlen2.trans hlen⟩

/-- Once a node serves as the `next` of the loop, it is final: the rest of
the run does not modify it. -/
theorem traceLoop_stable {rank : Nat → Nat} :
    ∀ (fuel : Nat) (S final : FlowState), WF S.nodes rank → stateInv S →
    cursorInv S → traceLoop fuel S = Except.ok final →
    ∀ i : Nat, rank S.nextIdx ≤ rank i →
    final.nodes[i]? = S.nodes[i]? := by
  intro fuel
  induction fuel with
  | zero =>
    intro S final _ _ _ h i hi
    cases h
    rfl
  | succ fuel ih =>
    intro S final hwf hinv hcur h i hi
    unfold traceLoop at h
    split at h
    · exact Except.noConfusion h
    · cases h; rfl
    · rename_i S1 hstep
      obtain ⟨hev, hlen⟩ := traceStep_evolves hstep
      have hwf1 := WF_of_evolves hwf hev hlen
      have hinv1 := traceStep_inv hstep hinv
      rcases traceStep_ok hwf hinv hcur with ⟨-, hnone⟩ |
        ⟨S1', hsome, hcur1, hrk⟩
      · rw [hstep] at hnone
        exact Option.noConfusion (Except.ok.inj hnone)
      · rw [hstep] at hsome
        cases Option.some.inj (Except.ok.inj hsome)
        have hstb := traceStep_stable hwf hcur hstep i hi
        rw [ih S1 final hwf1 hinv1 hcur1 h i
          (le_of_lt (lt_of_lt_of_le hrk hi))]
        exact hstb

theorem traceStep_none {S : FlowState}
    (h : traceStep S = Except.ok none) : S.current = Ref.root := by
  unfold traceStep at h
  split at h
  · rename_i hsc
    exact hsc
  · exact Except.noConfusion h
  · rename_i ci hsc
    split at h
    · split at h
      · split at h
        · exact Except.noConfusion h
        · exact Option.noConfusion (Except.ok.inj h)
      · split at h
        · split at h
          · exact Except.noConfusion h
          · exact Option.noConfusion (Except.ok.inj h)
        · split at h
          · split at h
            · split at h
              · exact Except.noConfusion h
              · exact Option.noConfusion (Except.ok.inj h)
            · exact Except.noConfusion h
          · exact Except.noConfusion h
    · exact Except.noConfusion h

/-- Whole-loop replay: run 2 follows run 1 step by step, exits at the same
point, and ends `NRel`-related to run 1's final state. -/
theorem traceLoop_replay {rank : Nat → Nat} {init out : List NodeData} :
    ∀ (fuel : Nat) (S T final : FlowState),
    WF S.nodes rank → stateInv S → cursorInv S →
    traceLoop fuel S = Except.ok final →
    out = final.nodes →
    stateRel init S out T →
    ∃ finalT, traceLoop fuel T = Except.ok finalT ∧
      stateRel init final out finalT := by
  intro fuel
  induction fuel with
  | zero =>
    intro S T final _ _ _ h hout hrel
    cases h
    exact ⟨T, rfl, hrel⟩
  | succ fuel ih =>
    intro S T final hwf hinv hcur h hout hrel
    unfold traceLoop at h
    split at h
    · exact Except.noConfusion h
    · rename_i hstep
      cases h
      have hroot : S.current = Ref.root := traceStep_none hstep
      have htroot : T.current = Ref.root := hrel.1.trans hroot
      have hstepT : traceStep T = Except.ok none := by
        unfold traceStep
        rw [htroot]
      refine ⟨T, ?_, hrel⟩
      unfold traceLoop
      rw [hstepT]
    · rename_i S1 hstep
      obtain ⟨hev, hlen⟩ := traceStep_evolves hstep
      have hwf1 := WF_of_evolves hwf hev hlen
      have hinv1 := traceStep_inv hstep hinv
      rcases traceStep_ok hwf hinv hcur with ⟨-, hnone⟩ |
        ⟨S1', hsome, hcur1, hrk⟩
      · rw [hstep] at hnone
        exact Option.noConfusion (Except.ok.inj hnone)
      · rw [hstep] at hsome
        cases Option.some.inj (Except.ok.inj hsome)
        have horig : traceLoop (fuel + 1) S = Except.ok final := by
          unfold traceLoop
          rw [hstep]
          exact h
        have hstab1 : out[S.nextIdx]? = S.nodes[S.nextIdx]? := by
          rw [hout]
          exact traceLoop_stable (fuel + 1) S final hwf hinv hcur horig
            S.nextIdx (le_refl _)
        have hstab2 : out[S1.nextIdx]? = S1.nodes[S1.nextIdx]? := by
          rw [hout]
          exact traceLoop_stable fuel S1 final hwf1 hinv1 hcur1 h
            S1.nextIdx (le_refl _)
        have hfutN : ∀ j : Nat, optionEvolves S1.nodes[j]? out[j]? := by
          intro j
          rw [hout]
          exact (traceLoop_evolves fuel S1 final h).1 j
        obtain ⟨T1, hstepT, hrel1⟩ :=
          traceStep_replay hwf hcur hstep hrel hfutN hstab1 hstab2
        obtain ⟨finalT, hloopT, hrelF⟩ :=
          ih S1 T1 final hwf1 hinv1 hcur1 h hout hrel1
        refine ⟨finalT, ?_, hrelF⟩
        unfold traceLoop
        rw [hstepT]
        exact hloopT

/-- **C4, counterexample**: running the backward slicer twice on the
concrete flow does not yield the same per-node `var_appearances` as running
it once — the second pass appends the appearance records again. -/
theorem C4_counterexample :
    Except.map (fun f => f.nodes.map NodeData.var_appearances)
        ((trace_flow 2 exFlow).bind (trace_flow 2)) ≠
      Except.map (fun f => f.nodes.map NodeData.var_appearances)
        (trace_flow 2 exFlow) := by decide

/-- **C4, amended**: on a well-formed flow, rerunning `trace_flow` on the
result of a successful run succeeds and yields, on every node, exactly the
same `tracking` set and `is_relevant_return` flag and unchanged static
fields — but it appends to `var_appearances`, `var_modifications` and
`var_switches` exactly the same record block the first run appended
(doubling them when the collections started empty), because the
change-record collections are plain lists extended by every pass while the
tracking set and the flag absorb re-insertions. -/
theorem C4_rerun_appends_same_records {rank : Nat → Nat} {f : Flow}
    {tgt : NodeData} {fuel : Nat} {f' : Flow}
    (hwf : WF f.nodes rank) (hinv : flowInv f)
    (htgt : f.nodes[f.target]? = some tgt)
    (hrun : trace_flow fuel f = Except.ok f') :
    ∃ f'', trace_flow fuel f' = Except.ok f'' ∧
      f''.nodes.length = f'.nodes.length ∧
      ∀ (i : Nat) (n0 n1 n2 : NodeData), f.nodes[i]? = some n0 →
        f'.nodes[i]? = some n1 → f''.nodes[i]? = some n2 →
        n2.tracking = n1.tracking ∧
        n2.is_relevant_return = n1.is_relevant_return ∧
        StaticRel n1 n2 ∧
        (∃ δ, n1.var_appearances = n0.var_appearances ++ δ ∧
          n2.var_appearances = n1.var_appearances ++ δ) ∧
        (∃ δ, n1.var_modifications = n0.var_modifications ++ δ ∧
          n2.var_modifications = n1.var_modifications ++ δ) ∧
        (∃ δ, n1.var_switches = n0.var_switches ++ δ ∧
          n2.var_switches = n1.var_switches ++ δ) := by
  unfold trace_flow at hrun
  simp only [htgt] at hrun
  cases hloop : traceLoop fuel ⟨f.nodes, tgt.prev, f.target⟩ with
  | error e =>
    simp only [hloop] at hrun
    exact Except.noConfusion hrun
  | ok final =>
    simp only [hloop] at hrun
    cases Except.ok.inj hrun
    have hcur : cursorInv ⟨f.nodes, tgt.prev, f.target⟩ :=
      ⟨tgt, htgt, rfl⟩
    obtain ⟨hevL, hlenL⟩ := traceLoop_evolves fuel _ final hloop
    have hfutT := hevL f.target
    cases htgt2 : final.nodes[f.target]? with
    | none =>
      rw [htgt, htgt2] at hfutT
      exact hfutT.elim
    | some tgt2 =>
      rw [htgt, htgt2] at hfutT
      have hevT : Evolves tgt tgt2 := hfutT
      have hrel0 : stateRel f.nodes ⟨f.nodes, tgt.prev, f.target⟩
          final.nodes ⟨final.nodes, tgt2.prev, f.target⟩ := by
        refine ⟨?_, rfl, ?_, ?_⟩
        · show tgt2.prev = tgt.prev
          exact hevT.prev_eq
        · exact hlenL
        · intro i
          have hi := hevL i
          show optionNRel f.nodes[i]? f.nodes[i]? final.nodes[i]?
            final.nodes[i]?
          cases hfi : f.nodes[i]? with
          | none =>
            rw [hfi] at hi
            cases hoi : final.nodes[i]? with
            | none => exact trivial
            | some x => rw [hoi] at hi; exact hi.elim
          | some d =>
            rw [hfi] at hi
            cases hoi : final.nodes[i]? with
            | none => rw [hoi] at hi; exact hi.elim
            | some od =>
              rw [hoi] at hi
              have hevd : Evolves d od := hi
              exact optionNRel_mk ⟨hevd.static, rfl, rfl, rsync_refl d od⟩
      obtain ⟨finalT, hloopT, hrelF⟩ := traceLoop_replay fuel
        ⟨f.nodes, tgt.prev, f.target⟩ ⟨final.nodes, tgt2.prev, f.target⟩
        final hwf hinv hcur hloop rfl hrel0
      refine ⟨{ f with nodes := finalT.nodes }, ?_, ?_, ?_⟩
      · unfold trace_flow
        simp only [htgt2]
        simp only [hloopT]
      · show finalT.nodes.length = final.nodes.length
        exact hrelF.2.2.1
      · intro i n0 n1 n2 h0 h1 h2
        have hi := hrelF.2.2.2 i
        have h1a : final.nodes[i]? = some n1 := h1
        have h2a : finalT.nodes[i]? = some n2 := h2
        rw [h0, h1a, h2a] at hi
        have hnrel : NRel n0 n1 n1 n2 := hi
        exact ⟨hnrel.tr, hnrel.irr, hnrel.statics, hnrel.recs.apps,
          hnrel.recs.mods, hnrel.recs.sws⟩

/-- Witness for C4's amended theorem: the concrete two-node flow satisfies
the hypotheses, the first run succeeds, and the theorem applies to it. -/
theorem C4_witness :
    flowInv exFlow ∧ exFlow.nodes[exFlow.target]? = some c7tgt ∧
    ∃ f1, trace_flow 2 exFlow = Except.ok f1 ∧
      ∃ f2, trace_flow 2 f1 = Except.ok f2 ∧
        f2.nodes.length = f1.nodes.length ∧
        ∀ (i : Nat) (n0 n1 n2 : NodeData),
          exFlow.nodes[i]? = some n0 →
          f1.nodes[i]? = some n1 → f2.nodes[i]? = some n2 →
          n2.tracking = n1.tracking ∧
          n2.is_relevant_return = n1.is_relevant_return ∧
          StaticRel n1 n2 ∧
          (∃ δ, n1.var_appearances = n0.var_appearances ++ δ ∧
            n2.var_appearances = n1.var_appearances ++ δ) ∧
          (∃ δ, n1.var_modifications = n0.var_modifications ++ δ ∧
            n2.var_modifications = n1.var_modifications ++ δ) ∧
          (∃ δ, n1.var_switches = n0.var_switches ++ δ ∧
            n2.var_switches = n1.var_switches ++ δ) := by
  refine ⟨by unfold flowInv trackingInv; decide, by decide, ?_⟩
  cases hrun : trace_flow 2 exFlow with
  | error e => cases e; exact absurd hrun (by decide)
  | ok f1 =>
    exact ⟨f1, rfl, C4_rerun_appends_same_records exFlow_wf
      (by unfold flowInv trackingInv; decide)
      (show exFlow.nodes[exFlow.target]? = some c7tgt by decide) hrun⟩
